import Mathlib

/-!
# isync `util.c`: the event dispatcher

A shallow embedding of the registration table (`find_fd`, `add_fd`, `conf_fd`,
`fake_fd`, `del_fd`) and of the sweep (`event_wait`) of `src/util.c`, once for each
of the two configurations the file compiles to:

* `Poll`   : `HAVE_SYS_POLL_H` defined, two parallel arrays `pollfds` / `fdparms`;
* `Select` : `HAVE_SYS_POLL_H` undefined, `pollfds` is a second name of `fdparms`.

Conventions.

* The arrays are lists holding the whole allocation (`rpolls` elements); the live
  range is the first `npolls` elements, what follows is stale storage.
* `int` event masks are their bit patterns, natural numbers; `&`, `|` are the
  bitwise operations on them and `if (m)` is `m ≠ 0`.
* A function pointer and a `void *` are natural numbers (addresses).
* `abort()` and a failed `assert` are `none`.  `nfrealloc` is taken to succeed.
* A callback acts on the dispatcher only through the four table operations, that
  return nothing, so what a callback does is the list of the operations it
  performs, chosen from its arguments and from the state `W` of the rest of the
  program.
-/

namespace Isync

/-! ## Shared definitions -/

/-- Bit positions of the event flags of `<sys/poll.h>`.  The header is not part of
the repository, so the positions are a parameter (`linux` gives the usual ones). -/
structure PollBits where
  pollin : Nat
  pollout : Nat
  pollerr : Nat
  pollhup : Nat
  pollnval : Nat
deriving DecidableEq, Repr

namespace PollBits

def POLLIN (B : PollBits) : Nat := 2 ^ B.pollin
def POLLOUT (B : PollBits) : Nat := 2 ^ B.pollout
def POLLERR (B : PollBits) : Nat := 2 ^ B.pollerr
def POLLHUP (B : PollBits) : Nat := 2 ^ B.pollhup
def POLLNVAL (B : PollBits) : Nat := 2 ^ B.pollnval

/-- The values of Linux: POLLIN 1, POLLOUT 4, POLLERR 8, POLLHUP 16, POLLNVAL 32. -/
def linux : PollBits := ⟨0, 2, 3, 4, 5⟩

end PollBits

/-- The macro `shifted_bit(in, from, to)`. -/
def shifted_bit (x frm tgt : Nat) : Nat :=
  (x &&& frm) / (if frm > tgt then frm / tgt else 1) * (if tgt > frm then tgt / frm else 1)

/-- What `memmove( a + d, a + s, cnt * sizeof(*a) )` leaves in the array `a`. -/
def memmove {α : Type} (a : List α) (d s cnt : Nat) : List α :=
  a.take d ++ (a.drop s).take cnt ++ a.drop (d + cnt)

/-- What `nfrealloc( a, n * sizeof(*a) )` returns: the first `n` elements of `a`,
followed by fresh storage when `a` was shorter. -/
def nfrealloc {α : Type} (a : List α) (n : Nat) (fresh : α) : List α :=
  a.take n ++ List.replicate (n - a.length) fresh

/-- One call of a table operation, as a callback makes it. -/
inductive Op where
  | add (fd : Int) (cb aux : Nat)
  | conf (fd : Int) (and_events or_events : Nat)
  | fake (fd : Int) (events : Nat)
  | del (fd : Int)
deriving DecidableEq, Repr

/-- An `add_fd` or a `del_fd`. -/
def Op.mutates : Op → Bool
  | .add _ _ _ => true
  | .del _ => true
  | _ => false

/-- The callbacks of the program: `code cb what aux w` is what the function at
address `cb` does when called as `cb( what, aux )` in program state `w`. -/
abbrev Code (W : Type) := Nat → Nat → Nat → W → List Op × W

/-- A mask with POLLIN added when it has POLLHUP. -/
def deliver (B : PollBits) (m : Nat) : Nat :=
  m ||| (if m &&& B.POLLHUP ≠ 0 then B.POLLIN else 0)

/-- How a run of `main_loop` ends: it returns, the process aborts, or the iterations
allowed are used up while the loop is still running. -/
inductive Ran (α : Type) where
  | returned (a : α)
  | aborted
  | unfinished

/-! ## The configuration with `poll` -/

namespace Poll

/-- The fields of `struct pollfd`; `events` and `revents` are of type `short`, kept here as
bit patterns. -/
structure pollfd where
  fd : Int
  events : Nat
  revents : Nat
deriving DecidableEq, Repr

instance : Inhabited pollfd := ⟨⟨0, 0, 0⟩⟩

/-- An element of `fdparms` when `HAVE_SYS_POLL_H` is defined. -/
structure fdparm where
  cb : Nat
  aux : Nat
  faked : Nat
deriving DecidableEq, Repr

instance : Inhabited fdparm := ⟨⟨0, 0, 0⟩⟩

/-- The static variables `pollfds`, `fdparms`, `npolls`, `rpolls`, `changed`. -/
structure State where
  pollfds : List pollfd
  fdparms : List fdparm
  npolls : Nat
  rpolls : Nat
  changed : Bool
deriving DecidableEq, Repr

/-- The state at program start: null pointers and zeros. -/
def init : State := ⟨[], [], 0, 0, false⟩

/-- The loop of `find_fd`, at index `n` with `k` iterations left. -/
def find_fd_loop (pollfds : List pollfd) (fd : Int) : Nat → Nat → Option Nat
  | 0, _ => none
  | k + 1, n => if (pollfds.getD n default).fd = fd then some n else find_fd_loop pollfds fd k (n + 1)

/-- The index of `fd` in the live range; `none` is the `-1` of the source. -/
def find_fd (s : State) (fd : Int) : Option Nat :=
  find_fd_loop s.pollfds fd s.npolls 0

def add_fd (s : State) (fd : Int) (cb aux : Nat) : Option State :=
  match find_fd s fd with
  | some _ => none
  | none =>
    let n := s.npolls
    let npolls := s.npolls + 1
    let grow : Bool := decide (s.rpolls < npolls)
    let rpolls := if grow then npolls else s.rpolls
    let pollfds := if grow then nfrealloc s.pollfds npolls default else s.pollfds
    let fdparms := if grow then nfrealloc s.fdparms npolls default else s.fdparms
    let pollfds := pollfds.set n { pollfds.getD n default with fd := fd, events := 0 }
    let fdparms := fdparms.set n { faked := 0, cb := cb, aux := aux }
    some { pollfds := pollfds, fdparms := fdparms, npolls := npolls, rpolls := rpolls, changed := true }

/-- The function `conf_fd`. The expression is an `int`, and `pollfds[n].events` is the 16-bit
`short` of `struct pollfd`: the assignment stores the low 16 bits. -/
def conf_fd (s : State) (fd : Int) (and_events or_events : Nat) : Option State :=
  match find_fd s fd with
  | none => none
  | some n =>
    let p := s.pollfds.getD n default
    some { s with
      pollfds := s.pollfds.set n { p with events := ((p.events &&& and_events) ||| or_events) % 2 ^ 16 } }

def fake_fd (s : State) (fd : Int) (events : Nat) : Option State :=
  match find_fd s fd with
  | none => none
  | some n =>
    let p := s.fdparms.getD n default
    some { s with fdparms := s.fdparms.set n { p with faked := p.faked ||| events } }

def del_fd (s : State) (fd : Int) : Option State :=
  match find_fd s fd with
  | none => none
  | some n =>
    let npolls := s.npolls - 1
    some { s with
      npolls := npolls
      pollfds := memmove s.pollfds n (n + 1) (npolls - n)
      fdparms := memmove s.fdparms n (n + 1) (npolls - n)
      changed := true }

/-- One table operation. -/
def step (s : State) : Op → Option State
  | .add fd cb aux => add_fd s fd cb aux
  | .conf fd a o => conf_fd s fd a o
  | .fake fd e => fake_fd s fd e
  | .del fd => del_fd s fd

/-- The table operations of a callback, in order; `none` when an assertion fails. -/
def run_ops : List Op → State → Option State
  | [], s => some s
  | op :: ops, s =>
    match step s op with
    | none => none
    | some s1 => run_ops ops s1

/-- One callback invocation of a sweep: the index `n` of the element, the call
`cb( what, aux )` made, the state `seen` when the loop reached the element, the
state `before` when the callback was entered, the operations `ops` the callback
performed and the state `after` they left. -/
structure Call where
  n : Nat
  cb : Nat
  what : Nat
  aux : Nat
  seen : State
  before : State
  ops : List Op
  after : State
deriving DecidableEq, Repr

/-- What one `event_wait` did: the callbacks it invoked, in order, and the state of
the dispatcher and of the program when it returned. -/
structure Result (W : Type) where
  calls : List Call
  s : State
  w : W

/-- The timeout loop of `event_wait`, at index `n` with `k` iterations left. -/
def timeout_loop (fdparms : List fdparm) : Nat → Nat → Int
  | 0, _ => -1
  | k + 1, n => if (fdparms.getD n default).faked ≠ 0 then 0 else timeout_loop fdparms k (n + 1)

/-- The timeout `event_wait` passes to `poll`. -/
def timeout (s : State) : Int := timeout_loop s.fdparms s.npolls 0

/-- The system call `poll( fds, nfds, timeout )` in program state `w`: its return
value and the `revents` it stores for each of the `nfds` elements. -/
abbrev PollCall (W : Type) := List pollfd → Nat → Int → W → (Int × (Nat → Nat)) × W

/-- The array after `poll` stored `revents` in its first `k` elements (from index `i`). -/
def store_revents (rep : Nat → Nat) : List pollfd → Nat → Nat → List pollfd
  | [], _, _ => []
  | p :: ps, 0, _ => p :: ps
  | p :: ps, k + 1, i => { p with revents := rep i } :: store_revents rep ps k (i + 1)

/-- The dispatch loop of `event_wait`, at index `n`; `k` bounds the iterations left
(`poll_sweep_fuel` shows that the bound `npolls - n` is never the reason to stop). -/
def sweep {W : Type} (B : PollBits) (code : Code W) : Nat → Nat → State → W → Option (Result W)
  | 0, _, s, w => some ⟨[], s, w⟩
  | k + 1, n, s, w =>
    if n < s.npolls then
      let m := (s.pollfds.getD n default).revents ||| (s.fdparms.getD n default).faked
      if m ≠ 0 then
        if m &&& B.POLLNVAL ≠ 0 then none
        else
          let p := s.fdparms.getD n default
          let s1 := { s with fdparms := s.fdparms.set n { p with faked := 0 } }
          let what := m ||| shifted_bit m B.POLLHUP B.POLLIN
          let r := code p.cb what p.aux w
          match run_ops r.1 s1 with
          | none => none
          | some s2 =>
            let c : Call := ⟨n, p.cb, what, p.aux, s, s1, r.1, s2⟩
            if s2.changed then some ⟨[c], { s2 with changed := false }, r.2⟩
            else
              match sweep B code k (n + 1) s2 r.2 with
              | none => none
              | some res => some { res with calls := c :: res.calls }
      else sweep B code k (n + 1) s w
    else some ⟨[], s, w⟩

def event_wait {W : Type} (B : PollBits) (poll : PollCall W) (code : Code W) (s : State) (w : W) :
    Option (Result W) :=
  let r := poll s.pollfds s.npolls (timeout s) w
  if r.1.1 < 0 then none
  else
    let s1 := { s with pollfds := store_revents r.1.2 s.pollfds s.npolls 0 }
    sweep B code s1.npolls 0 s1 r.2

/-- The element `pollfds[n]`. -/
abbrev pfd (s : State) (n : Nat) : pollfd := s.pollfds.getD n default

/-- The element `fdparms[n]`. -/
abbrev parm (s : State) (n : Nat) : fdparm := s.fdparms.getD n default

/-- Both arrays hold `rpolls` elements and the live range lies within them. -/
def WF (s : State) : Prop :=
  s.npolls ≤ s.rpolls ∧ s.pollfds.length = s.rpolls ∧ s.fdparms.length = s.rpolls

instance (s : State) : Decidable (WF s) := by unfold WF; infer_instance

/-- The descriptor `fd` has a live registration. -/
def registered (s : State) (fd : Int) : Prop :=
  ∃ n, n < s.npolls ∧ (pfd s n).fd = fd

/-- No two live registrations have the same descriptor. -/
def Unique (s : State) : Prop :=
  ∀ i, i < s.npolls → ∀ j, j < s.npolls → (pfd s i).fd = (pfd s j).fd → i = j

instance (s : State) : Decidable (Unique s) := by unfold Unique; infer_instance

/-- The mask `m` of the sweep for element `n`: reported bits or forced bits. -/
def eff (s : State) (n : Nat) : Nat := (pfd s n).revents ||| (parm s n).faked

/-- The state `s2` keeps the registrations of `s` in place (descriptor, reported bits, callback,
context) and, from index `n` on, at least their forced bits. -/
def Keeps (n : Nat) (s s2 : State) : Prop :=
  s2.npolls = s.npolls ∧ s2.rpolls = s.rpolls ∧ s2.changed = s.changed ∧
  s2.pollfds.length = s.pollfds.length ∧ s2.fdparms.length = s.fdparms.length ∧
  ∀ i, (pfd s2 i).fd = (pfd s i).fd ∧ (pfd s2 i).revents = (pfd s i).revents ∧
    (parm s2 i).cb = (parm s i).cb ∧ (parm s2 i).aux = (parm s i).aux ∧
    (n ≤ i → (parm s i).faked ||| (parm s2 i).faked = (parm s2 i).faked)

/-- The state in which the callback of element `n` is entered: `fdparms[n].faked = 0`. -/
def clear (s : State) (n : Nat) : State :=
  { s with fdparms := s.fdparms.set n { parm s n with faked := 0 } }

/-- What the sweep guarantees of a call it recorded. -/
def CallOK (B : PollBits) (c : Call) : Prop :=
  eff c.seen c.n ≠ 0 ∧ eff c.seen c.n &&& B.POLLNVAL = 0 ∧
  c.what = eff c.seen c.n ||| shifted_bit (eff c.seen c.n) B.POLLHUP B.POLLIN ∧
  c.cb = (parm c.seen c.n).cb ∧ c.aux = (parm c.seen c.n).aux ∧
  c.before = clear c.seen c.n ∧ run_ops c.ops c.before = some c.after

/-- The mask `event_wait` passes to the callback of element `n`. -/
def what (B : PollBits) (s : State) (n : Nat) : Nat :=
  eff s n ||| shifted_bit (eff s n) B.POLLHUP B.POLLIN

/-- What the callback of element `n` does when the sweep reaches it. -/
def act {W : Type} (B : PollBits) (code : Code W) (s : State) (n : Nat) (w : W) : List Op × W :=
  code (parm s n).cb (what B s n) (parm s n).aux w

/-- The record of the call for element `n`, `s2` being the state the callback left. -/
def call {W : Type} (B : PollBits) (code : Code W) (s : State) (n : Nat) (w : W) (s2 : State) : Call :=
  ⟨n, (parm s n).cb, what B s n, (parm s n).aux, s, clear s n, (act B code s n w).1, s2⟩

/-- The signature of a call: element, callback, mask, context. -/
def Call.sig (c : Call) : Nat × Nat × Nat × Nat := (c.n, c.cb, c.what, c.aux)

/-- The state after `poll` stored the reported bits `rep`. -/
def polled (s : State) (rep : Nat → Nat) : State :=
  { s with pollfds := store_revents rep s.pollfds s.npolls 0 }

/-- The effective mask of registration `i`: the bits `rep i` the environment reports
for it, or its forced bits. -/
def effective (rep : Nat → Nat) (s : State) (i : Nat) : Nat := rep i ||| (parm s i).faked

/-- The call of `poll` that `event_wait` makes, with its answer. -/
def wait {W : Type} (poll : PollCall W) (s : State) (w : W) : (Int × (Nat → Nat)) × W :=
  poll s.pollfds s.npolls (timeout s) w

/-- The largest entry count along the run of `ops` from `s`. -/
def peak : List Op → State → Nat
  | [], s => s.npolls
  | op :: ops, s =>
    match step s op with
    | none => s.npolls
    | some s1 => max s.npolls (peak ops s1)

/-- What a run of `main_loop` did: the calls of each `event_wait`, in order, and the
state of the dispatcher and of the program when it returned. -/
structure Run (W : Type) where
  sweeps : List (List Call)
  s : State
  w : W

/-- The function `main_loop`: `while (npolls) event_wait();`, with at most `k`
iterations. -/
def main_loop {W : Type} (B : PollBits) (poll : PollCall W) (code : Code W) :
    Nat → State → W → Ran (Run W)
  | 0, s, w => if s.npolls ≠ 0 then .unfinished else .returned ⟨[], s, w⟩
  | k + 1, s, w =>
    if s.npolls ≠ 0 then
      match event_wait B poll code s w with
      | none => .aborted
      | some r =>
        match main_loop B poll code k r.s r.w with
        | .returned x => .returned { x with sweeps := r.calls :: x.sweeps }
        | .aborted => .aborted
        | .unfinished => .unfinished
    else .returned ⟨[], s, w⟩

/-- The table holds one registration: descriptor `fd`, callback `cb`, context `aux`, no
forced bit. -/
def Solo (s : State) (fd : Int) (cb aux : Nat) : Prop :=
  WF s ∧ s.npolls = 1 ∧ (pfd s 0).fd = fd ∧ parm s 0 = ⟨cb, aux, 0⟩

/-- One callback invocation as the loop of `event_wait` makes it: the index `n`, the value
of `m`, and the call `cb( what, aux )`. -/
structure Invocation where
  n : Nat
  m : Nat
  cb : Nat
  what : Nat
  aux : Nat
deriving DecidableEq, Repr

/-- The dispatch loop of `event_wait` once more, keeping what `sweep` drops when an
assertion fails: the invocations made, in order, up to the end of the loop or to the failed
assertion, and what the loop leaves when it ends (`none` when an assertion failed, that of
`event_wait` or one inside a callback). -/
def sweep_log {W : Type} (B : PollBits) (code : Code W) :
    Nat → Nat → State → W → List Invocation × Option (State × W)
  | 0, _, s, w => ([], some (s, w))
  | k + 1, n, s, w =>
    if n < s.npolls then
      let m := (s.pollfds.getD n default).revents ||| (s.fdparms.getD n default).faked
      if m ≠ 0 then
        if m &&& B.POLLNVAL ≠ 0 then ([], none)
        else
          let p := s.fdparms.getD n default
          let s1 := { s with fdparms := s.fdparms.set n { p with faked := 0 } }
          let what := m ||| shifted_bit m B.POLLHUP B.POLLIN
          let r := code p.cb what p.aux w
          let c : Invocation := ⟨n, m, p.cb, what, p.aux⟩
          match run_ops r.1 s1 with
          | none => ([c], none)
          | some s2 =>
            if s2.changed then ([c], some ({ s2 with changed := false }, r.2))
            else
              let rest := sweep_log B code k (n + 1) s2 r.2
              (c :: rest.1, rest.2)
      else sweep_log B code k (n + 1) s w
    else ([], some (s, w))

/-- The function `event_wait` with the invocations it made, also when it aborts. -/
def event_log {W : Type} (B : PollBits) (poll : PollCall W) (code : Code W) (s : State) (w : W) :
    List Invocation × Option (State × W) :=
  let r := poll s.pollfds s.npolls (timeout s) w
  if r.1.1 < 0 then ([], none)
  else
    let s1 := { s with pollfds := store_revents r.1.2 s.pollfds s.npolls 0 }
    sweep_log B code s1.npolls 0 s1 r.2

/-- The invocation that a recorded call stands for. -/
def Call.invocation (c : Call) : Invocation :=
  ⟨c.n, eff c.seen c.n, c.cb, c.what, c.aux⟩

end Poll

/-! ## The configuration with `select` -/

namespace Select

/-- An element of `fdparms` when `HAVE_SYS_POLL_H` is not defined; `pollfds` is then
the same array. -/
structure fdparm where
  cb : Nat
  aux : Nat
  fd : Int
  events : Nat
  faked : Nat
deriving DecidableEq, Repr

instance : Inhabited fdparm := ⟨⟨0, 0, 0, 0, 0⟩⟩

/-- The static variables `fdparms`, `npolls`, `rpolls`, `changed`. -/
structure State where
  fdparms : List fdparm
  npolls : Nat
  rpolls : Nat
  changed : Bool
deriving DecidableEq, Repr

/-- The state at program start: null pointer and zeros. -/
def init : State := ⟨[], 0, 0, false⟩

/-- The loop of `find_fd`, at index `n` with `k` iterations left. -/
def find_fd_loop (pollfds : List fdparm) (fd : Int) : Nat → Nat → Option Nat
  | 0, _ => none
  | k + 1, n => if (pollfds.getD n default).fd = fd then some n else find_fd_loop pollfds fd k (n + 1)

/-- The index of `fd` in the live range; `none` is the `-1` of the source. -/
def find_fd (s : State) (fd : Int) : Option Nat :=
  find_fd_loop s.fdparms fd s.npolls 0

def add_fd (s : State) (fd : Int) (cb aux : Nat) : Option State :=
  match find_fd s fd with
  | some _ => none
  | none =>
    let n := s.npolls
    let npolls := s.npolls + 1
    let grow : Bool := decide (s.rpolls < npolls)
    let rpolls := if grow then npolls else s.rpolls
    let fdparms := if grow then nfrealloc s.fdparms npolls default else s.fdparms
    let fdparms := fdparms.set n { fd := fd, events := 0, faked := 0, cb := cb, aux := aux }
    some { fdparms := fdparms, npolls := npolls, rpolls := rpolls, changed := true }

def conf_fd (s : State) (fd : Int) (and_events or_events : Nat) : Option State :=
  match find_fd s fd with
  | none => none
  | some n =>
    let p := s.fdparms.getD n default
    some { s with fdparms := s.fdparms.set n { p with events := (p.events &&& and_events) ||| or_events } }

def fake_fd (s : State) (fd : Int) (events : Nat) : Option State :=
  match find_fd s fd with
  | none => none
  | some n =>
    let p := s.fdparms.getD n default
    some { s with fdparms := s.fdparms.set n { p with faked := p.faked ||| events } }

def del_fd (s : State) (fd : Int) : Option State :=
  match find_fd s fd with
  | none => none
  | some n =>
    let npolls := s.npolls - 1
    some { s with
      npolls := npolls
      fdparms := memmove s.fdparms n (n + 1) (npolls - n)
      changed := true }

/-- One table operation. -/
def step (s : State) : Op → Option State
  | .add fd cb aux => add_fd s fd cb aux
  | .conf fd a o => conf_fd s fd a o
  | .fake fd e => fake_fd s fd e
  | .del fd => del_fd s fd

/-- The table operations of a callback, in order; `none` when an assertion fails. -/
def run_ops : List Op → State → Option State
  | [], s => some s
  | op :: ops, s =>
    match step s op with
    | none => none
    | some s1 => run_ops ops s1

/-- One callback invocation of a sweep: the index `n` of the element, the call
`cb( what, aux )` made, the state `seen` when the loop reached the element, the
state `before` when the callback was entered, the operations `ops` the callback
performed and the state `after` they left. -/
structure Call where
  n : Nat
  cb : Nat
  what : Nat
  aux : Nat
  seen : State
  before : State
  ops : List Op
  after : State
deriving DecidableEq, Repr

/-- What one `event_wait` did: the callbacks it invoked, in order, and the state of
the dispatcher and of the program when it returned. -/
structure Result (W : Type) where
  calls : List Call
  s : State
  w : W

/-- The fields of `struct timeval`. -/
structure timeval where
  tv_sec : Int
  tv_usec : Int
deriving DecidableEq, Repr

/-- The static `null_tv`, zero as all static storage. -/
def null_tv : timeval := ⟨0, 0⟩

/-- An `fd_set`, as the list of its members. -/
abbrev fd_set := List Int

def FD_SET (fd : Int) (set : fd_set) : fd_set := fd :: set

def FD_ISSET (fd : Int) (set : fd_set) : Bool := decide (fd ∈ set)

/-- The locals `timeout`, `rfds`, `wfds`, `efds`, `m` that the first loop of
`event_wait` computes; a null `timeout` is `none`. -/
structure Prep where
  timeout : Option timeval
  rfds : fd_set
  wfds : fd_set
  efds : fd_set
  m : Int
deriving DecidableEq, Repr

/-- The first loop of `event_wait`, at index `n` with `k` iterations left. -/
def prep_loop (B : PollBits) (fdparms : List fdparm) : Nat → Nat → Prep → Prep
  | 0, _, a => a
  | k + 1, n, a =>
    let p := fdparms.getD n default
    let timeout := if p.faked ≠ 0 then some null_tv else a.timeout
    let fd := p.fd
    let rfds := if p.events &&& B.POLLIN ≠ 0 then FD_SET fd a.rfds else a.rfds
    let wfds := if p.events &&& B.POLLOUT ≠ 0 then FD_SET fd a.wfds else a.wfds
    let efds := FD_SET fd a.efds
    let m := if fd > a.m then fd else a.m
    prep_loop B fdparms k (n + 1) ⟨timeout, rfds, wfds, efds, m⟩

/-- The arguments `event_wait` passes to `select`. -/
def prep (B : PollBits) (s : State) : Prep :=
  prep_loop B s.fdparms s.npolls 0 ⟨none, [], [], [], -1⟩

/-- The timeout `event_wait` passes to `select`. -/
def timeout (B : PollBits) (s : State) : Option timeval := (prep B s).timeout

/-- What `select` leaves in the three sets. -/
structure Ready where
  rfds : fd_set
  wfds : fd_set
  efds : fd_set
deriving DecidableEq, Repr

/-- The system call `select( nfds, rfds, wfds, efds, timeout )` in program state `w`:
its return value and the three sets it leaves. -/
abbrev SelectCall (W : Type) :=
  Int → fd_set → fd_set → fd_set → Option timeval → W → (Int × Ready) × W

/-- The event mask the second loop of `event_wait` computes for the element `p`. -/
def mask (B : PollBits) (rd : Ready) (p : fdparm) : Nat :=
  let fd := p.fd
  let m := p.faked
  let m := if FD_ISSET fd rd.rfds then m ||| B.POLLIN else m
  let m := if FD_ISSET fd rd.wfds then m ||| B.POLLOUT else m
  let m := if FD_ISSET fd rd.efds then m ||| B.POLLERR else m
  m

/-- The dispatch loop of `event_wait`, at index `n`; `k` bounds the iterations left
(`sel_sweep_fuel` shows that the bound `npolls - n` is never the reason to stop). -/
def sweep {W : Type} (B : PollBits) (code : Code W) (rd : Ready) :
    Nat → Nat → State → W → Option (Result W)
  | 0, _, s, w => some ⟨[], s, w⟩
  | k + 1, n, s, w =>
    if n < s.npolls then
      let p := s.fdparms.getD n default
      let m := mask B rd p
      if m ≠ 0 then
        let s1 := { s with fdparms := s.fdparms.set n { p with faked := 0 } }
        let r := code p.cb m p.aux w
        match run_ops r.1 s1 with
        | none => none
        | some s2 =>
          let c : Call := ⟨n, p.cb, m, p.aux, s, s1, r.1, s2⟩
          if s2.changed then some ⟨[c], { s2 with changed := false }, r.2⟩
          else
            match sweep B code rd k (n + 1) s2 r.2 with
            | none => none
            | some res => some { res with calls := c :: res.calls }
      else sweep B code rd k (n + 1) s w
    else some ⟨[], s, w⟩

def event_wait {W : Type} (B : PollBits) (select : SelectCall W) (code : Code W) (s : State) (w : W) :
    Option (Result W) :=
  let a := prep B s
  let r := select (a.m + 1) a.rfds a.wfds a.efds a.timeout w
  if r.1.1 < 0 then none
  else sweep B code r.1.2 s.npolls 0 s r.2

/-- The element `fdparms[n]` (also `pollfds[n]`). -/
abbrev parm (s : State) (n : Nat) : fdparm := s.fdparms.getD n default

/-- The array holds `rpolls` elements and the live range lies within it. -/
def WF (s : State) : Prop :=
  s.npolls ≤ s.rpolls ∧ s.fdparms.length = s.rpolls

instance (s : State) : Decidable (WF s) := by unfold WF; infer_instance

/-- The descriptor `fd` has a live registration. -/
def registered (s : State) (fd : Int) : Prop :=
  ∃ n, n < s.npolls ∧ (parm s n).fd = fd

/-- No two live registrations have the same descriptor. -/
def Unique (s : State) : Prop :=
  ∀ i, i < s.npolls → ∀ j, j < s.npolls → (parm s i).fd = (parm s j).fd → i = j

instance (s : State) : Decidable (Unique s) := by unfold Unique; infer_instance

/-- The bits the second loop of `event_wait` adds for descriptor `fd`: what `select`
reported for it. -/
def reported (B : PollBits) (rd : Ready) (fd : Int) : Nat :=
  ((if FD_ISSET fd rd.rfds then B.POLLIN else 0) ||| (if FD_ISSET fd rd.wfds then B.POLLOUT else 0))
    ||| (if FD_ISSET fd rd.efds then B.POLLERR else 0)

/-- The mask `m` of the sweep for element `n`, that is also the mask passed to its
callback. -/
def eff (B : PollBits) (rd : Ready) (s : State) (n : Nat) : Nat := mask B rd (parm s n)

/-- The state `s2` keeps the registrations of `s` in place (descriptor, callback, context) and,
from index `n` on, at least their forced bits. -/
def Keeps (n : Nat) (s s2 : State) : Prop :=
  s2.npolls = s.npolls ∧ s2.rpolls = s.rpolls ∧ s2.changed = s.changed ∧
  s2.fdparms.length = s.fdparms.length ∧
  ∀ i, (parm s2 i).fd = (parm s i).fd ∧
    (parm s2 i).cb = (parm s i).cb ∧ (parm s2 i).aux = (parm s i).aux ∧
    (n ≤ i → (parm s i).faked ||| (parm s2 i).faked = (parm s2 i).faked)

/-- The state in which the callback of element `n` is entered: `fdparms[n].faked = 0`. -/
def clear (s : State) (n : Nat) : State :=
  { s with fdparms := s.fdparms.set n { parm s n with faked := 0 } }

/-- What the sweep guarantees of a call it recorded. -/
def CallOK (B : PollBits) (rd : Ready) (c : Call) : Prop :=
  eff B rd c.seen c.n ≠ 0 ∧ c.what = eff B rd c.seen c.n ∧
  c.cb = (parm c.seen c.n).cb ∧ c.aux = (parm c.seen c.n).aux ∧
  c.before = clear c.seen c.n ∧ run_ops c.ops c.before = some c.after

/-- What the callback of element `n` does when the sweep reaches it. -/
def act {W : Type} (B : PollBits) (code : Code W) (rd : Ready) (s : State) (n : Nat) (w : W) :
    List Op × W :=
  code (parm s n).cb (eff B rd s n) (parm s n).aux w

/-- The record of the call for element `n`, `s2` being the state the callback left. -/
def call {W : Type} (B : PollBits) (code : Code W) (rd : Ready) (s : State) (n : Nat) (w : W)
    (s2 : State) : Call :=
  ⟨n, (parm s n).cb, eff B rd s n, (parm s n).aux, s, clear s n, (act B code rd s n w).1, s2⟩

/-- The signature of a call: element, callback, mask, context. -/
def Call.sig (c : Call) : Nat × Nat × Nat × Nat := (c.n, c.cb, c.what, c.aux)

/-- The effective mask of registration `i`: the bits `select` reported for its
descriptor, or its forced bits. -/
def effective (B : PollBits) (rd : Ready) (s : State) (i : Nat) : Nat :=
  reported B rd (parm s i).fd ||| (parm s i).faked

/-- The call of `select` that `event_wait` makes, with its answer. -/
def wait {W : Type} (B : PollBits) (select : SelectCall W) (s : State) (w : W) : (Int × Ready) × W :=
  select ((prep B s).m + 1) (prep B s).rfds (prep B s).wfds (prep B s).efds (timeout B s) w

/-- The largest entry count along the run of `ops` from `s`. -/
def peak : List Op → State → Nat
  | [], s => s.npolls
  | op :: ops, s =>
    match step s op with
    | none => s.npolls
    | some s1 => max s.npolls (peak ops s1)

/-- What a run of `main_loop` did: the calls of each `event_wait`, in order, and the
state of the dispatcher and of the program when it returned. -/
structure Run (W : Type) where
  sweeps : List (List Call)
  s : State
  w : W

/-- The function `main_loop`: `while (npolls) event_wait();`, with at most `k`
iterations. -/
def main_loop {W : Type} (B : PollBits) (select : SelectCall W) (code : Code W) :
    Nat → State → W → Ran (Run W)
  | 0, s, w => if s.npolls ≠ 0 then .unfinished else .returned ⟨[], s, w⟩
  | k + 1, s, w =>
    if s.npolls ≠ 0 then
      match event_wait B select code s w with
      | none => .aborted
      | some r =>
        match main_loop B select code k r.s r.w with
        | .returned x => .returned { x with sweeps := r.calls :: x.sweeps }
        | .aborted => .aborted
        | .unfinished => .unfinished
    else .returned ⟨[], s, w⟩

/-- The table holds one registration: descriptor `fd`, callback `cb`, context `aux`, no
forced bit. -/
def Solo (s : State) (fd : Int) (cb aux : Nat) : Prop :=
  WF s ∧ s.npolls = 1 ∧ (parm s 0).fd = fd ∧ (parm s 0).cb = cb ∧ (parm s 0).aux = aux ∧
    (parm s 0).faked = 0

end Select

/-! ## Concrete scenarios -/

/-- Callbacks that perform no table operation. -/
def quiet : Code Unit := fun _ _ _ w => ([], w)

/-- The callback at address 10 retires descriptor 5 and registers descriptor 7; the
others do nothing. -/
def retire : Code Unit := fun cb _ _ w => (if cb = 10 then [Op.del 5, Op.add 7 12 102] else [], w)

namespace Poll

/-- A `poll` that succeeds and reports the bits `m` for every element. -/
def reports (m : Nat) : PollCall Unit := fun _ _ _ w => ((1, fun _ => m), w)

/-- Descriptor 3 registered alone, no forced bit. -/
def one : State := ⟨[⟨3, 0, 0⟩], [⟨10, 100, 0⟩], 1, 1, false⟩

/-- Descriptor 3 registered alone, with forced mask 4. -/
def armed : State := ⟨[⟨3, 0, 0⟩], [⟨10, 100, 4⟩], 1, 1, false⟩

/-- Descriptors 3 and 5 registered, in this order. -/
def two : State := ⟨[⟨3, 0, 0⟩, ⟨5, 0, 0⟩], [⟨10, 100, 0⟩, ⟨11, 101, 0⟩], 2, 2, false⟩

/-- Descriptors 3, 5 and 7 registered, each with its own masks. -/
def three : State :=
  ⟨[⟨3, 1, 0⟩, ⟨5, 4, 0⟩, ⟨7, 5, 0⟩], [⟨10, 100, 0⟩, ⟨11, 101, 2⟩, ⟨12, 102, 0⟩], 3, 3, false⟩

/-- The sweep of `two`, both descriptors writable, with the callbacks `retire`. -/
def retire_sweep : Result Unit :=
  (event_wait PollBits.linux (reports 4) retire two ()).getD ⟨[], init, ()⟩

/-- The sweep of `two`, both descriptors writable, with the callbacks `quiet`. -/
def quiet_sweep : Result Unit :=
  (event_wait PollBits.linux (reports 4) quiet two ()).getD ⟨[], init, ()⟩

/-- The sweep of `armed`, nothing reported, with the callbacks `quiet`. -/
def armed_sweep : Result Unit :=
  (event_wait PollBits.linux (reports 0) quiet armed ()).getD ⟨[], init, ()⟩

/-- The first call of a sweep. -/
def first (r : Result Unit) : Call :=
  r.calls.headD ⟨0, 0, 0, 0, init, init, [], init⟩

end Poll

namespace Select

/-- A `select` that succeeds and leaves the sets `rd`. -/
def reports (rd : Ready) : SelectCall Unit := fun _ _ _ _ _ w => ((1, rd), w)

/-- Descriptor 3 registered alone, with forced mask 4. -/
def armed : State := ⟨[⟨10, 100, 3, 0, 4⟩], 1, 1, false⟩

/-- Descriptors 3 and 5 registered, in this order, both interested in POLLOUT. -/
def two : State := ⟨[⟨10, 100, 3, 4, 0⟩, ⟨11, 101, 5, 4, 0⟩], 2, 2, false⟩

/-- Descriptors 3, 5 and 7 registered, each with its own masks. -/
def three : State :=
  ⟨[⟨10, 100, 3, 1, 0⟩, ⟨11, 101, 5, 4, 2⟩, ⟨12, 102, 7, 5, 0⟩], 3, 3, false⟩

/-- Descriptors 3 and 5 are writable. -/
def writable : Ready := ⟨[], [3, 5], []⟩

/-- Nothing is ready. -/
def idle : Ready := ⟨[], [], []⟩

/-- The sweep of `two`, both descriptors writable, with the callbacks `retire`. -/
def retire_sweep : Result Unit :=
  (event_wait PollBits.linux (reports writable) retire two ()).getD ⟨[], init, ()⟩

/-- The sweep of `two`, both descriptors writable, with the callbacks `quiet`. -/
def quiet_sweep : Result Unit :=
  (event_wait PollBits.linux (reports writable) quiet two ()).getD ⟨[], init, ()⟩

/-- The sweep of `armed`, nothing reported, with the callbacks `quiet`. -/
def armed_sweep : Result Unit :=
  (event_wait PollBits.linux (reports idle) quiet armed ()).getD ⟨[], init, ()⟩

/-- The first call of a sweep. -/
def first (r : Result Unit) : Call :=
  r.calls.headD ⟨0, 0, 0, 0, init, init, [], init⟩

end Select

/-- The callback of Scenario A, in a program whose state is the number of invocations made
so far: it deregisters the descriptor `fd` at its `k`-th invocation and does nothing
before. -/
def countdown (fd : Int) (k : Nat) : Code Nat :=
  fun _ _ _ cnt => (if cnt + 1 = k then [Op.del fd] else [], cnt + 1)

namespace Poll

/-- The table right after `add_fd` of descriptor 3 and `add_fd` of descriptor 5. -/
def fresh : State :=
  (run_ops [Op.add 3 10 100, Op.add 5 11 101] init).getD init

/-- A `poll` that reports POLLOUT for element 0 and POLLNVAL for the others. -/
def stale : PollCall Unit := fun _ _ _ w => ((2, fun i => if i = 0 then 4 else 32), w)

/-- The sweep of `two`, descriptor 3 writable and descriptor 5 invalid, with the
callbacks `retire`. -/
def stale_sweep : Result Unit :=
  (event_wait PollBits.linux stale retire two ()).getD ⟨[], init, ()⟩

/-- The sweep of `two` with callbacks that do nothing, POLLOUT reported for descriptor 3
and POLLNVAL for descriptor 5. -/
def stale_log : List Invocation × Option (State × Unit) :=
  event_log PollBits.linux stale quiet two ()

/-- A `poll` that reports every element writable, in a program whose state is a counter. -/
def always : PollCall Nat := fun _ _ _ w => ((1, fun _ => 4), w)

end Poll

namespace Select

/-- The table right after `add_fd` of descriptor 3 and `add_fd` of descriptor 5. -/
def fresh : State :=
  (run_ops [Op.add 3 10 100, Op.add 5 11 101] init).getD init

/-- Descriptor 3 registered alone, interested in POLLOUT. -/
def one : State := ⟨[⟨10, 100, 3, 4, 0⟩], 1, 1, false⟩

/-- A `select` that leaves descriptors 3 and 5 writable, in a program whose state is a
counter. -/
def always : SelectCall Nat := fun _ _ _ _ _ w => ((1, writable), w)

end Select

/-! ## The functions `map_name` and `next_arg` -/

/-- The NUL character. -/
def NUL : Char := Char.ofNat 0

/-- The double quote. -/
def QUOTE : Char := Char.ofNat 34

/-- The function `isspace` in the "C" locale. -/
def c_isspace (c : Char) : Bool :=
  c = ' ' || c = '\t' || c = '\n' || c = Char.ofNat 11 || c = Char.ofNat 12 || c = '\r'

/-- The loop `while (isspace( (unsigned char) **s )) (*s)++;` of `next_arg`, `*s` being at
index `p` of the buffer; `k` bounds the iterations, and `none` is a read outside the
buffer. The function `isspace` of the C library is the parameter `sp`. -/
def skip_space (sp : Char → Bool) (buf : List Char) : Nat → Nat → Option Nat
  | 0, _ => none
  | k + 1, p =>
    match buf[p]? with
    | none => none
    | some c => if sp c then skip_space sp buf k (p + 1) else some p

/-- The loop `while (**s && !isspace( (unsigned char) **s )) (*s)++;` of `next_arg`. -/
def skip_word (sp : Char → Bool) (buf : List Char) : Nat → Nat → Option Nat
  | 0, _ => none
  | k + 1, p =>
    match buf[p]? with
    | none => none
    | some c => if c ≠ NUL ∧ sp c = false then skip_word sp buf k (p + 1) else some p

/-- The function `strchr( s, ch )` of the C library for `ch` other than NUL, `s` being at
index `p`: the index of the first `ch`, or null (`some none`) when the NUL comes first. -/
def strchr (buf : List Char) (ch : Char) : Nat → Nat → Option (Option Nat)
  | 0, _ => none
  | k + 1, p =>
    match buf[p]? with
    | none => none
    | some c =>
      if c = ch then some (some p) else if c = NUL then some none else strchr buf ch k (p + 1)

/-- What a call of `next_arg` leaves: the pointer returned, the cell `*s` (when `s` is not
null) and the buffer; pointers are indexes into the buffer, and `none` is null. -/
structure Arg where
  ret : Option Nat
  s : Option (Option Nat)
  buf : List Char
deriving DecidableEq, Repr

/-- The function `next_arg`; `none` is a read outside the buffer. -/
def next_arg (sp : Char → Bool) (buf : List Char) (s : Option (Option Nat)) : Option Arg :=
  match s with
  | none => some ⟨none, none, buf⟩
  | some none => some ⟨none, some none, buf⟩
  | some (some p) =>
    match skip_space sp buf (buf.length + 1) p with
    | none => none
    | some p1 =>
      match buf[p1]? with
      | none => none
      | some c =>
        if c = NUL then some ⟨none, some none, buf⟩
        else
          let found : Option (Nat × Option Nat) :=
            if c = QUOTE then (strchr buf QUOTE (buf.length + 1) (p1 + 1)).map (fun q => (p1 + 1, q))
            else (skip_word sp buf (buf.length + 1) p1).map (fun q => (p1, some q))
          match found with
          | none => none
          | some (ret, none) => some ⟨some ret, some none, buf⟩
          | some (ret, some q) =>
            match buf[q]? with
            | none => none
            | some d =>
              let buf2 := if d ≠ NUL then buf.set q NUL else buf
              let q2 := if d ≠ NUL then q + 1 else q
              match buf2[q2]? with
              | none => none
              | some e => some ⟨some ret, some (if e = NUL then none else some q2), buf2⟩

/-- The string at index `p` of the buffer: the characters before the first NUL. -/
def cstr (buf : List Char) (p : Nat) : List Char := (buf.drop p).takeWhile (fun c => c != NUL)

/-- The strings that `next_arg`, called again and again on the same cell `*s`, returns
until it returns null, each as it stands when it is returned, and the cell at the end; at
most `k` calls, and `none` when a call reads outside the buffer or `k` calls do not
suffice. -/
def next_args (sp : Char → Bool) : Nat → List Char → Option Nat → Option (List (List Char) × Option Nat)
  | 0, _, _ => none
  | k + 1, buf, cur =>
    match next_arg sp buf (some cur) with
    | none => none
    | some r =>
      match r.ret with
      | none => some ([], r.s.getD none)
      | some p => (next_args sp k r.buf (r.s.getD none)).map (fun x => (cstr r.buf p :: x.1, x.2))

/-- In the words of the specification: the maximal runs of non-whitespace characters of
`s`, in order, `cur` being the run that the characters read so far end with. -/
def runs_from (sp : Char → Bool) : List Char → List Char → List (List Char)
  | [], cur => if cur = [] then [] else [cur]
  | c :: s, cur =>
    if sp c then (if cur = [] then runs_from sp s [] else cur :: runs_from sp s [])
    else runs_from sp s (cur ++ [c])

/-- The maximal runs of non-whitespace characters of `s`, in order. -/
def runs (sp : Char → Bool) (s : List Char) : List (List Char) := runs_from sp s []

/-! ## Lemmas on the array primitives -/

theorem length_memmove_del {α : Type} (a : List α) (n np : Nat) (hn : n < np) (hnp : np ≤ a.length) :
    (memmove a n (n + 1) (np - 1 - n)).length = a.length := by
  simp [memmove]
  omega

theorem getElem?_memmove_del {α : Type} (a : List α) (n np i : Nat) (hn : n < np)
    (hnp : np ≤ a.length) :
    (memmove a n (n + 1) (np - 1 - n))[i]? =
      if i < n then a[i]? else if i < np - 1 then a[i + 1]? else a[i]? := by
  simp only [memmove, List.getElem?_append, List.length_append, List.length_take, List.length_drop,
    List.getElem?_take, List.getElem?_drop]
  have h1 : min n a.length = n := by omega
  have h2 : min (np - 1 - n) (a.length - (n + 1)) = np - 1 - n := by omega
  rw [h1, h2]
  by_cases c1 : i < n
  · have : i < n + (np - 1 - n) := by omega
    simp [c1, this]
  · by_cases c2 : i < np - 1
    · have : i < n + (np - 1 - n) := by omega
      have e : n + 1 + (i - n) = i + 1 := by omega
      have : i - n < np - 1 - n := by omega
      simp [c1, c2, *]
    · have : ¬ i < n + (np - 1 - n) := by omega
      have e : n + (np - 1 - n) + (i - (n + (np - 1 - n))) = i := by omega
      simp [c1, c2, *]

theorem getD_memmove_del {α : Type} (a : List α) (n np i : Nat) (d : α) (hn : n < np)
    (hnp : np ≤ a.length) :
    (memmove a n (n + 1) (np - 1 - n)).getD i d =
      if i < n then a.getD i d else if i < np - 1 then a.getD (i + 1) d else a.getD i d := by
  simp only [List.getD_eq_getElem?_getD, getElem?_memmove_del a n np i hn hnp]
  split_ifs <;> rfl

theorem length_nfrealloc {α : Type} (a : List α) (n : Nat) (f : α) :
    (nfrealloc a n f).length = n := by
  simp [nfrealloc]; omega

theorem getElem?_nfrealloc_lt {α : Type} (a : List α) (n i : Nat) (f : α) (h : i < a.length)
    (h2 : i < n) : (nfrealloc a n f)[i]? = a[i]? := by
  simp [nfrealloc, List.getElem?_append, List.getElem?_take, h, h2]

theorem getD_set {α : Type} (l : List α) (n i : Nat) (a d : α) :
    (l.set n a).getD i d = if i = n ∧ n < l.length then a else l.getD i d := by
  simp only [List.getD_eq_getElem?_getD, List.getElem?_set]
  by_cases h : n = i
  · subst h
    by_cases h2 : n < l.length
    · simp [h2]
    · simp [h2, List.getElem?_eq_none (Nat.le_of_not_lt h2)]
  · have : ¬ i = n := fun e => h e.symm
    simp [h, this]

theorem lor_eq_zero {a b : Nat} (h : a ||| b = 0) : a = 0 ∧ b = 0 := by
  constructor
  · apply Nat.eq_of_testBit_eq
    intro i
    have := congrArg (fun x => x.testBit i) h
    simp only [Nat.testBit_or, Nat.zero_testBit, Bool.or_eq_false_iff] at this
    simp [this.1]
  · apply Nat.eq_of_testBit_eq
    intro i
    have := congrArg (fun x => x.testBit i) h
    simp only [Nat.testBit_or, Nat.zero_testBit, Bool.or_eq_false_iff] at this
    simp [this.2]

theorem and_two_pow_cases (m h : Nat) : m &&& 2 ^ h = 0 ∨ m &&& 2 ^ h = 2 ^ h := by
  rw [Nat.and_two_pow]
  cases m.testBit h <;> simp

/-- The macro moves the bit: `shifted_bit(m, 2^h, 2^i)` is `2^i` when bit `h` of `m` is
set and `0` otherwise. -/
theorem shifted_bit_two_pow (m h i : Nat) :
    shifted_bit m (2 ^ h) (2 ^ i) = if m &&& 2 ^ h ≠ 0 then 2 ^ i else 0 := by
  unfold shifted_bit
  rcases and_two_pow_cases m h with e | e
  · simp [e]
  · have hpos : (2 : Nat) ^ h ≠ 0 := by positivity
    rw [e]
    simp only [ne_eq, hpos, not_false_eq_true, if_true]
    rcases Nat.lt_trichotomy h i with c | c | c
    · have l1 : (2 : Nat) ^ h < 2 ^ i := Nat.pow_lt_pow_right (by norm_num) c
      have l2 : ¬ (2 : Nat) ^ h > 2 ^ i := by omega
      simp only [l2, if_false, gt_iff_lt, l1, if_true, Nat.div_one]
      rw [Nat.pow_div (le_of_lt c) (by norm_num), ← pow_add]
      congr 1; omega
    · subst c
      simp
    · have l1 : (2 : Nat) ^ i < 2 ^ h := Nat.pow_lt_pow_right (by norm_num) c
      have l2 : ¬ (2 : Nat) ^ i > 2 ^ h := by omega
      simp only [gt_iff_lt, l1, if_true, l2, if_false, Nat.mul_one]
      rw [Nat.pow_div (le_of_lt c) (by norm_num), Nat.pow_div (by omega) (by norm_num)]
      congr 1; omega

theorem shifted_bit_hup (B : PollBits) (m : Nat) :
    shifted_bit m B.POLLHUP B.POLLIN = if m &&& B.POLLHUP ≠ 0 then B.POLLIN else 0 :=
  shifted_bit_two_pow m B.pollhup B.pollin

/-- With the bit moved in, a mask that has POLLHUP has POLLIN. -/
theorem hup_in (B : PollBits) (m : Nat) (h : (m ||| shifted_bit m B.POLLHUP B.POLLIN) &&& B.POLLHUP ≠ 0) :
    (m ||| shifted_bit m B.POLLHUP B.POLLIN) &&& B.POLLIN ≠ 0 := by
  rw [shifted_bit_hup] at h ⊢
  by_cases c : m &&& B.POLLHUP ≠ 0
  · rw [if_pos c, Nat.and_distrib_right]
    intro e
    have := (lor_eq_zero e).2
    simp [PollBits.POLLIN] at this
  · rw [if_neg c, Nat.or_zero] at h
    exact absurd h c

theorem two_pow_and_two_pow {a b : Nat} (h : a ≠ b) : 2 ^ a &&& 2 ^ b = 0 := by
  rw [Nat.and_two_pow, Nat.testBit_two_pow]
  simp [h]

/-! ## The table, `poll` configuration -/

namespace Poll

theorem poll_find_loop_none (l : List pollfd) (fd : Int) (k n : Nat) :
    find_fd_loop l fd k n = none ↔ ∀ i, n ≤ i → i < n + k → (l.getD i default).fd ≠ fd := by
  induction k generalizing n with
  | zero => simp [find_fd_loop]; intro i h1 h2; omega
  | succ k ih =>
    unfold find_fd_loop
    by_cases h : (l.getD n default).fd = fd
    · simp only [h, if_true]
      constructor
      · intro c; cases c
      · intro c; exact absurd h (c n (le_refl _) (by omega))
    · simp only [h, if_false, ih]
      constructor
      · intro c i h1 h2
        rcases Nat.eq_or_lt_of_le h1 with e | e
        · subst e; exact h
        · exact c i e (by omega)
      · intro c i h1 h2
        exact c i (by omega) (by omega)

theorem poll_find_loop_some (l : List pollfd) (fd : Int) (k n j : Nat)
    (h : find_fd_loop l fd k n = some j) :
    n ≤ j ∧ j < n + k ∧ (l.getD j default).fd = fd ∧
      ∀ i, n ≤ i → i < j → (l.getD i default).fd ≠ fd := by
  induction k generalizing n with
  | zero => simp [find_fd_loop] at h
  | succ k ih =>
    unfold find_fd_loop at h
    by_cases c : (l.getD n default).fd = fd
    · simp only [c, if_true, Option.some.injEq] at h
      subst h
      exact ⟨le_refl _, by omega, c, fun i h1 h2 => by omega⟩
    · simp only [c, if_false] at h
      obtain ⟨h1, h2, h3, h4⟩ := ih (n + 1) h
      refine ⟨by omega, by omega, h3, fun i hi hj => ?_⟩
      rcases Nat.eq_or_lt_of_le hi with e | e
      · subst e; exact c
      · exact h4 i e hj

theorem poll_find_none (s : State) (fd : Int) : find_fd s fd = none ↔ ¬ registered s fd := by
  unfold find_fd registered
  rw [poll_find_loop_none]
  constructor
  · rintro h ⟨n, hn, e⟩
    exact h n (Nat.zero_le _) (by omega) e
  · intro h i _ hi e
    exact h ⟨i, by omega, e⟩

theorem poll_find_some (s : State) (fd : Int) (n : Nat) (h : find_fd s fd = some n) :
    n < s.npolls ∧ (pfd s n).fd = fd ∧ ∀ i, i < n → (pfd s i).fd ≠ fd := by
  obtain ⟨_, h2, h3, h4⟩ := poll_find_loop_some _ _ _ _ _ h
  exact ⟨by omega, h3, fun i hi => h4 i (Nat.zero_le _) hi⟩

theorem poll_find_registered (s : State) (fd : Int) :
    registered s fd ↔ ∃ n, find_fd s fd = some n := by
  constructor
  · intro h
    cases e : find_fd s fd with
    | none => exact absurd h ((poll_find_none s fd).1 e)
    | some n => exact ⟨n, rfl⟩
  · rintro ⟨n, h⟩
    obtain ⟨h1, h2, _⟩ := poll_find_some s fd n h
    exact ⟨n, h1, h2⟩

theorem poll_add_spec (s : State) (hw : WF s) (fd : Int) (cb aux : Nat) (h : find_fd s fd = none) :
    ∃ s2, add_fd s fd cb aux = some s2 ∧ WF s2 ∧ s2.npolls = s.npolls + 1 ∧
      s2.rpolls = max s.rpolls (s.npolls + 1) ∧ s2.changed = true ∧
      (∀ i, i < s.npolls → pfd s2 i = pfd s i ∧ parm s2 i = parm s i) ∧
      (pfd s2 s.npolls).fd = fd ∧ (pfd s2 s.npolls).events = 0 ∧
      parm s2 s.npolls = ⟨cb, aux, 0⟩ := by
  obtain ⟨h1, h2, h3⟩ := hw
  unfold add_fd
  rw [h]
  by_cases g : s.rpolls < s.npolls + 1
  · have e : s.npolls = s.rpolls := by omega
    have gd : decide (s.rpolls < s.npolls + 1) = true := by simp [g]
    simp only [gd, if_true]
    refine ⟨_, rfl, ?_, rfl, ?_, rfl, ?_, ?_, ?_, ?_⟩
    · simp [WF, length_nfrealloc]
    · simp; omega
    · intro i hi
      have hne : ¬ (i = s.npolls ∧ s.npolls < (nfrealloc s.pollfds (s.npolls + 1) default).length) := by
        omega
      have hne2 : ¬ (i = s.npolls ∧ s.npolls < (nfrealloc s.fdparms (s.npolls + 1) default).length) := by
        omega
      simp only [pfd, parm, getD_set, hne, hne2, if_false]
      simp only [List.getD_eq_getElem?_getD]
      rw [getElem?_nfrealloc_lt _ _ _ _ (by omega) (by omega),
        getElem?_nfrealloc_lt _ _ _ _ (by omega) (by omega)]
      exact ⟨rfl, rfl⟩
    · simp [pfd, getD_set, length_nfrealloc]
    · simp [pfd, getD_set, length_nfrealloc]
    · simp [parm, getD_set, length_nfrealloc]
  · have e : s.npolls < s.rpolls := by omega
    have gd : decide (s.rpolls < s.npolls + 1) = false := by simp [g]
    simp only [gd, Bool.false_eq_true, if_false]
    refine ⟨_, rfl, ?_, rfl, ?_, rfl, ?_, ?_, ?_, ?_⟩
    · simp [WF]; omega
    · simp; omega
    · intro i hi
      have hne : ¬ (i = s.npolls ∧ s.npolls < s.pollfds.length) := by omega
      have hne2 : ¬ (i = s.npolls ∧ s.npolls < s.fdparms.length) := by omega
      simp only [pfd, parm, getD_set, hne, hne2, if_false]
      exact ⟨trivial, trivial⟩
    · have : s.npolls < s.pollfds.length := by omega
      simp [pfd, getD_set, this]
    · have : s.npolls < s.pollfds.length := by omega
      simp [pfd, getD_set, this]
    · have : s.npolls < s.fdparms.length := by omega
      simp [parm, getD_set, this]

theorem poll_conf_eq (s : State) (fd : Int) (a o n : Nat) (h : find_fd s fd = some n) :
    conf_fd s fd a o = some { s with
      pollfds := s.pollfds.set n { pfd s n with events := (((pfd s n).events &&& a) ||| o) % 2 ^ 16 } } := by
  unfold conf_fd; rw [h]

theorem poll_fake_eq (s : State) (fd : Int) (e n : Nat) (h : find_fd s fd = some n) :
    fake_fd s fd e = some { s with
      fdparms := s.fdparms.set n { parm s n with faked := (parm s n).faked ||| e } } := by
  unfold fake_fd; rw [h]

theorem poll_del_eq (s : State) (fd : Int) (n : Nat) (h : find_fd s fd = some n) :
    del_fd s fd = some { s with
      npolls := s.npolls - 1
      pollfds := memmove s.pollfds n (n + 1) (s.npolls - 1 - n)
      fdparms := memmove s.fdparms n (n + 1) (s.npolls - 1 - n)
      changed := true } := by
  unfold del_fd; rw [h]

theorem poll_keeps_refl (n : Nat) (s : State) : Keeps n s s :=
  ⟨rfl, rfl, rfl, rfl, rfl, fun _ => ⟨rfl, rfl, rfl, rfl, fun _ => Nat.or_self _⟩⟩

theorem poll_keeps_trans {n m : Nat} {s s1 s2 : State} (h1 : Keeps n s s1) (h2 : Keeps m s1 s2)
    (hnm : n ≤ m) : Keeps m s s2 := by
  obtain ⟨a1, a2, a3, a4, a5, a6⟩ := h1
  obtain ⟨b1, b2, b3, b4, b5, b6⟩ := h2
  refine ⟨by omega, by omega, by rw [b3, a3], by omega, by omega, fun i => ?_⟩
  obtain ⟨c1, c2, c3, c4, c5⟩ := a6 i
  obtain ⟨d1, d2, d3, d4, d5⟩ := b6 i
  refine ⟨by rw [d1, c1], by rw [d2, c2], by rw [d3, c3], by rw [d4, c4], fun hi => ?_⟩
  have e1 := c5 (by omega)
  have e2 := d5 hi
  rw [← e2, ← Nat.lor_assoc, e1]

theorem poll_conf_keeps (s s2 : State) (fd : Int) (a o : Nat) (h : conf_fd s fd a o = some s2) :
    Keeps 0 s s2 := by
  cases e : find_fd s fd with
  | none => simp [conf_fd, e] at h
  | some n =>
    rw [poll_conf_eq s fd a o n e] at h
    cases h
    refine ⟨rfl, rfl, rfl, by simp, rfl, fun i => ⟨?_, ?_, rfl, rfl, fun _ => Nat.or_self _⟩⟩
    · simp only [pfd, getD_set]; split_ifs with c
      · rw [c.1]
      · rfl
    · simp only [pfd, getD_set]; split_ifs with c
      · rw [c.1]
      · rfl

theorem poll_fake_keeps (s s2 : State) (fd : Int) (e : Nat) (h : fake_fd s fd e = some s2) :
    Keeps 0 s s2 := by
  cases e1 : find_fd s fd with
  | none => simp [fake_fd, e1] at h
  | some n =>
    rw [poll_fake_eq s fd e n e1] at h
    cases h
    refine ⟨rfl, rfl, rfl, rfl, by simp, fun i => ⟨rfl, rfl, ?_, ?_, fun _ => ?_⟩⟩
    · simp only [parm, getD_set]; split_ifs with c
      · rw [c.1]
      · rfl
    · simp only [parm, getD_set]; split_ifs with c
      · rw [c.1]
      · rfl
    · simp only [parm, getD_set]; split_ifs with c
      · rw [c.1]; simp only [← Nat.lor_assoc, Nat.or_self]
      · exact Nat.or_self _

theorem poll_add_changed (s s2 : State) (fd : Int) (cb aux : Nat) (h : add_fd s fd cb aux = some s2) :
    s2.changed = true := by
  unfold add_fd at h
  cases e : find_fd s fd with
  | some n => simp [e] at h
  | none => simp only [e, Option.some.injEq] at h; rw [← h]

theorem poll_del_changed (s s2 : State) (fd : Int) (h : del_fd s fd = some s2) :
    s2.changed = true := by
  unfold del_fd at h
  cases e : find_fd s fd with
  | none => simp [e] at h
  | some n => simp only [e, Option.some.injEq] at h; rw [← h]

theorem poll_step_changed (s s2 : State) (op : Op) (h : step s op = some s2) :
    (op.mutates = true → s2.changed = true) ∧ (op.mutates = false → Keeps 0 s s2) := by
  cases op with
  | add fd cb aux => exact ⟨fun _ => poll_add_changed s s2 fd cb aux h, fun c => by simp [Op.mutates] at c⟩
  | del fd => exact ⟨fun _ => poll_del_changed s s2 fd h, fun c => by simp [Op.mutates] at c⟩
  | conf fd a o => exact ⟨fun c => by simp [Op.mutates] at c, fun _ => poll_conf_keeps s s2 fd a o h⟩
  | fake fd e => exact ⟨fun c => by simp [Op.mutates] at c, fun _ => poll_fake_keeps s s2 fd e h⟩

theorem poll_step_mono (s s2 : State) (op : Op) (h : step s op = some s2)
    (hc : s.changed = true) : s2.changed = true := by
  by_cases m : op.mutates = true
  · exact (poll_step_changed s s2 op h).1 m
  · have := (poll_step_changed s s2 op h).2 (by simpa using m)
    rw [this.2.2.1, hc]

theorem poll_run_mono (ops : List Op) (s s2 : State) (h : run_ops ops s = some s2)
    (hc : s.changed = true) : s2.changed = true := by
  induction ops generalizing s with
  | nil => simp only [run_ops, Option.some.injEq] at h; rw [← h, hc]
  | cons op ops ih =>
    unfold run_ops at h
    cases e : step s op with
    | none => simp [e] at h
    | some s1 =>
      simp only [e] at h
      exact ih s1 h (poll_step_mono s s1 op e hc)

/-- A callback that returns with the flag clear found it clear, performed no `add_fd`
and no `del_fd`, and left every registration in place. -/
theorem poll_run_clear (ops : List Op) (s s2 : State) (h : run_ops ops s = some s2)
    (hc : s2.changed = false) : ops.any Op.mutates = false ∧ Keeps 0 s s2 := by
  induction ops generalizing s with
  | nil =>
    simp only [run_ops, Option.some.injEq] at h
    subst h
    exact ⟨rfl, poll_keeps_refl 0 s⟩
  | cons op ops ih =>
    unfold run_ops at h
    cases e : step s op with
    | none => simp [e] at h
    | some s1 =>
      simp only [e] at h
      obtain ⟨i1, i2⟩ := ih s1 h
      have hm : op.mutates = false := by
        by_contra c
        have c1 := (poll_step_changed s s1 op e).1 (by simpa using c)
        have := poll_run_mono ops s1 s2 h c1
        rw [hc] at this; cases this
      refine ⟨by simp [List.any_cons, hm, i1], ?_⟩
      exact poll_keeps_trans ((poll_step_changed s s1 op e).2 hm) i2 (le_refl _)

/-- A callback that performs an `add_fd` or a `del_fd` returns with the flag set. -/
theorem poll_run_mutates (ops : List Op) (s s2 : State) (h : run_ops ops s = some s2)
    (hm : ops.any Op.mutates = true) : s2.changed = true := by
  by_contra c
  have := (poll_run_clear ops s s2 h (by simpa using c)).1
  rw [hm] at this; cases this


/-! ## The sweep, `poll` configuration -/

theorem poll_keeps_weaken {n m : Nat} {s s2 : State} (h : Keeps n s s2) (hnm : n ≤ m) :
    Keeps m s s2 := by
  obtain ⟨a1, a2, a3, a4, a5, a6⟩ := h
  refine ⟨a1, a2, a3, a4, a5, fun i => ?_⟩
  obtain ⟨c1, c2, c3, c4, c5⟩ := a6 i
  exact ⟨c1, c2, c3, c4, fun hi => c5 (by omega)⟩

theorem poll_clear_keeps (s : State) (n : Nat) : Keeps (n + 1) s (clear s n) := by
  refine ⟨rfl, rfl, rfl, rfl, by simp [clear], fun i => ⟨rfl, rfl, ?_, ?_, fun hi => ?_⟩⟩
  · simp only [clear, parm, getD_set]; split_ifs with c
    · rw [c.1]
    · rfl
  · simp only [clear, parm, getD_set]; split_ifs with c
    · rw [c.1]
    · rfl
  · have : ¬ (i = n ∧ n < s.fdparms.length) := by omega
    simp only [clear, parm, getD_set, this, if_false, Nat.or_self]

theorem poll_sweep_succ {W : Type} (B : PollBits) (code : Code W) (k n : Nat) (s : State) (w : W) :
    sweep B code (k + 1) n s w =
      if n < s.npolls then
        if eff s n ≠ 0 then
          if eff s n &&& B.POLLNVAL ≠ 0 then none
          else
            match run_ops (act B code s n w).1 (clear s n) with
            | none => none
            | some s2 =>
              if s2.changed then
                some ⟨[call B code s n w s2], { s2 with changed := false }, (act B code s n w).2⟩
              else
                match sweep B code k (n + 1) s2 (act B code s n w).2 with
                | none => none
                | some res => some { res with calls := call B code s n w s2 :: res.calls }
        else sweep B code k (n + 1) s w
      else some ⟨[], s, w⟩ := rfl

theorem poll_sweep_cases {W : Type} (B : PollBits) (code : Code W) (k n : Nat) (s : State) (w : W)
    (r : Result W) (h : sweep B code (k + 1) n s w = some r) :
    (¬ n < s.npolls ∧ r = ⟨[], s, w⟩) ∨
    (n < s.npolls ∧ eff s n = 0 ∧ sweep B code k (n + 1) s w = some r) ∨
    (n < s.npolls ∧ eff s n ≠ 0 ∧ eff s n &&& B.POLLNVAL = 0 ∧
      ∃ s2, run_ops (act B code s n w).1 (clear s n) = some s2 ∧
        ((s2.changed = true ∧
            r = ⟨[call B code s n w s2], { s2 with changed := false }, (act B code s n w).2⟩) ∨
         (s2.changed = false ∧ ∃ res, sweep B code k (n + 1) s2 (act B code s n w).2 = some res ∧
            r = { res with calls := call B code s n w s2 :: res.calls }))) := by
  rw [poll_sweep_succ] at h
  by_cases c1 : n < s.npolls
  · simp only [c1, if_true] at h
    by_cases c2 : eff s n = 0
    · simp only [c2, ne_eq, not_true_eq_false, if_false] at h
      exact Or.inr (Or.inl ⟨c1, c2, h⟩)
    · simp only [ne_eq, c2, not_false_eq_true, if_true] at h
      by_cases c3 : eff s n &&& B.POLLNVAL = 0
      · simp only [c3, not_true_eq_false, if_false] at h
        cases e : run_ops (act B code s n w).1 (clear s n) with
        | none => simp [e] at h
        | some s2 =>
          simp only [e] at h
          refine Or.inr (Or.inr ⟨c1, c2, c3, s2, rfl, ?_⟩)
          by_cases c4 : s2.changed = true
          · simp only [c4, if_true, Option.some.injEq] at h
            exact Or.inl ⟨c4, h.symm⟩
          · have c5 : s2.changed = false := by simpa using c4
            simp only [c5, Bool.false_eq_true, if_false] at h
            cases e2 : sweep B code k (n + 1) s2 (act B code s n w).2 with
            | none => simp [e2] at h
            | some res =>
              simp only [e2, Option.some.injEq] at h
              exact Or.inr ⟨c5, res, rfl, h.symm⟩
      · simp [c3] at h
  · simp only [c1, if_false, Option.some.injEq] at h
    exact Or.inl ⟨c1, h.symm⟩


theorem poll_call_ok {W : Type} (B : PollBits) (code : Code W) (s : State) (n : Nat) (w : W)
    (s2 : State) (h1 : eff s n ≠ 0) (h2 : eff s n &&& B.POLLNVAL = 0)
    (h3 : run_ops (act B code s n w).1 (clear s n) = some s2) :
    CallOK B (call B code s n w s2) :=
  ⟨h1, h2, rfl, rfl, rfl, rfl, h3⟩

/-- Every call a sweep records was made for a live element at or after the start
index, on a table that still has the registrations of the start in place. -/
theorem poll_sweep_calls {W : Type} (B : PollBits) (code : Code W) (k n : Nat) (s : State) (w : W)
    (r : Result W) (h : sweep B code k n s w = some r) :
    ∀ c ∈ r.calls, n ≤ c.n ∧ c.n < s.npolls ∧ Keeps c.n s c.seen ∧ CallOK B c := by
  induction k generalizing n s w r with
  | zero =>
    simp only [sweep, Option.some.injEq] at h
    subst h
    intro c hc; cases hc
  | succ k ih =>
    rcases poll_sweep_cases B code k n s w r h with ⟨_, rfl⟩ | ⟨c1, _, h2⟩ |
      ⟨c1, c2, c3, s2, e, ⟨c4, rfl⟩ | ⟨c4, res, e2, rfl⟩⟩
    · intro c hc; cases hc
    · intro c hc
      obtain ⟨a1, a2, a3, a4⟩ := ih (n + 1) s w r h2 c hc
      exact ⟨by omega, a2, a3, a4⟩
    · intro c hc
      simp only [List.mem_singleton] at hc
      subst hc
      exact ⟨le_refl _, c1, poll_keeps_refl _ _, poll_call_ok B code s n w s2 c2 c3 e⟩
    · intro c hc
      simp only [List.mem_cons] at hc
      rcases hc with rfl | hc
      · exact ⟨le_refl _, c1, poll_keeps_refl _ _, poll_call_ok B code s n w s2 c2 c3 e⟩
      · obtain ⟨a1, a2, a3, a4⟩ := ih (n + 1) s2 _ res e2 c hc
        have k1 : Keeps (n + 1) s s2 :=
          poll_keeps_trans (poll_clear_keeps s n)
            (poll_keeps_weaken (poll_run_clear _ _ _ e c4).2 (Nat.zero_le _)) (le_refl _)
        exact ⟨by omega, by rw [← k1.1]; exact a2, poll_keeps_trans k1 a3 a1, a4⟩

/-- A call whose callback performs an `add_fd` or a `del_fd` is the last of its sweep,
and the sweep returns the state that callback left, with the flag cleared. -/
theorem poll_sweep_mutation {W : Type} (B : PollBits) (code : Code W) (k n : Nat) (s : State) (w : W)
    (r : Result W) (h : sweep B code k n s w = some r) (pre post : List Call) (c : Call)
    (hd : r.calls = pre ++ c :: post) (hm : c.ops.any Op.mutates = true) :
    post = [] ∧ r.s = { c.after with changed := false } := by
  induction k generalizing n s w r pre with
  | zero =>
    simp only [sweep, Option.some.injEq] at h
    subst h
    simp at hd
  | succ k ih =>
    rcases poll_sweep_cases B code k n s w r h with ⟨_, rfl⟩ | ⟨c1, _, h2⟩ |
      ⟨c1, c2, c3, s2, e, ⟨c4, rfl⟩ | ⟨c4, res, e2, rfl⟩⟩
    · simp at hd
    · exact ih (n + 1) s w r h2 pre hd
    · cases pre with
      | nil =>
        simp only [List.nil_append, List.cons.injEq] at hd
        obtain ⟨rfl, rfl⟩ := hd
        exact ⟨rfl, rfl⟩
      | cons p pre =>
        simp only [List.cons_append, List.cons.injEq] at hd
        have := hd.2
        simp at this
    · cases pre with
      | nil =>
        simp only [List.nil_append, List.cons.injEq] at hd
        obtain ⟨rfl, _⟩ := hd
        have := poll_run_mutates _ _ _ e hm
        rw [c4] at this; cases this
      | cons p pre =>
        simp only [List.cons_append, List.cons.injEq] at hd
        exact ih (n + 1) s2 _ res e2 pre hd.2


theorem poll_run_keeps (ops : List Op) (s s2 : State) (h : run_ops ops s = some s2)
    (hm : ops.any Op.mutates = false) : Keeps 0 s s2 := by
  induction ops generalizing s with
  | nil =>
    simp only [run_ops, Option.some.injEq] at h
    subst h
    exact poll_keeps_refl 0 s
  | cons op ops ih =>
    unfold run_ops at h
    simp only [List.any_cons, Bool.or_eq_false_iff] at hm
    cases e : step s op with
    | none => simp [e] at h
    | some s1 =>
      simp only [e] at h
      exact poll_keeps_trans ((poll_step_changed s s1 op e).2 hm.1) (ih s1 h hm.2) (le_refl _)

theorem poll_sweep_fuel {W : Type} (B : PollBits) (code : Code W) (k j n : Nat) (s : State) (w : W)
    (hk : s.npolls ≤ n + k) : sweep B code (k + j) n s w = sweep B code k n s w := by
  induction k generalizing n s w with
  | zero =>
    cases j with
    | zero => rfl
    | succ j =>
      have : ¬ n < s.npolls := by omega
      rw [Nat.zero_add, poll_sweep_succ, if_neg this]
      rfl
  | succ k ih =>
    have e : k + 1 + j = (k + j) + 1 := by omega
    rw [e, poll_sweep_succ, poll_sweep_succ]
    by_cases c1 : n < s.npolls
    · simp only [c1, if_true]
      rw [ih (n + 1) s w (by omega)]
      by_cases c2 : eff s n ≠ 0
      · simp only [if_pos c2]
        by_cases c3 : eff s n &&& B.POLLNVAL ≠ 0
        · simp only [if_pos c3]
        · simp only [if_neg c3]
          cases e1 : run_ops (act B code s n w).1 (clear s n) with
          | none => rfl
          | some s2 =>
            simp only []
            by_cases c4 : s2.changed = true
            · simp only [c4, if_true]
            · have c5 : s2.changed = false := by simpa using c4
              have k1 := (poll_run_clear _ _ _ e1 c5).2
              have e2 : s2.npolls = s.npolls := k1.1
              rw [ih (n + 1) s2 _ (by omega)]
      · simp only [if_neg c2]
    · simp only [c1, if_false]

theorem poll_eff_keeps {m i : Nat} {s s2 : State} (h : Keeps m s s2) (hi : m ≤ i)
    (he : eff s i ≠ 0) : eff s2 i ≠ 0 := by
  obtain ⟨_, _, _, _, _, a6⟩ := h
  obtain ⟨_, c2, _, _, c5⟩ := a6 i
  intro e
  unfold eff at e he
  obtain ⟨e1, e2⟩ := lor_eq_zero e
  have c6 := c5 hi
  rw [e2, Nat.or_zero] at c6
  rw [c2] at e1
  rw [e1, c6] at he
  exact he rfl

/-- A sweep entered with the flag clear, in which no callback adds or removes,
returns with the flag clear and has called every element that was ready. -/
theorem poll_sweep_visits {W : Type} (B : PollBits) (code : Code W) (k n : Nat) (s : State) (w : W)
    (r : Result W) (h : sweep B code k n s w = some r) (hc : s.changed = false)
    (hm : ∀ c ∈ r.calls, c.ops.any Op.mutates = false) (hk : s.npolls ≤ n + k) :
    r.s.changed = false ∧ ∀ i, n ≤ i → i < s.npolls → eff s i ≠ 0 → ∃ c ∈ r.calls, c.n = i := by
  induction k generalizing n s w r with
  | zero =>
    simp only [sweep, Option.some.injEq] at h
    subst h
    exact ⟨hc, fun i h1 h2 _ => by omega⟩
  | succ k ih =>
    rcases poll_sweep_cases B code k n s w r h with ⟨c1, rfl⟩ | ⟨c1, c2, h2⟩ |
      ⟨c1, c2, c3, s2, e, ⟨c4, rfl⟩ | ⟨c4, res, e2, rfl⟩⟩
    · exact ⟨hc, fun i h1 h2 _ => by omega⟩
    · obtain ⟨a1, a2⟩ := ih (n + 1) s w r h2 hc hm (by omega)
      refine ⟨a1, fun i h1 h3 h4 => ?_⟩
      rcases Nat.eq_or_lt_of_le h1 with rfl | lt
      · exact absurd c2 h4
      · exact a2 i lt h3 h4
    · have k0 : ((call B code s n w s2).ops.any Op.mutates) = false :=
        hm _ (List.mem_singleton.2 rfl)
      have k1 := poll_run_keeps _ _ _ e k0
      have : s2.changed = false := by rw [k1.2.2.1]; exact hc
      rw [c4] at this; cases this
    · have k1 : Keeps (n + 1) s s2 :=
        poll_keeps_trans (poll_clear_keeps s n)
          (poll_keeps_weaken (poll_run_clear _ _ _ e c4).2 (Nat.zero_le _)) (le_refl _)
      have hc2 : s2.changed = false := c4
      obtain ⟨a1, a2⟩ := ih (n + 1) s2 _ res e2 hc2
        (fun c hcm => hm c (List.mem_cons_of_mem _ hcm)) (by rw [k1.1]; omega)
      refine ⟨a1, fun i h1 h3 h4 => ?_⟩
      rcases Nat.eq_or_lt_of_le h1 with rfl | lt
      · exact ⟨_, List.mem_cons_self _ _, rfl⟩
      · obtain ⟨c, hcm, hcn⟩ := a2 i lt (by rw [k1.1]; exact h3) (poll_eff_keeps k1 lt h4)
        exact ⟨c, List.mem_cons_of_mem _ hcm, hcn⟩


theorem poll_store_length (rep : Nat → Nat) (l : List pollfd) (k i0 : Nat) :
    (store_revents rep l k i0).length = l.length := by
  induction l generalizing k i0 with
  | nil => rfl
  | cons p ps ih =>
    cases k with
    | zero => rfl
    | succ k => simp [store_revents, ih]

theorem poll_store_getD (rep : Nat → Nat) (l : List pollfd) (k i0 j : Nat) :
    (store_revents rep l k i0).getD j default =
      if j < k ∧ j < l.length then { l.getD j default with revents := rep (i0 + j) }
      else l.getD j default := by
  induction l generalizing k i0 j with
  | nil => simp [store_revents]
  | cons p ps ih =>
    cases k with
    | zero => simp [store_revents]
    | succ k =>
      cases j with
      | zero => simp [store_revents]
      | succ j =>
        simp only [store_revents, List.getD_cons_succ, ih, List.length_cons, Nat.add_lt_add_iff_right]
        have : i0 + 1 + j = i0 + (j + 1) := by omega
        rw [this]

theorem poll_polled_keeps (s : State) (rep : Nat → Nat) :
    (polled s rep).npolls = s.npolls ∧ (polled s rep).rpolls = s.rpolls ∧
    (polled s rep).changed = s.changed ∧ (polled s rep).fdparms = s.fdparms ∧
    (WF s → WF (polled s rep)) ∧
    ∀ j, (pfd (polled s rep) j).fd = (pfd s j).fd ∧
      (pfd (polled s rep) j).events = (pfd s j).events ∧
      (j < s.npolls → j < s.pollfds.length → (pfd (polled s rep) j).revents = rep j) ∧
      (j < s.npolls → rep j = 0 → (pfd (polled s rep) j).revents = 0) := by
  refine ⟨rfl, rfl, rfl, rfl, ?_, fun j => ?_⟩
  · intro h
    simpa [WF, polled, poll_store_length] using h
  · simp only [pfd, polled, poll_store_getD, Nat.zero_add]
    by_cases c : j < s.npolls ∧ j < s.pollfds.length
    · simp only [c, and_self, if_true, true_implies]
      exact ⟨trivial, trivial, trivial, fun h => h⟩
    · simp only [c, if_false, true_and]
      refine ⟨fun h1 h2 => absurd ⟨h1, h2⟩ c, fun h1 _ => ?_⟩
      have : ¬ j < s.pollfds.length := fun h2 => c ⟨h1, h2⟩
      rw [List.getD_eq_default _ _ (by omega)]
      rfl

theorem poll_event_wait_eq {W : Type} (B : PollBits) (poll : PollCall W) (code : Code W)
    (s : State) (w : W) :
    event_wait B poll code s w =
      if (poll s.pollfds s.npolls (timeout s) w).1.1 < 0 then none
      else sweep B code s.npolls 0 (polled s (poll s.pollfds s.npolls (timeout s) w).1.2)
        (poll s.pollfds s.npolls (timeout s) w).2 := rfl

theorem poll_clear_other (s : State) (n i : Nat) (h : i ≠ n) :
    parm (clear s n) i = parm s i ∧ eff (clear s n) i = eff s i ∧
      ∀ B : PollBits, what B (clear s n) i = what B s i := by
  have e : parm (clear s n) i = parm s i := by
    have : ¬ (i = n ∧ n < s.fdparms.length) := fun c => h c.1
    simp only [clear, parm, getD_set, this, if_false]
  have e2 : eff (clear s n) i = eff s i := by
    unfold eff; rw [e]; rfl
  exact ⟨e, e2, fun B => by unfold what; rw [e2]⟩

/-- With callbacks that perform no table operation, a sweep entered with the flag
clear returns, having called exactly the ready elements, in table order. -/
theorem poll_sweep_noop {W : Type} (B : PollBits) (code : Code W)
    (hno : ∀ cb m aux w, (code cb m aux w).1 = []) (k n : Nat) (s : State) (w : W)
    (hc : s.changed = false) (hk : n + k = s.npolls)
    (hv : ∀ i, n ≤ i → i < s.npolls → eff s i &&& B.POLLNVAL = 0) :
    ∃ r, sweep B code k n s w = some r ∧ r.s.changed = false ∧
      r.calls.map Call.sig = ((List.range' n k).filter (fun i => decide (eff s i ≠ 0))).map
        (fun i => (i, (parm s i).cb, what B s i, (parm s i).aux)) := by
  induction k generalizing n s w with
  | zero => exact ⟨_, rfl, hc, rfl⟩
  | succ k ih =>
    have c1 : n < s.npolls := by omega
    rw [poll_sweep_succ, if_pos c1, List.range'_succ, List.filter_cons]
    by_cases c2 : eff s n ≠ 0
    · have c3 : ¬ eff s n &&& B.POLLNVAL ≠ 0 := by
        simpa using hv n (le_refl _) c1
      have e1 : run_ops (act B code s n w).1 (clear s n) = some (clear s n) := by
        rw [show (act B code s n w).1 = [] from hno _ _ _ _]; rfl
      have c4 : ¬ (clear s n).changed = true := by
        rw [show (clear s n).changed = s.changed from rfl, hc]; simp
      obtain ⟨r, hr, hrc, hcalls⟩ := ih (n + 1) (clear s n) (act B code s n w).2 hc (by
        rw [show (clear s n).npolls = s.npolls from rfl]; omega) (fun i h1 h2 => by
        rw [(poll_clear_other s n i (by omega)).2.1]; exact hv i (by omega) h2)
      rw [if_pos c2, if_neg c3]
      simp only [e1, if_neg c4, hr]
      refine ⟨_, rfl, hrc, ?_⟩
      simp only [List.map_cons, hcalls, decide_eq_true_eq, if_pos c2]
      refine congrArg₂ _ rfl ?_
      have f1 : List.filter (fun i => decide (eff (clear s n) i ≠ 0)) (List.range' (n + 1) k) =
          List.filter (fun i => decide (eff s i ≠ 0)) (List.range' (n + 1) k) := by
        apply List.filter_congr
        intro i hi
        have : i ≠ n := by
          obtain ⟨j, _, rfl⟩ := List.mem_range'.1 hi; omega
        rw [(poll_clear_other s n i this).2.1]
      rw [f1]
      apply List.map_congr_left
      intro i hi
      have : i ≠ n := by
        obtain ⟨j, _, rfl⟩ := List.mem_range'.1 (List.mem_of_mem_filter hi); omega
      rw [(poll_clear_other s n i this).1, (poll_clear_other s n i this).2.2 B]
    · rw [if_neg c2]
      obtain ⟨r, hr, hrc, hcalls⟩ := ih (n + 1) s w hc (by omega) (fun i h1 h2 => hv i (by omega) h2)
      refine ⟨r, hr, hrc, ?_⟩
      simp only [hcalls, decide_eq_true_eq, if_neg c2]


theorem poll_flag_false (s : State) (h : s.changed = false) : { s with changed := false } = s := by
  cases s; simp only [State.mk.injEq, true_and] at *; exact h.symm

/-- A sweep that calls nothing leaves the state as it is; otherwise it returns the
state its last callback left, with the flag clear. -/
theorem poll_sweep_last {W : Type} (B : PollBits) (code : Code W) (k n : Nat) (s : State) (w : W)
    (r : Result W) (h : sweep B code k n s w = some r) :
    (r.calls = [] → r.s = s) ∧
    (∀ pre c, r.calls = pre ++ [c] → r.s = { c.after with changed := false }) := by
  induction k generalizing n s w r with
  | zero =>
    simp only [sweep, Option.some.injEq] at h
    subst h
    exact ⟨fun _ => rfl, fun pre c hd => by simp at hd⟩
  | succ k ih =>
    rcases poll_sweep_cases B code k n s w r h with ⟨_, rfl⟩ | ⟨c1, _, h2⟩ |
      ⟨c1, c2, c3, s2, e, ⟨c4, rfl⟩ | ⟨c4, res, e2, rfl⟩⟩
    · exact ⟨fun _ => rfl, fun pre c hd => by simp at hd⟩
    · exact ih (n + 1) s w r h2
    · refine ⟨fun hd => by simp at hd, fun pre c hd => ?_⟩
      cases pre with
      | nil =>
        simp only [List.nil_append, List.cons.injEq, and_true] at hd
        subst hd; rfl
      | cons p pre =>
        simp only [List.cons_append, List.cons.injEq] at hd
        have := hd.2
        simp at this
    · obtain ⟨i1, i2⟩ := ih (n + 1) s2 _ res e2
      refine ⟨fun hd => by simp at hd, fun pre c hd => ?_⟩
      cases pre with
      | nil =>
        simp only [List.nil_append, List.cons.injEq] at hd
        obtain ⟨rfl, hd2⟩ := hd
        show res.s = _
        rw [i1 hd2]
        exact (poll_flag_false s2 c4).symm
      | cons p pre =>
        simp only [List.cons_append, List.cons.injEq] at hd
        exact i2 pre c hd.2

/-- The flag is set when a sweep returns only if it was set on entry and the sweep
called nothing. -/
theorem poll_sweep_flag {W : Type} (B : PollBits) (code : Code W) (k n : Nat) (s : State) (w : W)
    (r : Result W) (h : sweep B code k n s w = some r) :
    r.s.changed = true ↔ s.changed = true ∧ r.calls = [] := by
  obtain ⟨i1, i2⟩ := poll_sweep_last B code k n s w r h
  rcases List.eq_nil_or_concat r.calls with e | ⟨pre, c, e⟩
  · rw [i1 e]; simp [e]
  · rw [List.concat_eq_append] at e
    rw [i2 pre c e, e]; simp

theorem poll_keeps_wf {n : Nat} {s s2 : State} (h : Keeps n s s2) (hw : WF s) : WF s2 := by
  obtain ⟨a1, a2, _, a4, a5, _⟩ := h
  obtain ⟨h1, h2, h3⟩ := hw
  exact ⟨by omega, by omega, by omega⟩

theorem poll_keeps_unique {n : Nat} {s s2 : State} (h : Keeps n s s2) (hu : Unique s) :
    Unique s2 := by
  obtain ⟨a1, _, _, _, _, a6⟩ := h
  intro i hi j hj e
  rw [(a6 i).1, (a6 j).1] at e
  exact hu i (by omega) j (by omega) e

theorem poll_del_spec (s : State) (hw : WF s) (fd : Int) (n : Nat) (h : find_fd s fd = some n) :
    ∃ s2, del_fd s fd = some s2 ∧ WF s2 ∧ s2.npolls + 1 = s.npolls ∧ s2.rpolls = s.rpolls ∧
      s2.changed = true ∧
      ∀ i, pfd s2 i = (if i < n then pfd s i else if i < s.npolls - 1 then pfd s (i + 1) else pfd s i) ∧
        parm s2 i = (if i < n then parm s i else if i < s.npolls - 1 then parm s (i + 1)
          else parm s i) := by
  obtain ⟨h1, h2, h3⟩ := hw
  obtain ⟨hn, _, _⟩ := poll_find_some s fd n h
  refine ⟨_, poll_del_eq s fd n h, ?_, ?_, rfl, rfl, fun i => ⟨?_, ?_⟩⟩
  · refine ⟨?_, ?_, ?_⟩
    · show s.npolls - 1 ≤ s.rpolls
      omega
    · show (memmove s.pollfds n (n + 1) (s.npolls - 1 - n)).length = s.rpolls
      rw [length_memmove_del _ _ _ hn (by omega)]; exact h2
    · show (memmove s.fdparms n (n + 1) (s.npolls - 1 - n)).length = s.rpolls
      rw [length_memmove_del _ _ _ hn (by omega)]; exact h3
  · show s.npolls - 1 + 1 = s.npolls
    omega
  · exact getD_memmove_del s.pollfds n s.npolls i default hn (by omega)
  · exact getD_memmove_del s.fdparms n s.npolls i default hn (by omega)

theorem poll_step_wf (s s2 : State) (op : Op) (hw : WF s) (h : step s op = some s2) : WF s2 := by
  cases op with
  | add fd cb aux =>
    cases e : find_fd s fd with
    | some n => simp [step, add_fd, e] at h
    | none =>
      obtain ⟨s3, e3, w3, _⟩ := poll_add_spec s hw fd cb aux e
      have : s2 = s3 := by
        have h' : add_fd s fd cb aux = some s2 := h
        rw [e3] at h'; exact (Option.some.inj h').symm
      rw [this]; exact w3
  | del fd =>
    cases e : find_fd s fd with
    | none => simp [step, del_fd, e] at h
    | some n =>
      obtain ⟨s3, e3, w3, _⟩ := poll_del_spec s hw fd n e
      have : s2 = s3 := by
        have h' : del_fd s fd = some s2 := h
        rw [e3] at h'; exact (Option.some.inj h').symm
      rw [this]; exact w3
  | conf fd a o => exact poll_keeps_wf (poll_conf_keeps s s2 fd a o h) hw
  | fake fd e => exact poll_keeps_wf (poll_fake_keeps s s2 fd e h) hw

theorem poll_step_unique (s s2 : State) (op : Op) (hw : WF s) (hu : Unique s)
    (h : step s op = some s2) : Unique s2 := by
  cases op with
  | add fd cb aux =>
    cases e : find_fd s fd with
    | some n => simp [step, add_fd, e] at h
    | none =>
      obtain ⟨s3, e3, _, n3, _, _, old, new, _⟩ := poll_add_spec s hw fd cb aux e
      have : s2 = s3 := by
        have h' : add_fd s fd cb aux = some s2 := h
        rw [e3] at h'; exact (Option.some.inj h').symm
      subst this
      have nr := (poll_find_none s fd).1 e
      intro i hi j hj eq
      rw [n3] at hi hj
      rcases Nat.lt_succ_iff_lt_or_eq.1 hi with li | rfl
      · rcases Nat.lt_succ_iff_lt_or_eq.1 hj with lj | rfl
        · rw [(old i li).1, (old j lj).1] at eq
          exact hu i li j lj eq
        · rw [(old i li).1, new] at eq
          exact absurd ⟨i, li, eq⟩ nr
      · rcases Nat.lt_succ_iff_lt_or_eq.1 hj with lj | e2
        · rw [(old j lj).1, new] at eq
          exact absurd ⟨j, lj, eq.symm⟩ nr
        · exact e2.symm
  | del fd =>
    cases e : find_fd s fd with
    | none => simp [step, del_fd, e] at h
    | some n =>
      obtain ⟨s3, e3, _, n3, _, _, mv⟩ := poll_del_spec s hw fd n e
      have : s2 = s3 := by
        have h' : del_fd s fd = some s2 := h
        rw [e3] at h'; exact (Option.some.inj h').symm
      subst this
      intro i hi j hj eq
      rw [(mv i).1, (mv j).1] at eq
      have hi' : i < s.npolls - 1 := by omega
      have hj' : j < s.npolls - 1 := by omega
      by_cases ci : i < n <;> by_cases cj : j < n <;>
        simp only [ci, cj, hi', hj', if_true, if_false] at eq
      · exact hu i (by omega) j (by omega) eq
      · have := hu i (by omega) (j + 1) (by omega) eq; omega
      · have := hu (i + 1) (by omega) j (by omega) eq; omega
      · have := hu (i + 1) (by omega) (j + 1) (by omega) eq; omega
  | conf fd a o => exact poll_keeps_unique (poll_conf_keeps s s2 fd a o h) hu
  | fake fd e => exact poll_keeps_unique (poll_fake_keeps s s2 fd e h) hu

theorem poll_run_inv (ops : List Op) (s s2 : State) (hw : WF s) (hu : Unique s)
    (h : run_ops ops s = some s2) : WF s2 ∧ Unique s2 := by
  induction ops generalizing s with
  | nil =>
    simp only [run_ops, Option.some.injEq] at h
    subst h; exact ⟨hw, hu⟩
  | cons op ops ih =>
    unfold run_ops at h
    cases e : step s op with
    | none => simp [e] at h
    | some s1 =>
      simp only [e] at h
      exact ih s1 (poll_step_wf s s1 op hw e) (poll_step_unique s s1 op hw hu e) h


theorem poll_what_deliver (B : PollBits) (s : State) (n : Nat) :
    what B s n = deliver B (eff s n) := by
  unfold what deliver; rw [shifted_bit_hup]

theorem poll_eff_polled (s : State) (hw : WF s) (rep : Nat → Nat) (i : Nat) (hi : i < s.npolls) :
    eff (polled s rep) i = effective rep s i := by
  obtain ⟨h1, h2, h3⟩ := hw
  unfold eff effective
  rw [((poll_polled_keeps s rep).2.2.2.2.2 i).2.2.1 hi (by omega)]
  rfl

theorem poll_mutation_ends_sweep {W : Type} (B : PollBits) (poll : PollCall W) (code : Code W)
    (s : State) (w : W) (r : Result W) (h : event_wait B poll code s w = some r)
    (pre post : List Call) (c : Call) (hd : r.calls = pre ++ c :: post)
    (hm : c.ops.any Op.mutates = true) :
    run_ops c.ops c.before = some c.after ∧ post = [] ∧
      r.s = { c.after with changed := false } := by
  rw [poll_event_wait_eq] at h
  split_ifs at h with c0
  have hc : c ∈ r.calls := by rw [hd]; simp
  obtain ⟨_, _, _, ok⟩ := poll_sweep_calls B code _ _ _ _ r h c hc
  obtain ⟨a, b⟩ := poll_sweep_mutation B code _ _ _ _ r h pre post c hd hm
  exact ⟨ok.2.2.2.2.2.2, a, b⟩

theorem poll_ready_called {W : Type} (B : PollBits) (poll : PollCall W) (code : Code W)
    (hno : ∀ cb m aux w, (code cb m aux w).1 = []) (s : State) (w : W) (hw : WF s)
    (hc : s.changed = false) (hret : 0 ≤ (poll s.pollfds s.npolls (timeout s) w).1.1)
    (hv : ∀ i, i < s.npolls →
      effective (poll s.pollfds s.npolls (timeout s) w).1.2 s i &&& B.POLLNVAL = 0) :
    ∃ r, event_wait B poll code s w = some r ∧ r.s.changed = false ∧
      r.calls.map Call.sig =
        ((List.range s.npolls).filter (fun i =>
            decide (effective (poll s.pollfds s.npolls (timeout s) w).1.2 s i ≠ 0))).map
          (fun i => (i, (parm s i).cb,
            deliver B (effective (poll s.pollfds s.npolls (timeout s) w).1.2 s i),
            (parm s i).aux)) := by
  rw [poll_event_wait_eq, if_neg (by omega)]
  generalize (poll s.pollfds s.npolls (timeout s) w).1.2 = rep at hv ⊢
  generalize (poll s.pollfds s.npolls (timeout s) w).2 = w1
  obtain ⟨r, hr, hrc, hcalls⟩ := poll_sweep_noop B code hno s.npolls 0 (polled s rep) w1 hc
    (by rw [Nat.zero_add]; rfl) (fun i _ hi => by
      rw [poll_eff_polled s hw rep i hi]; exact hv i hi)
  refine ⟨r, hr, hrc, ?_⟩
  rw [hcalls, List.range_eq_range']
  have f1 : List.filter (fun i => decide (eff (polled s rep) i ≠ 0)) (List.range' 0 s.npolls) =
      List.filter (fun i => decide (effective rep s i ≠ 0)) (List.range' 0 s.npolls) := by
    apply List.filter_congr
    intro i hi
    have : i < s.npolls := by
      obtain ⟨j, hj, rfl⟩ := List.mem_range'.1 hi; omega
    rw [poll_eff_polled s hw rep i this]
  rw [f1]
  apply List.map_congr_left
  intro i hi
  have : i < s.npolls := by
    obtain ⟨j, hj, rfl⟩ := List.mem_range'.1 (List.mem_of_mem_filter hi); omega
  rw [poll_what_deliver, poll_eff_polled s hw rep i this]
  rfl


theorem poll_flag_protocol {W : Type} (B : PollBits) (poll : PollCall W) (code : Code W)
    (s : State) (w : W) (r : Result W) (h : event_wait B poll code s w = some r) :
    (r.s.changed = true ↔ s.changed = true ∧ r.calls = []) ∧
    (WF s → s.changed = false → (∀ c ∈ r.calls, c.ops.any Op.mutates = false) →
      ∀ i, i < s.npolls → effective (poll s.pollfds s.npolls (timeout s) w).1.2 s i ≠ 0 →
        ∃ c ∈ r.calls, c.n = i) := by
  rw [poll_event_wait_eq] at h
  split_ifs at h with c0
  have fl := poll_sweep_flag B code _ _ _ _ r h
  refine ⟨fl, fun hw hc hm i hi he => ?_⟩
  refine (poll_sweep_visits B code _ _ _ _ r h hc hm (by rw [Nat.zero_add]; exact le_refl _)).2
    i (Nat.zero_le _) hi ?_
  rw [poll_eff_polled s hw _ i hi]; exact he

theorem poll_clear_faked (s : State) (n : Nat) : (parm (clear s n) n).faked = 0 := by
  simp only [clear, parm, getD_set, true_and]
  split_ifs with c
  · rfl
  · rw [List.getD_eq_default _ _ (by omega)]; rfl

theorem poll_dispatch_mask {W : Type} (B : PollBits) (poll : PollCall W) (code : Code W)
    (s : State) (w : W) (r : Result W) (h : event_wait B poll code s w = some r)
    (c : Call) (hc : c ∈ r.calls) :
    c.n < s.npolls ∧ (parm c.before c.n).faked = 0 ∧
    c.what = deliver B ((pfd c.seen c.n).revents ||| (parm c.seen c.n).faked) ∧
    (pfd c.seen c.n).revents ||| (parm c.seen c.n).faked ≠ 0 ∧
    (parm s c.n).faked ||| (parm c.seen c.n).faked = (parm c.seen c.n).faked ∧
    (WF s → (pfd c.seen c.n).revents = (poll s.pollfds s.npolls (timeout s) w).1.2 c.n) ∧
    ((poll s.pollfds s.npolls (timeout s) w).1.2 c.n = 0 → (pfd c.seen c.n).revents = 0) ∧
    run_ops c.ops c.before = some c.after ∧ c.seen.npolls = s.npolls ∧
    c.before = clear c.seen c.n := by
  rw [poll_event_wait_eq] at h
  split_ifs at h with c0
  obtain ⟨_, hn, kp, ok⟩ := poll_sweep_calls B code _ _ _ _ r h c hc
  obtain ⟨o1, o2, o3, o4, o5, o6, o7⟩ := ok
  obtain ⟨k1, _, _, _, _, k6⟩ := kp
  obtain ⟨_, q2, _, _, q5⟩ := k6 c.n
  have pk := poll_polled_keeps s (poll s.pollfds s.npolls (timeout s) w).1.2
  have hn' : c.n < s.npolls := hn
  refine ⟨hn', ?_, ?_, o1, ?_, fun hw => ?_, fun h0 => ?_, o7, k1, o6⟩
  · rw [o6]; exact poll_clear_faked _ _
  · rw [o3]; exact poll_what_deliver B c.seen c.n
  · have := q5 (le_refl _)
    rw [show (parm (polled s (poll s.pollfds s.npolls (timeout s) w).1.2) c.n) = parm s c.n from rfl]
      at this
    exact this
  · rw [q2]
    exact (pk.2.2.2.2.2 c.n).2.2.1 hn' (by obtain ⟨h1, h2, h3⟩ := hw; omega)
  · rw [q2]
    exact (pk.2.2.2.2.2 c.n).2.2.2 hn' h0

/-- Under `poll`, every mask passed to a callback that has POLLHUP has POLLIN. -/
theorem poll_hup_implies_in {W : Type} (B : PollBits) (poll : PollCall W) (code : Code W)
    (s : State) (w : W) (r : Result W) (h : event_wait B poll code s w = some r)
    (c : Call) (hc : c ∈ r.calls) (hh : c.what &&& B.POLLHUP ≠ 0) :
    c.what &&& B.POLLIN ≠ 0 := by
  rw [poll_event_wait_eq] at h
  split_ifs at h with c0
  obtain ⟨_, _, _, ok⟩ := poll_sweep_calls B code _ _ _ _ r h c hc
  rw [ok.2.2.1] at hh ⊢
  exact hup_in B _ hh

theorem poll_init_inv : WF init ∧ Unique init := by
  constructor
  · decide
  · intro i hi; exact absurd hi (Nat.not_lt_zero _)

theorem poll_del_exact (s : State) (hw : WF s) (hu : Unique s) (fd : Int)
    (hr : registered s fd) :
    ∃ n s2, find_fd s fd = some n ∧ del_fd s fd = some s2 ∧ s2.npolls + 1 = s.npolls ∧
      find_fd s2 fd = none ∧ s2.rpolls = s.rpolls ∧ s2.changed = true ∧ WF s2 ∧ Unique s2 ∧
      (∀ i, i < s2.npolls → pfd s2 i = pfd s (if i < n then i else i + 1) ∧
        parm s2 i = parm s (if i < n then i else i + 1)) ∧
      (∀ j, j < s.npolls → j ≠ n → ∃ i, i < s2.npolls ∧ pfd s2 i = pfd s j ∧ parm s2 i = parm s j) := by
  obtain ⟨n, hf⟩ := (poll_find_registered s fd).1 hr
  obtain ⟨hn, hfd, _⟩ := poll_find_some s fd n hf
  obtain ⟨s2, e, w2, n2, r2, c2, mv⟩ := poll_del_spec s hw fd n hf
  have mv2 : ∀ i, i < s2.npolls → pfd s2 i = pfd s (if i < n then i else i + 1) ∧
      parm s2 i = parm s (if i < n then i else i + 1) := by
    intro i hi
    have hi' : i < s.npolls - 1 := by omega
    rw [(mv i).1, (mv i).2]
    by_cases ci : i < n
    · simp only [ci, if_true, and_self]
    · simp only [ci, if_false, hi', if_true, and_self]
  refine ⟨n, s2, hf, e, n2, ?_, r2, c2, w2, poll_step_unique s s2 (.del fd) hw hu e, mv2, ?_⟩
  · rw [poll_find_none]
    rintro ⟨i, hi, hfi⟩
    rw [(mv2 i hi).1] at hfi
    have := hu _ (by split_ifs <;> omega) n hn (hfi.trans hfd.symm)
    split_ifs at this <;> omega
  · intro j hj hne
    by_cases cj : j < n
    · refine ⟨j, by omega, ?_⟩
      have := mv2 j (by omega)
      simpa only [cj, if_true] using this
    · refine ⟨j - 1, by omega, ?_⟩
      have := mv2 (j - 1) (by omega)
      have c : ¬ j - 1 < n := by omega
      have e3 : j - 1 + 1 = j := by omega
      simpa only [c, if_false, e3] using this

theorem poll_fail_iff (s : State) (fd : Int) :
    (∀ cb aux, add_fd s fd cb aux = none ↔ registered s fd) ∧
    (del_fd s fd = none ↔ ¬ registered s fd) ∧
    (∀ a o, conf_fd s fd a o = none ↔ ¬ registered s fd) ∧
    (∀ e, fake_fd s fd e = none ↔ ¬ registered s fd) := by
  cases hf : find_fd s fd with
  | none =>
    have nr : ¬ registered s fd := (poll_find_none s fd).1 hf
    refine ⟨fun cb aux => ?_, ?_, fun a o => ?_, fun e => ?_⟩ <;>
      simp [add_fd, del_fd, conf_fd, fake_fd, hf, nr]
  | some n =>
    have hr : registered s fd := (poll_find_registered s fd).2 ⟨n, hf⟩
    refine ⟨fun cb aux => ?_, ?_, fun a o => ?_, fun e => ?_⟩ <;>
      simp [add_fd, del_fd, conf_fd, fake_fd, hf, hr]

theorem poll_conf_exact (s : State) (hw : WF s) (fd : Int) (a o : Nat) (hr : registered s fd) :
    ∃ n s2, find_fd s fd = some n ∧ conf_fd s fd a o = some s2 ∧
      pfd s2 n = { pfd s n with events := (((pfd s n).events &&& a) ||| o) % 2 ^ 16 } ∧
      ((pfd s n).events < 2 ^ 16 → o < 2 ^ 16 →
        (pfd s2 n).events = ((pfd s n).events &&& a) ||| o) ∧
      (pfd s n).fd = fd ∧ (∀ i, i ≠ n → pfd s2 i = pfd s i) ∧
      s2.fdparms = s.fdparms ∧ s2.npolls = s.npolls ∧ s2.rpolls = s.rpolls ∧
      s2.changed = s.changed ∧ s2.pollfds.length = s.pollfds.length := by
  obtain ⟨n, hf⟩ := (poll_find_registered s fd).1 hr
  obtain ⟨hn, hfd, _⟩ := poll_find_some s fd n hf
  obtain ⟨h1, h2, h3⟩ := hw
  have hl : n < s.pollfds.length := by omega
  have he : ∀ q : pollfd, (s.pollfds.set n q).getD n default = q := fun q => by
    simp only [getD_set, hl, and_self, if_true]
  refine ⟨n, _, hf, poll_conf_eq s fd a o n hf, he _, fun hx ho => ?_, hfd, fun i hi => ?_, rfl,
    rfl, rfl, rfl, by simp⟩
  · show ((s.pollfds.set n _).getD n default).events = _
    rw [he]
    exact Nat.mod_eq_of_lt (Nat.or_lt_two_pow (lt_of_le_of_lt Nat.and_le_left hx) ho)
  · have : ¬ (i = n ∧ n < s.pollfds.length) := fun c => hi c.1
    simp only [pfd, getD_set, this, if_false]

theorem poll_fake_exact (s : State) (hw : WF s) (fd : Int) (m : Nat) (hr : registered s fd) :
    ∃ n s2, find_fd s fd = some n ∧ fake_fd s fd m = some s2 ∧
      parm s2 n = { parm s n with faked := (parm s n).faked ||| m } ∧
      (pfd s n).fd = fd ∧ (∀ i, i ≠ n → parm s2 i = parm s i) ∧
      s2.pollfds = s.pollfds ∧ s2.npolls = s.npolls ∧ s2.rpolls = s.rpolls ∧
      s2.changed = s.changed ∧ s2.fdparms.length = s.fdparms.length := by
  obtain ⟨n, hf⟩ := (poll_find_registered s fd).1 hr
  obtain ⟨hn, hfd, _⟩ := poll_find_some s fd n hf
  obtain ⟨h1, h2, h3⟩ := hw
  refine ⟨n, _, hf, poll_fake_eq s fd m n hf, ?_, hfd, fun i hi => ?_, rfl, rfl, rfl, rfl, by simp⟩
  · have : n < s.fdparms.length := by omega
    simp only [parm, getD_set, this, and_self, if_true]
  · have : ¬ (i = n ∧ n < s.fdparms.length) := fun c => hi c.1
    simp only [parm, getD_set, this, if_false]

theorem poll_fake_accumulate (s : State) (fd : Int) (m1 m2 : Nat) :
    (fake_fd s fd m1).bind (fun t => fake_fd t fd m2) = fake_fd s fd (m1 ||| m2) := by
  cases hf : find_fd s fd with
  | none => simp [fake_fd, hf]
  | some n =>
    have hf2 : ∀ l, find_fd { s with fdparms := l } fd = some n := fun _ => hf
    simp only [fake_fd, hf, hf2, Option.some_bind]
    by_cases c : n < s.fdparms.length
    · simp only [getD_set, c, and_self, if_true, List.set_set, Nat.lor_assoc]
    · have e : ∀ x, s.fdparms.set n x = s.fdparms := fun x =>
        List.set_eq_of_length_le (by omega)
      simp only [e]

theorem poll_fake_idem (s : State) (fd : Int) (m : Nat) :
    (fake_fd s fd m).bind (fun t => fake_fd t fd m) = fake_fd s fd m := by
  rw [poll_fake_accumulate, Nat.or_self]

theorem poll_peak_ge (ops : List Op) (s : State) : s.npolls ≤ peak ops s := by
  cases ops with
  | nil => exact le_refl _
  | cons op ops =>
    unfold peak
    cases step s op with
    | none => exact le_refl _
    | some s1 => exact le_max_left _ _

theorem poll_step_rpolls (s s2 : State) (op : Op) (hw : WF s) (h : step s op = some s2) :
    s2.rpolls = max s.rpolls s2.npolls := by
  have hw2 := poll_step_wf s s2 op hw h
  cases op with
  | add fd cb aux =>
    cases e : find_fd s fd with
    | some n => simp [step, add_fd, e] at h
    | none =>
      obtain ⟨s3, e3, _, n3, r3, _⟩ := poll_add_spec s hw fd cb aux e
      have : s2 = s3 := by
        have h' : add_fd s fd cb aux = some s2 := h
        rw [e3] at h'; exact (Option.some.inj h').symm
      subst this
      rw [r3, n3]
  | del fd =>
    cases e : find_fd s fd with
    | none => simp [step, del_fd, e] at h
    | some n =>
      obtain ⟨s3, e3, _, n3, r3, _⟩ := poll_del_spec s hw fd n e
      have : s2 = s3 := by
        have h' : del_fd s fd = some s2 := h
        rw [e3] at h'; exact (Option.some.inj h').symm
      subst this
      rw [r3]
      have := hw.1
      omega
  | conf fd a o =>
    have k := poll_conf_keeps s s2 fd a o h
    rw [k.2.1, k.1]; have := hw.1; omega
  | fake fd e =>
    have k := poll_fake_keeps s s2 fd e h
    rw [k.2.1, k.1]; have := hw.1; omega

/-- After a run from a well-formed state, `rpolls` is the larger of its former value
and of the largest entry count of the run. -/
theorem poll_run_peak (ops : List Op) (s s2 : State) (hw : WF s) (h : run_ops ops s = some s2) :
    s2.rpolls = max s.rpolls (peak ops s) := by
  induction ops generalizing s with
  | nil =>
    simp only [run_ops, Option.some.injEq] at h
    subst h
    have := hw.1
    simp only [peak]; omega
  | cons op ops ih =>
    unfold run_ops at h
    unfold peak
    cases e : step s op with
    | none => simp [e] at h
    | some s1 =>
      simp only [e] at h ⊢
      have hw1 := poll_step_wf s s1 op hw e
      rw [ih s1 hw1 h, poll_step_rpolls s s1 op hw e]
      have := poll_peak_ge ops s1
      have := hw.1
      omega

theorem poll_add_grow (s s2 : State) (hw : WF s) (fd : Int) (cb aux : Nat)
    (h : add_fd s fd cb aux = some s2) :
    WF s2 ∧ s2.npolls = s.npolls + 1 ∧
    (s.rpolls < s.npolls + 1 → s2.rpolls = s.npolls + 1 ∧ s2.pollfds.length = s.pollfds.length + 1 ∧
      s2.fdparms.length = s.fdparms.length + 1) ∧
    (¬ s.rpolls < s.npolls + 1 → s2.rpolls = s.rpolls ∧ s2.pollfds.length = s.pollfds.length ∧
      s2.fdparms.length = s.fdparms.length) ∧
    s.npolls < s2.pollfds.length ∧ s.npolls < s2.fdparms.length := by
  cases e : find_fd s fd with
  | some n => simp [add_fd, e] at h
  | none =>
    obtain ⟨s3, e3, w3, n3, r3, _⟩ := poll_add_spec s hw fd cb aux e
    have : s2 = s3 := by rw [e3] at h; exact (Option.some.inj h).symm
    subst this
    obtain ⟨h1, h2, h3⟩ := hw
    obtain ⟨g1, g2, g3⟩ := w3
    refine ⟨⟨g1, g2, g3⟩, n3, fun c => ?_, fun c => ?_, by omega, by omega⟩
    · have : s2.rpolls = s.npolls + 1 := by rw [r3]; omega
      exact ⟨this, by omega, by omega⟩
    · have : s2.rpolls = s.rpolls := by rw [r3]; omega
      exact ⟨this, by omega, by omega⟩

theorem poll_del_then_add (s s1 s2 : State) (hw : WF s) (fd fd2 : Int) (cb aux : Nat)
    (h1 : del_fd s fd = some s1) (h2 : add_fd s1 fd2 cb aux = some s2) :
    s1.rpolls = s.rpolls ∧ s1.pollfds.length = s.pollfds.length ∧
    s1.fdparms.length = s.fdparms.length ∧ s2.rpolls = s.rpolls ∧
    s2.pollfds.length = s.pollfds.length ∧ s2.fdparms.length = s.fdparms.length := by
  cases e : find_fd s fd with
  | none => simp [del_fd, e] at h1
  | some n =>
    obtain ⟨s3, e3, w3, n3, r3, _⟩ := poll_del_spec s hw fd n e
    have : s1 = s3 := by rw [e3] at h1; exact (Option.some.inj h1).symm
    subst this
    obtain ⟨_, _, _, g, _⟩ := poll_add_grow s1 s2 w3 fd2 cb aux h2
    obtain ⟨a1, a2, a3⟩ := hw
    obtain ⟨b1, b2, b3⟩ := w3
    have := g (by omega)
    exact ⟨r3, by omega, by omega, by omega, by omega, by omega⟩

theorem poll_main_empty {W : Type} (B : PollBits) (poll : PollCall W) (code : Code W) (k : Nat)
    (s : State) (w : W) (h : s.npolls = 0) :
    main_loop B poll code k s w = .returned ⟨[], s, w⟩ := by
  cases k <;> simp [main_loop, h]

theorem poll_main_live {W : Type} (B : PollBits) (poll : PollCall W) (code : Code W) (k : Nat)
    (s : State) (w : W) (h : s.npolls ≠ 0) :
    main_loop B poll code 0 s w = .unfinished ∧
    main_loop B poll code (k + 1) s w =
      match event_wait B poll code s w with
      | none => .aborted
      | some r =>
        match main_loop B poll code k r.s r.w with
        | .returned x => .returned { x with sweeps := r.calls :: x.sweeps }
        | .aborted => .aborted
        | .unfinished => .unfinished := by
  constructor
  · simp [main_loop, h]
  · rw [main_loop, if_pos h]

theorem poll_main_returned {W : Type} (B : PollBits) (poll : PollCall W) (code : Code W) (k : Nat)
    (s : State) (w : W) (x : Run W) (h : main_loop B poll code k s w = .returned x) :
    x.s.npolls = 0 ∧
    (s.npolls ≠ 0 → ∃ r rest, event_wait B poll code s w = some r ∧ x.sweeps = r.calls :: rest) := by
  induction k generalizing s w x with
  | zero =>
    by_cases c : s.npolls = 0
    · rw [poll_main_empty B poll code 0 s w c] at h
      cases h
      exact ⟨c, fun c2 => absurd c c2⟩
    · rw [(poll_main_live B poll code 0 s w c).1] at h
      cases h
  | succ k ih =>
    by_cases c : s.npolls = 0
    · rw [poll_main_empty B poll code _ s w c] at h
      cases h
      exact ⟨c, fun c2 => absurd c c2⟩
    · rw [(poll_main_live B poll code k s w c).2] at h
      cases e : event_wait B poll code s w with
      | none => simp [e] at h
      | some r =>
        simp only [e] at h
        cases e2 : main_loop B poll code k r.s r.w with
        | aborted => simp [e2] at h
        | unfinished => simp [e2] at h
        | returned y =>
          simp only [e2, Ran.returned.injEq] at h
          subst h
          exact ⟨(ih r.s r.w y e2).1, fun _ => ⟨r, y.sweeps, rfl, rfl⟩⟩

/-- The operations of every call of a sweep are operations of the callbacks. -/
theorem poll_sweep_ops {W : Type} (B : PollBits) (code : Code W) (P : List Op → Prop)
    (hP : ∀ cb m aux w, P (code cb m aux w).1) (k n : Nat) (s : State) (w : W)
    (r : Result W) (h : sweep B code k n s w = some r) : ∀ c ∈ r.calls, P c.ops := by
  induction k generalizing n s w r with
  | zero =>
    simp only [sweep, Option.some.injEq] at h
    subst h
    intro c hc; cases hc
  | succ k ih =>
    rcases poll_sweep_cases B code k n s w r h with ⟨_, rfl⟩ | ⟨c1, _, h2⟩ |
      ⟨c1, c2, c3, s2, e, ⟨c4, rfl⟩ | ⟨c4, res, e2, rfl⟩⟩
    · intro c hc; cases hc
    · exact ih (n + 1) s w r h2
    · intro c hc
      simp only [List.mem_singleton] at hc
      subst hc
      exact hP _ _ _ _
    · intro c hc
      simp only [List.mem_cons] at hc
      rcases hc with rfl | hc
      · exact hP _ _ _ _
      · exact ih (n + 1) s2 _ res e2 c hc

/-- A registration that is ready and precedes a called one is called, before it. -/
theorem poll_sweep_before {W : Type} (B : PollBits) (code : Code W) (k n : Nat) (s : State) (w : W)
    (r : Result W) (h : sweep B code k n s w = some r) (pre post : List Call) (c : Call)
    (hd : r.calls = pre ++ c :: post) (i : Nat) (h1 : n ≤ i) (h2 : i < c.n)
    (he : eff s i ≠ 0) : ∃ c2 ∈ pre, c2.n = i := by
  induction k generalizing n s w r pre with
  | zero =>
    simp only [sweep, Option.some.injEq] at h
    subst h
    simp at hd
  | succ k ih =>
    rcases poll_sweep_cases B code k n s w r h with ⟨_, rfl⟩ | ⟨c1, c2, h3⟩ |
      ⟨c1, c2, c3, s2, e, ⟨c4, rfl⟩ | ⟨c4, res, e2, rfl⟩⟩
    · simp at hd
    · rcases Nat.eq_or_lt_of_le h1 with rfl | lt
      · exact absurd c2 he
      · exact ih (n + 1) s w r h3 pre hd lt he
    · cases pre with
      | nil =>
        simp only [List.nil_append, List.cons.injEq] at hd
        obtain ⟨rfl, _⟩ := hd
        exact absurd h2 (by show ¬ i < n; omega)
      | cons p pre =>
        simp only [List.cons_append, List.cons.injEq] at hd
        have := hd.2
        simp at this
    · cases pre with
      | nil =>
        simp only [List.nil_append, List.cons.injEq] at hd
        obtain ⟨rfl, _⟩ := hd
        exact absurd h2 (by show ¬ i < n; omega)
      | cons p pre =>
        simp only [List.cons_append, List.cons.injEq] at hd
        obtain ⟨rfl, hd2⟩ := hd
        rcases Nat.eq_or_lt_of_le h1 with rfl | lt
        · exact ⟨_, List.mem_cons_self _ _, rfl⟩
        · have k1 : Keeps (n + 1) s s2 :=
            poll_keeps_trans (poll_clear_keeps s n)
              (poll_keeps_weaken (poll_run_clear _ _ _ e c4).2 (Nat.zero_le _)) (le_refl _)
          obtain ⟨c2, hc2, hn2⟩ := ih (n + 1) s2 _ res e2 pre hd2 lt (poll_eff_keeps k1 lt he)
          exact ⟨c2, List.mem_cons_of_mem _ hc2, hn2⟩

/-- The first ready registration is called, first, whatever the flag; when it has no
POLLNVAL bit. -/
theorem poll_sweep_first {W : Type} (B : PollBits) (code : Code W) (k n : Nat) (s : State) (w : W)
    (r : Result W) (h : sweep B code k n s w = some r) (i : Nat) (h1 : n ≤ i)
    (h2 : i < s.npolls) (hk : s.npolls ≤ n + k) (he : eff s i ≠ 0)
    (hz : ∀ j, n ≤ j → j < i → eff s j = 0) :
    ∃ c rest, r.calls = c :: rest ∧ c.n = i ∧ c.seen = s ∧ c.cb = (parm s i).cb ∧
      c.aux = (parm s i).aux ∧ c.what = what B s i := by
  induction k generalizing n with
  | zero => omega
  | succ k ih =>
    rcases poll_sweep_cases B code k n s w r h with ⟨c1, rfl⟩ | ⟨c1, c2, h3⟩ |
      ⟨c1, c2, c3, s2, e, ⟨c4, rfl⟩ | ⟨c4, res, e2, rfl⟩⟩
    · omega
    · rcases Nat.eq_or_lt_of_le h1 with rfl | lt
      · exact absurd c2 he
      · exact ih (n + 1) h3 lt (by omega) (fun j hj1 hj2 => hz j (by omega) hj2)
    · rcases Nat.eq_or_lt_of_le h1 with rfl | lt
      · exact ⟨_, _, rfl, rfl, rfl, rfl, rfl, rfl⟩
      · exact absurd (hz n (le_refl _) lt) c2
    · rcases Nat.eq_or_lt_of_le h1 with rfl | lt
      · exact ⟨_, _, rfl, rfl, rfl, rfl, rfl, rfl⟩
      · exact absurd (hz n (le_refl _) lt) c2

theorem poll_solo_clear (s : State) (fd : Int) (cb aux : Nat) (h : Solo s fd cb aux)
    (rep : Nat → Nat) :
    Solo (clear (polled s rep) 0) fd cb aux ∧ eff (polled s rep) 0 = rep 0 ∧
    parm (polled s rep) 0 = ⟨cb, aux, 0⟩ ∧ (polled s rep).npolls = 1 ∧
    (clear (polled s rep) 0).changed = s.changed := by
  obtain ⟨hw, h1, hfd, hp⟩ := h
  have pk := poll_polled_keeps s rep
  obtain ⟨p1, p2, p3, p4, p5, p6⟩ := pk
  have kc := poll_clear_keeps (polled s rep) 0
  have hp2 : parm (polled s rep) 0 = ⟨cb, aux, 0⟩ := by
    show (polled s rep).fdparms.getD 0 default = _
    rw [p4]; exact hp
  have hl : 0 < s.pollfds.length := by have := hw.1; have := hw.2.1; omega
  have hl2 : 0 < s.fdparms.length := by have := hw.1; have := hw.2.2; omega
  refine ⟨⟨poll_keeps_wf kc (p5 hw), by rw [kc.1, p1, h1], ?_, ?_⟩, ?_, hp2, by rw [p1, h1],
    by rw [kc.2.2.1, p3]⟩
  · rw [(kc.2.2.2.2.2 0).1, (p6 0).1, hfd]
  · have : 0 < (polled s rep).fdparms.length := by rw [p4]; exact hl2
    simp only [clear, parm, getD_set, this, and_self, if_true]
    show ({ parm (polled s rep) 0 with faked := 0 } : fdparm) = _
    rw [hp2]
  · unfold eff
    rw [(p6 0).2.2.1 (by omega) hl, hp2]
    simp

theorem poll_solo_step (B : PollBits) (poll : PollCall Nat) (fd : Int) (cb aux k : Nat)
    (ho : B.pollout ≠ B.pollhup) (hn : B.pollout ≠ B.pollnval)
    (hp : ∀ fds n t w, 0 ≤ (poll fds n t w).1.1 ∧ (poll fds n t w).1.2 0 = B.POLLOUT ∧
      (poll fds n t w).2 = w)
    (s : State) (hs : Solo s fd cb aux) (cnt : Nat) :
    ∃ r, event_wait B poll (countdown fd k) s cnt = some r ∧
      r.calls.map Call.sig = [(0, cb, B.POLLOUT, aux)] ∧ r.w = cnt + 1 ∧
      (cnt + 1 = k → r.s.npolls = 0) ∧ (cnt + 1 ≠ k → Solo r.s fd cb aux) := by
  obtain ⟨q1, q2, q3⟩ := hp s.pollfds s.npolls (timeout s) cnt
  obtain ⟨c1, c2, c3, c4, c5⟩ :=
    poll_solo_clear s fd cb aux hs (poll s.pollfds s.npolls (timeout s) cnt).1.2
  have e0 : eff (polled s (poll s.pollfds s.npolls (timeout s) cnt).1.2) 0 = B.POLLOUT := by
    rw [c2, q2]
  have hne : B.POLLOUT ≠ 0 := by unfold PollBits.POLLOUT; positivity
  have hnv : B.POLLOUT &&& B.POLLNVAL = 0 := two_pow_and_two_pow hn
  have hwt : what B (polled s (poll s.pollfds s.npolls (timeout s) cnt).1.2) 0 = B.POLLOUT := by
    rw [poll_what_deliver, e0]
    unfold deliver
    have : B.POLLOUT &&& B.POLLHUP = 0 := two_pow_and_two_pow ho
    simp [this]
  rw [poll_event_wait_eq, if_neg (by omega),
    show sweep B (countdown fd k) s.npolls = sweep B (countdown fd k) 1 from by rw [hs.2.1],
    poll_sweep_succ, if_pos (by rw [c4]; omega),
    if_pos (by rw [e0]; exact hne), if_neg (by rw [e0, hnv]; simp), q3]
  have hact : act B (countdown fd k) (polled s (poll s.pollfds s.npolls (timeout s) cnt).1.2) 0 cnt
      = (if cnt + 1 = k then [Op.del fd] else [], cnt + 1) := rfl
  have hsig : ∀ s2, (call B (countdown fd k)
      (polled s (poll s.pollfds s.npolls (timeout s) cnt).1.2) 0 cnt s2).sig =
      (0, cb, B.POLLOUT, aux) := by
    intro s2
    simp only [Call.sig, call, hwt, c3]
  rw [hact]
  by_cases hk : cnt + 1 = k
  · simp only [hk, if_true, run_ops, step]
    have hf : find_fd (clear (polled s (poll s.pollfds s.npolls (timeout s) cnt).1.2) 0) fd
        = some 0 := by
      unfold find_fd
      rw [c1.2.1]
      simp only [find_fd_loop]
      rw [if_pos c1.2.2.1]
    rw [poll_del_eq _ fd 0 hf]
    simp only [if_true]
    refine ⟨_, rfl, ?_, rfl, fun _ => ?_, fun c => absurd rfl c⟩
    · simp only [List.map_cons, List.map_nil, hsig]
    · show (clear (polled s (poll s.pollfds s.npolls (timeout s) cnt).1.2) 0).npolls - 1 = 0
      rw [c1.2.1]
  · simp only [hk, if_false, run_ops]
    by_cases hc : (clear (polled s (poll s.pollfds s.npolls (timeout s) cnt).1.2) 0).changed = true
    · rw [if_pos hc]
      refine ⟨_, rfl, ?_, rfl, fun c => c.elim, fun _ => ?_⟩
      · simp only [List.map_cons, List.map_nil, hsig]
      · exact c1
    · rw [if_neg hc]
      simp only [sweep]
      refine ⟨_, rfl, ?_, rfl, fun c => c.elim, fun _ => ?_⟩
      · simp only [List.map_cons, List.map_nil, hsig]
      · exact c1

theorem poll_solo_run (B : PollBits) (poll : PollCall Nat) (fd : Int) (cb aux k : Nat)
    (ho : B.pollout ≠ B.pollhup) (hn : B.pollout ≠ B.pollnval)
    (hp : ∀ fds n t w, 0 ≤ (poll fds n t w).1.1 ∧ (poll fds n t w).1.2 0 = B.POLLOUT ∧
      (poll fds n t w).2 = w)
    (d : Nat) (s : State) (hs : Solo s fd cb aux) (cnt : Nat) (hd : cnt + d = k) (hd0 : 0 < d)
    (fuel : Nat) (hf : d ≤ fuel) :
    ∃ x, main_loop B poll (countdown fd k) fuel s cnt = .returned x ∧
      x.sweeps.map (List.map Call.sig) = List.replicate d [(0, cb, B.POLLOUT, aux)] ∧
      x.s.npolls = 0 ∧ x.w = k := by
  induction d generalizing s cnt fuel with
  | zero => omega
  | succ d ih =>
    obtain ⟨fuel, rfl⟩ : ∃ f, fuel = f + 1 := ⟨fuel - 1, by omega⟩
    obtain ⟨r, e, g1, g2, g3, g4⟩ := poll_solo_step B poll fd cb aux k ho hn hp s hs cnt
    have hl : s.npolls ≠ 0 := by rw [hs.2.1]; omega
    rw [(poll_main_live B poll (countdown fd k) fuel s cnt hl).2, e]
    by_cases hz : d = 0
    · subst hz
      have e2 := poll_main_empty B poll (countdown fd k) fuel r.s r.w (g3 (by omega))
      simp only [e2]
      refine ⟨_, rfl, ?_, g3 (by omega), ?_⟩
      · simp only [List.map_cons, List.map_nil, g1, List.replicate]
      · show r.w = k
        omega
    · obtain ⟨x, e2, y1, y2, y3⟩ := ih r.s (g4 (by omega)) r.w (by omega) (by omega) fuel (by omega)
      simp only [e2]
      refine ⟨_, rfl, ?_, y2, y3⟩
      simp only [List.map_cons, g1, y1, List.replicate]

theorem poll_del_cap (s s1 : State) (hw : WF s) (fd : Int) (h1 : del_fd s fd = some s1) :
    WF s1 ∧ s1.npolls + 1 = s.npolls ∧ s1.rpolls = s.rpolls ∧
    s1.pollfds.length = s.pollfds.length ∧ s1.fdparms.length = s.fdparms.length := by
  cases e : find_fd s fd with
  | none => simp [del_fd, e] at h1
  | some n =>
    obtain ⟨s3, e3, w3, n3, r3, _⟩ := poll_del_spec s hw fd n e
    have : s1 = s3 := by rw [e3] at h1; exact (Option.some.inj h1).symm
    subst this
    obtain ⟨_, a2, a3⟩ := hw
    obtain ⟨_, b2, b3⟩ := w3
    exact ⟨⟨by assumption, b2, b3⟩, n3, r3, by omega, by omega⟩

theorem poll_init_peak (ops : List Op) (s : State) (h : run_ops ops init = some s) :
    WF s ∧ s.rpolls = peak ops init := by
  refine ⟨(poll_run_inv ops _ s poll_init_inv.1 poll_init_inv.2 h).1, ?_⟩
  rw [poll_run_peak ops init s poll_init_inv.1 h]
  exact Nat.max_eq_right (Nat.zero_le _)

/-- No call is made with POLLNVAL in the mask, and the reported bits of a called
registration have no POLLNVAL. -/
theorem poll_nval_calls {W : Type} (B : PollBits) (poll : PollCall W) (code : Code W)
    (s : State) (w : W) (r : Result W) (h : event_wait B poll code s w = some r)
    (c : Call) (hc : c ∈ r.calls) :
    eff c.seen c.n &&& B.POLLNVAL = 0 ∧ (B.pollin ≠ B.pollnval → c.what &&& B.POLLNVAL = 0) ∧
    (WF s → (poll s.pollfds s.npolls (timeout s) w).1.2 c.n &&& B.POLLNVAL = 0) := by
  obtain ⟨_, _, _, _, _, d6, _⟩ := poll_dispatch_mask B poll code s w r h c hc
  rw [poll_event_wait_eq] at h
  split_ifs at h with c0
  obtain ⟨_, hn, kp, o1, o2, o3, _⟩ := poll_sweep_calls B code _ _ _ _ r h c hc
  refine ⟨o2, fun hne => ?_, fun hw => ?_⟩
  · rw [o3, shifted_bit_hup, Nat.and_distrib_right, o2, Nat.zero_or]
    split_ifs
    · exact two_pow_and_two_pow hne
    · exact Nat.zero_and _
  · rw [← d6 hw]
    have e : ((pfd c.seen c.n).revents ||| (parm c.seen c.n).faked) &&& B.POLLNVAL = 0 := o2
    rw [Nat.and_distrib_right] at e
    exact (lor_eq_zero e).1

/-- When `event_wait` returns although POLLNVAL is reported for the live registration `i`,
every call it made is for a registration before `i`, there is such a call, and the flag was
set on entry or a callback added or removed a registration. -/
theorem poll_nval_passed {W : Type} (B : PollBits) (poll : PollCall W) (code : Code W)
    (s : State) (w : W) (r : Result W) (h : event_wait B poll code s w = some r)
    (hw : WF s) (i : Nat) (hi : i < s.npolls)
    (hv : (poll s.pollfds s.npolls (timeout s) w).1.2 i &&& B.POLLNVAL ≠ 0) :
    (∀ c ∈ r.calls, c.n < i) ∧ r.calls ≠ [] ∧
    (s.changed = true ∨ ∃ c ∈ r.calls, c.ops.any Op.mutates = true) := by
  have hne : ∀ c ∈ r.calls, c.n ≠ i := by
    intro c hc e
    have := (poll_nval_calls B poll code s w r h c hc).2.2 hw
    rw [e] at this
    exact hv this
  have hrep : (poll s.pollfds s.npolls (timeout s) w).1.2 i ≠ 0 := by
    intro e; rw [e] at hv; simp at hv
  have heff : eff (polled s (poll s.pollfds s.npolls (timeout s) w).1.2) i ≠ 0 := by
    rw [poll_eff_polled s hw _ i hi]
    intro e
    exact hrep (lor_eq_zero e).1
  have hp := poll_flag_protocol B poll code s w r h
  have h0 := h
  rw [poll_event_wait_eq] at h
  split_ifs at h with c0
  refine ⟨fun c hc => ?_, ?_, ?_⟩
  · rcases Nat.lt_trichotomy c.n i with lt | e | gt
    · exact lt
    · exact absurd e (hne c hc)
    · obtain ⟨pre, post, hd⟩ := List.append_of_mem hc
      obtain ⟨c2, hc2, e2⟩ := poll_sweep_before B code _ _ _ _ r h pre post c hd i (Nat.zero_le _)
        gt heff
      exact absurd e2 (hne c2 (by rw [hd]; exact List.mem_append_left _ hc2))
  · have hex : ∃ j, j < s.npolls ∧
        eff (polled s (poll s.pollfds s.npolls (timeout s) w).1.2) j ≠ 0 := ⟨i, hi, heff⟩
    classical
    obtain ⟨hj1, hj2⟩ := Nat.find_spec hex
    obtain ⟨c, rest, e, _⟩ := poll_sweep_first B code _ _ _ _ r h (Nat.find hex) (Nat.zero_le _)
      hj1 (by simp [polled]) hj2 (fun j _ hj => by
        by_contra hc
        exact Nat.find_min hex hj ⟨by
          have := Nat.find_spec hex
          omega, hc⟩)
    rw [e]; simp
  · by_cases hc : s.changed = true
    · exact Or.inl hc
    · right
      by_contra hno
      have hall : ∀ c ∈ r.calls, c.ops.any Op.mutates = false := by
        intro c hc2
        cases hm : c.ops.any Op.mutates with
        | false => rfl
        | true => exact absurd ⟨c, hc2, hm⟩ hno
      have hcf : s.changed = false := by
        cases hs : s.changed with
        | false => rfl
        | true => exact absurd hs hc
      obtain ⟨c, hc3, e3⟩ := hp.2 hw hcf hall i hi (by
        unfold effective
        intro e
        exact hrep (lor_eq_zero e).1)
      exact hne c hc3 e3

/-- With the flag clear and callbacks that never add or remove a registration, a report
with POLLNVAL for a live registration makes `event_wait` abort. -/
theorem poll_nval_abort {W : Type} (B : PollBits) (poll : PollCall W) (code : Code W)
    (s : State) (w : W) (hw : WF s) (hc : s.changed = false)
    (hm : ∀ cb m aux w2, (code cb m aux w2).1.any Op.mutates = false)
    (i : Nat) (hi : i < s.npolls)
    (hv : (poll s.pollfds s.npolls (timeout s) w).1.2 i &&& B.POLLNVAL ≠ 0) :
    event_wait B poll code s w = none := by
  cases h : event_wait B poll code s w with
  | none => rfl
  | some r =>
    exfalso
    obtain ⟨_, _, h3⟩ := poll_nval_passed B poll code s w r h hw i hi hv
    rcases h3 with h3 | ⟨c, hc2, hm2⟩
    · rw [hc] at h3; cases h3
    · have h0 := h
      rw [poll_event_wait_eq] at h0
      split_ifs at h0 with c0
      have := poll_sweep_ops B code (fun ops => ops.any Op.mutates = false) hm _ _ _ _ r h0 c hc2
      simp only at this
      rw [hm2] at this
      cases this

theorem poll_sweep_log_succ {W : Type} (B : PollBits) (code : Code W) (k n : Nat) (s : State)
    (w : W) :
    sweep_log B code (k + 1) n s w =
      if n < s.npolls then
        if eff s n ≠ 0 then
          if eff s n &&& B.POLLNVAL ≠ 0 then ([], none)
          else
            match run_ops (act B code s n w).1 (clear s n) with
            | none => ([⟨n, eff s n, (parm s n).cb, what B s n, (parm s n).aux⟩], none)
            | some s2 =>
              if s2.changed then
                ([⟨n, eff s n, (parm s n).cb, what B s n, (parm s n).aux⟩],
                  some ({ s2 with changed := false }, (act B code s n w).2))
              else
                (⟨n, eff s n, (parm s n).cb, what B s n, (parm s n).aux⟩ ::
                    (sweep_log B code k (n + 1) s2 (act B code s n w).2).1,
                  (sweep_log B code k (n + 1) s2 (act B code s n w).2).2)
        else sweep_log B code k (n + 1) s w
      else ([], some (s, w)) := rfl

/-- The log agrees with `sweep`: same end, and the same calls when the sweep returns. -/
theorem poll_sweep_log_agree {W : Type} (B : PollBits) (code : Code W) (k n : Nat) (s : State)
    (w : W) :
    (sweep_log B code k n s w).2 = (sweep B code k n s w).map (fun r => (r.s, r.w)) ∧
    ∀ r, sweep B code k n s w = some r →
      (sweep_log B code k n s w).1 = r.calls.map Call.invocation := by
  induction k generalizing n s w with
  | zero =>
    refine ⟨rfl, fun r h => ?_⟩
    simp only [sweep, Option.some.injEq] at h
    subst h
    rfl
  | succ k ih =>
    rw [poll_sweep_log_succ, poll_sweep_succ]
    by_cases h1 : n < s.npolls
    · rw [if_pos h1, if_pos h1]
      by_cases h2 : eff s n ≠ 0
      · rw [if_pos h2, if_pos h2]
        by_cases h3 : eff s n &&& B.POLLNVAL ≠ 0
        · rw [if_pos h3, if_pos h3]
          exact ⟨rfl, fun r h => by cases h⟩
        · rw [if_neg h3, if_neg h3]
          cases e : run_ops (act B code s n w).1 (clear s n) with
          | none => exact ⟨rfl, fun r h => by cases h⟩
          | some s2 =>
            by_cases h4 : s2.changed = true
            · simp only [h4, if_true]
              refine ⟨rfl, fun r h => ?_⟩
              simp only [Option.some.injEq] at h
              subst h
              rfl
            · simp only [h4, if_false, Bool.false_eq_true]
              obtain ⟨i1, i2⟩ := ih (n + 1) s2 (act B code s n w).2
              cases e2 : sweep B code k (n + 1) s2 (act B code s n w).2 with
              | none =>
                rw [e2] at i1
                exact ⟨i1, fun r h => by cases h⟩
              | some res =>
                rw [e2] at i1
                refine ⟨i1, fun r h => ?_⟩
                simp only [Option.some.injEq] at h
                subst h
                rw [i2 res e2]
                rfl
      · rw [if_neg h2, if_neg h2]
        exact ih (n + 1) s w
    · rw [if_neg h1, if_neg h1]
      refine ⟨rfl, fun r h => ?_⟩
      simp only [Option.some.injEq] at h
      subst h
      rfl

/-- Every invocation of the loop, whether it ends or aborts, comes after the test of `m`
and after the assertion on it. -/
theorem poll_sweep_log_calls {W : Type} (B : PollBits) (code : Code W) (k n : Nat) (s : State)
    (w : W) :
    ∀ x ∈ (sweep_log B code k n s w).1, n ≤ x.n ∧ x.n < s.npolls ∧ x.m ≠ 0 ∧
      x.m &&& B.POLLNVAL = 0 ∧ x.what = x.m ||| shifted_bit x.m B.POLLHUP B.POLLIN ∧
      (pfd s x.n).revents ||| x.m = x.m := by
  induction k generalizing n s w with
  | zero => intro x hx; cases hx
  | succ k ih =>
    rw [poll_sweep_log_succ]
    have hself : (pfd s n).revents ||| eff s n = eff s n := by
      unfold eff
      rw [← Nat.lor_assoc, Nat.or_self]
    by_cases h1 : n < s.npolls
    · rw [if_pos h1]
      by_cases h2 : eff s n ≠ 0
      · rw [if_pos h2]
        by_cases h3 : eff s n &&& B.POLLNVAL ≠ 0
        · rw [if_pos h3]
          intro x hx; cases hx
        · rw [if_neg h3]
          have h3b : eff s n &&& B.POLLNVAL = 0 := not_not.1 h3
          cases e : run_ops (act B code s n w).1 (clear s n) with
          | none =>
            intro x hx
            simp only [List.mem_singleton] at hx
            subst hx
            exact ⟨le_refl _, h1, h2, h3b, rfl, hself⟩
          | some s2 =>
            by_cases h4 : s2.changed = true
            · simp only [h4, if_true]
              intro x hx
              simp only [List.mem_singleton] at hx
              subst hx
              exact ⟨le_refl _, h1, h2, h3b, rfl, hself⟩
            · simp only [h4, if_false, Bool.false_eq_true]
              intro x hx
              rcases List.mem_cons.1 hx with rfl | hx
              · exact ⟨le_refl _, h1, h2, h3b, rfl, hself⟩
              · have hcf : s2.changed = false := by
                  cases hs : s2.changed with
                  | false => rfl
                  | true => exact absurd hs h4
                have k1 : Keeps (n + 1) s s2 :=
                  poll_keeps_trans (poll_clear_keeps s n)
                    (poll_keeps_weaken (poll_run_clear _ _ _ e hcf).2 (Nat.zero_le _)) (le_refl _)
                obtain ⟨a1, a2, a3, a4, a5, a6⟩ := ih (n + 1) s2 _ x hx
                rw [k1.1] at a2
                rw [(k1.2.2.2.2.2 x.n).2.1] at a6
                exact ⟨by omega, a2, a3, a4, a5, a6⟩
      · rw [if_neg h2]
        intro x hx
        obtain ⟨a1, a2, a3, a4, a5, a6⟩ := ih (n + 1) s w x hx
        exact ⟨by omega, a2, a3, a4, a5, a6⟩
    · rw [if_neg h1]
      intro x hx; cases hx

theorem poll_event_log_eq {W : Type} (B : PollBits) (poll : PollCall W) (code : Code W)
    (s : State) (w : W) :
    event_log B poll code s w =
      if (poll s.pollfds s.npolls (timeout s) w).1.1 < 0 then ([], none)
      else sweep_log B code s.npolls 0 (polled s (poll s.pollfds s.npolls (timeout s) w).1.2)
        (poll s.pollfds s.npolls (timeout s) w).2 := rfl

/-- The log of `event_wait` agrees with `event_wait`. -/
theorem poll_event_log_agree {W : Type} (B : PollBits) (poll : PollCall W) (code : Code W)
    (s : State) (w : W) :
    (event_log B poll code s w).2 = (event_wait B poll code s w).map (fun r => (r.s, r.w)) ∧
    ∀ r, event_wait B poll code s w = some r →
      (event_log B poll code s w).1 = r.calls.map Call.invocation := by
  rw [poll_event_log_eq, poll_event_wait_eq]
  split_ifs with c0
  · exact ⟨rfl, fun r h => by cases h⟩
  · exact poll_sweep_log_agree B code _ _ _ _

/-- No invocation of `event_wait`, whether it returns or aborts, has POLLNVAL in its mask
or is for an entry with POLLNVAL in its report. -/
theorem poll_event_log_calls {W : Type} (B : PollBits) (poll : PollCall W) (code : Code W)
    (s : State) (w : W) :
    ∀ x ∈ (event_log B poll code s w).1, x.n < s.npolls ∧ x.m ≠ 0 ∧ x.m &&& B.POLLNVAL = 0 ∧
      x.what = deliver B x.m ∧ (B.pollin ≠ B.pollnval → x.what &&& B.POLLNVAL = 0) ∧
      (WF s → (wait poll s w).1.2 x.n ||| x.m = x.m ∧
        (wait poll s w).1.2 x.n &&& B.POLLNVAL = 0) := by
  intro x hx
  rw [poll_event_log_eq] at hx
  split_ifs at hx with c0
  · cases hx
  · obtain ⟨_, a2, a3, a4, a5, a6⟩ := poll_sweep_log_calls B code _ _ _ _ x hx
    have pk := poll_polled_keeps s (poll s.pollfds s.npolls (timeout s) w).1.2
    rw [pk.1] at a2
    have hd : x.what = deliver B x.m := by
      rw [a5, shifted_bit_hup]; rfl
    refine ⟨a2, a3, a4, hd, fun hne => ?_, fun hw => ?_⟩
    · rw [a5, shifted_bit_hup, Nat.and_distrib_right, a4, Nat.zero_or]
      split_ifs
      · exact two_pow_and_two_pow hne
      · exact Nat.zero_and _
    · have hl : x.n < s.pollfds.length := by have := hw.1; have := hw.2.1; omega
      rw [(pk.2.2.2.2.2 x.n).2.2.1 a2 hl] at a6
      refine ⟨a6, ?_⟩
      have e : ((poll s.pollfds s.npolls (timeout s) w).1.2 x.n ||| x.m) &&& B.POLLNVAL = 0 := by
        rw [a6]; exact a4
      rw [Nat.and_distrib_right] at e
      exact (lor_eq_zero e).1

end Poll

/-! ## The table, `select` configuration -/

namespace Select

theorem sel_find_loop_none (l : List fdparm) (fd : Int) (k n : Nat) :
    find_fd_loop l fd k n = none ↔ ∀ i, n ≤ i → i < n + k → (l.getD i default).fd ≠ fd := by
  induction k generalizing n with
  | zero => simp [find_fd_loop]; intro i h1 h2; omega
  | succ k ih =>
    unfold find_fd_loop
    by_cases h : (l.getD n default).fd = fd
    · simp only [h, if_true]
      constructor
      · intro c; cases c
      · intro c; exact absurd h (c n (le_refl _) (by omega))
    · simp only [h, if_false, ih]
      constructor
      · intro c i h1 h2
        rcases Nat.eq_or_lt_of_le h1 with e | e
        · subst e; exact h
        · exact c i e (by omega)
      · intro c i h1 h2
        exact c i (by omega) (by omega)

theorem sel_find_loop_some (l : List fdparm) (fd : Int) (k n j : Nat)
    (h : find_fd_loop l fd k n = some j) :
    n ≤ j ∧ j < n + k ∧ (l.getD j default).fd = fd ∧
      ∀ i, n ≤ i → i < j → (l.getD i default).fd ≠ fd := by
  induction k generalizing n with
  | zero => simp [find_fd_loop] at h
  | succ k ih =>
    unfold find_fd_loop at h
    by_cases c : (l.getD n default).fd = fd
    · simp only [c, if_true, Option.some.injEq] at h
      subst h
      exact ⟨le_refl _, by omega, c, fun i h1 h2 => by omega⟩
    · simp only [c, if_false] at h
      obtain ⟨h1, h2, h3, h4⟩ := ih (n + 1) h
      refine ⟨by omega, by omega, h3, fun i hi hj => ?_⟩
      rcases Nat.eq_or_lt_of_le hi with e | e
      · subst e; exact c
      · exact h4 i e hj

theorem sel_find_none (s : State) (fd : Int) : find_fd s fd = none ↔ ¬ registered s fd := by
  unfold find_fd registered
  rw [sel_find_loop_none]
  constructor
  · rintro h ⟨n, hn, e⟩
    exact h n (Nat.zero_le _) (by omega) e
  · intro h i _ hi e
    exact h ⟨i, by omega, e⟩

theorem sel_find_some (s : State) (fd : Int) (n : Nat) (h : find_fd s fd = some n) :
    n < s.npolls ∧ (parm s n).fd = fd ∧ ∀ i, i < n → (parm s i).fd ≠ fd := by
  obtain ⟨_, h2, h3, h4⟩ := sel_find_loop_some _ _ _ _ _ h
  exact ⟨by omega, h3, fun i hi => h4 i (Nat.zero_le _) hi⟩

theorem sel_find_registered (s : State) (fd : Int) :
    registered s fd ↔ ∃ n, find_fd s fd = some n := by
  constructor
  · intro h
    cases e : find_fd s fd with
    | none => exact absurd h ((sel_find_none s fd).1 e)
    | some n => exact ⟨n, rfl⟩
  · rintro ⟨n, h⟩
    obtain ⟨h1, h2, _⟩ := sel_find_some s fd n h
    exact ⟨n, h1, h2⟩

theorem sel_add_spec (s : State) (hw : WF s) (fd : Int) (cb aux : Nat) (h : find_fd s fd = none) :
    ∃ s2, add_fd s fd cb aux = some s2 ∧ WF s2 ∧ s2.npolls = s.npolls + 1 ∧
      s2.rpolls = max s.rpolls (s.npolls + 1) ∧ s2.changed = true ∧
      (∀ i, i < s.npolls → parm s2 i = parm s i) ∧
      parm s2 s.npolls = ⟨cb, aux, fd, 0, 0⟩ := by
  obtain ⟨h1, h3⟩ := hw
  unfold add_fd
  rw [h]
  by_cases g : s.rpolls < s.npolls + 1
  · have e : s.npolls = s.rpolls := by omega
    have gd : decide (s.rpolls < s.npolls + 1) = true := by simp [g]
    simp only [gd, if_true]
    refine ⟨_, rfl, ?_, rfl, ?_, rfl, ?_, ?_⟩
    · simp [WF, length_nfrealloc]
    · simp; omega
    · intro i hi
      have hne2 : ¬ (i = s.npolls ∧ s.npolls < (nfrealloc s.fdparms (s.npolls + 1) default).length) := by
        omega
      simp only [parm, getD_set, hne2, if_false]
      simp only [List.getD_eq_getElem?_getD]
      rw [getElem?_nfrealloc_lt _ _ _ _ (by omega) (by omega)]
    · simp [parm, getD_set, length_nfrealloc]
  · have e : s.npolls < s.rpolls := by omega
    have gd : decide (s.rpolls < s.npolls + 1) = false := by simp [g]
    simp only [gd, Bool.false_eq_true, if_false]
    refine ⟨_, rfl, ?_, rfl, ?_, rfl, ?_, ?_⟩
    · simp [WF]; omega
    · simp; omega
    · intro i hi
      have hne2 : ¬ (i = s.npolls ∧ s.npolls < s.fdparms.length) := by omega
      simp only [parm, getD_set, hne2, if_false]
    · have : s.npolls < s.fdparms.length := by omega
      simp [parm, getD_set, this]

theorem sel_conf_eq (s : State) (fd : Int) (a o n : Nat) (h : find_fd s fd = some n) :
    conf_fd s fd a o = some { s with
      fdparms := s.fdparms.set n { parm s n with events := ((parm s n).events &&& a) ||| o } } := by
  unfold conf_fd; rw [h]

theorem sel_fake_eq (s : State) (fd : Int) (e n : Nat) (h : find_fd s fd = some n) :
    fake_fd s fd e = some { s with
      fdparms := s.fdparms.set n { parm s n with faked := (parm s n).faked ||| e } } := by
  unfold fake_fd; rw [h]

theorem sel_del_eq (s : State) (fd : Int) (n : Nat) (h : find_fd s fd = some n) :
    del_fd s fd = some { s with
      npolls := s.npolls - 1
      fdparms := memmove s.fdparms n (n + 1) (s.npolls - 1 - n)
      changed := true } := by
  unfold del_fd; rw [h]

theorem sel_keeps_refl (n : Nat) (s : State) : Keeps n s s :=
  ⟨rfl, rfl, rfl, rfl, fun _ => ⟨rfl, rfl, rfl, fun _ => Nat.or_self _⟩⟩

theorem sel_keeps_trans {n m : Nat} {s s1 s2 : State} (h1 : Keeps n s s1) (h2 : Keeps m s1 s2)
    (hnm : n ≤ m) : Keeps m s s2 := by
  obtain ⟨a1, a2, a3, a5, a6⟩ := h1
  obtain ⟨b1, b2, b3, b5, b6⟩ := h2
  refine ⟨by omega, by omega, by rw [b3, a3], by omega, fun i => ?_⟩
  obtain ⟨c1, c3, c4, c5⟩ := a6 i
  obtain ⟨d1, d3, d4, d5⟩ := b6 i
  refine ⟨by rw [d1, c1], by rw [d3, c3], by rw [d4, c4], fun hi => ?_⟩
  have e1 := c5 (by omega)
  have e2 := d5 hi
  rw [← e2, ← Nat.lor_assoc, e1]

theorem sel_conf_keeps (s s2 : State) (fd : Int) (a o : Nat) (h : conf_fd s fd a o = some s2) :
    Keeps 0 s s2 := by
  cases e : find_fd s fd with
  | none => simp [conf_fd, e] at h
  | some n =>
    rw [sel_conf_eq s fd a o n e] at h
    cases h
    refine ⟨rfl, rfl, rfl, by simp, fun i => ⟨?_, ?_, ?_, fun _ => ?_⟩⟩
    · simp only [parm, getD_set]; split_ifs with c
      · rw [c.1]
      · rfl
    · simp only [parm, getD_set]; split_ifs with c
      · rw [c.1]
      · rfl
    · simp only [parm, getD_set]; split_ifs with c
      · rw [c.1]
      · rfl
    · simp only [parm, getD_set]; split_ifs with c
      · rw [c.1]; exact Nat.or_self _
      · exact Nat.or_self _

theorem sel_fake_keeps (s s2 : State) (fd : Int) (e : Nat) (h : fake_fd s fd e = some s2) :
    Keeps 0 s s2 := by
  cases e1 : find_fd s fd with
  | none => simp [fake_fd, e1] at h
  | some n =>
    rw [sel_fake_eq s fd e n e1] at h
    cases h
    refine ⟨rfl, rfl, rfl, by simp, fun i => ⟨?_, ?_, ?_, fun _ => ?_⟩⟩
    · simp only [parm, getD_set]; split_ifs with c
      · rw [c.1]
      · rfl
    · simp only [parm, getD_set]; split_ifs with c
      · rw [c.1]
      · rfl
    · simp only [parm, getD_set]; split_ifs with c
      · rw [c.1]
      · rfl
    · simp only [parm, getD_set]; split_ifs with c
      · rw [c.1]; simp only [← Nat.lor_assoc, Nat.or_self]
      · exact Nat.or_self _

theorem sel_add_changed (s s2 : State) (fd : Int) (cb aux : Nat) (h : add_fd s fd cb aux = some s2) :
    s2.changed = true := by
  unfold add_fd at h
  cases e : find_fd s fd with
  | some n => simp [e] at h
  | none => simp only [e, Option.some.injEq] at h; rw [← h]

theorem sel_del_changed (s s2 : State) (fd : Int) (h : del_fd s fd = some s2) :
    s2.changed = true := by
  unfold del_fd at h
  cases e : find_fd s fd with
  | none => simp [e] at h
  | some n => simp only [e, Option.some.injEq] at h; rw [← h]

theorem sel_step_changed (s s2 : State) (op : Op) (h : step s op = some s2) :
    (op.mutates = true → s2.changed = true) ∧ (op.mutates = false → Keeps 0 s s2) := by
  cases op with
  | add fd cb aux => exact ⟨fun _ => sel_add_changed s s2 fd cb aux h, fun c => by simp [Op.mutates] at c⟩
  | del fd => exact ⟨fun _ => sel_del_changed s s2 fd h, fun c => by simp [Op.mutates] at c⟩
  | conf fd a o => exact ⟨fun c => by simp [Op.mutates] at c, fun _ => sel_conf_keeps s s2 fd a o h⟩
  | fake fd e => exact ⟨fun c => by simp [Op.mutates] at c, fun _ => sel_fake_keeps s s2 fd e h⟩

theorem sel_step_mono (s s2 : State) (op : Op) (h : step s op = some s2)
    (hc : s.changed = true) : s2.changed = true := by
  by_cases m : op.mutates = true
  · exact (sel_step_changed s s2 op h).1 m
  · have := (sel_step_changed s s2 op h).2 (by simpa using m)
    rw [this.2.2.1, hc]

theorem sel_run_mono (ops : List Op) (s s2 : State) (h : run_ops ops s = some s2)
    (hc : s.changed = true) : s2.changed = true := by
  induction ops generalizing s with
  | nil => simp only [run_ops, Option.some.injEq] at h; rw [← h, hc]
  | cons op ops ih =>
    unfold run_ops at h
    cases e : step s op with
    | none => simp [e] at h
    | some s1 =>
      simp only [e] at h
      exact ih s1 h (sel_step_mono s s1 op e hc)

/-- A callback that returns with the flag clear found it clear, performed no `add_fd`
and no `del_fd`, and left every registration in place. -/
theorem sel_run_clear (ops : List Op) (s s2 : State) (h : run_ops ops s = some s2)
    (hc : s2.changed = false) : ops.any Op.mutates = false ∧ Keeps 0 s s2 := by
  induction ops generalizing s with
  | nil =>
    simp only [run_ops, Option.some.injEq] at h
    subst h
    exact ⟨rfl, sel_keeps_refl 0 s⟩
  | cons op ops ih =>
    unfold run_ops at h
    cases e : step s op with
    | none => simp [e] at h
    | some s1 =>
      simp only [e] at h
      obtain ⟨i1, i2⟩ := ih s1 h
      have hm : op.mutates = false := by
        by_contra c
        have c1 := (sel_step_changed s s1 op e).1 (by simpa using c)
        have := sel_run_mono ops s1 s2 h c1
        rw [hc] at this; cases this
      refine ⟨by simp [List.any_cons, hm, i1], ?_⟩
      exact sel_keeps_trans ((sel_step_changed s s1 op e).2 hm) i2 (le_refl _)

/-- A callback that performs an `add_fd` or a `del_fd` returns with the flag set. -/
theorem sel_run_mutates (ops : List Op) (s s2 : State) (h : run_ops ops s = some s2)
    (hm : ops.any Op.mutates = true) : s2.changed = true := by
  by_contra c
  have := (sel_run_clear ops s s2 h (by simpa using c)).1
  rw [hm] at this; cases this

/-! ## The sweep, `select` configuration -/

theorem sel_keeps_weaken {n m : Nat} {s s2 : State} (h : Keeps n s s2) (hnm : n ≤ m) :
    Keeps m s s2 := by
  obtain ⟨a1, a2, a3, a5, a6⟩ := h
  refine ⟨a1, a2, a3, a5, fun i => ?_⟩
  obtain ⟨c1, c3, c4, c5⟩ := a6 i
  exact ⟨c1, c3, c4, fun hi => c5 (by omega)⟩

theorem sel_clear_keeps (s : State) (n : Nat) : Keeps (n + 1) s (clear s n) := by
  refine ⟨rfl, rfl, rfl, by simp [clear], fun i => ⟨?_, ?_, ?_, fun hi => ?_⟩⟩
  · simp only [clear, parm, getD_set]; split_ifs with c
    · rw [c.1]
    · rfl
  · simp only [clear, parm, getD_set]; split_ifs with c
    · rw [c.1]
    · rfl
  · simp only [clear, parm, getD_set]; split_ifs with c
    · rw [c.1]
    · rfl
  · have : ¬ (i = n ∧ n < s.fdparms.length) := by omega
    simp only [clear, parm, getD_set, this, if_false, Nat.or_self]

theorem sel_sweep_succ {W : Type} (B : PollBits) (code : Code W) (rd : Ready) (k n : Nat)
    (s : State) (w : W) :
    sweep B code rd (k + 1) n s w =
      if n < s.npolls then
        if eff B rd s n ≠ 0 then
          match run_ops (act B code rd s n w).1 (clear s n) with
          | none => none
          | some s2 =>
            if s2.changed then
              some ⟨[call B code rd s n w s2], { s2 with changed := false },
                (act B code rd s n w).2⟩
            else
              match sweep B code rd k (n + 1) s2 (act B code rd s n w).2 with
              | none => none
              | some res => some { res with calls := call B code rd s n w s2 :: res.calls }
        else sweep B code rd k (n + 1) s w
      else some ⟨[], s, w⟩ := rfl

theorem sel_sweep_cases {W : Type} (B : PollBits) (code : Code W) (rd : Ready) (k n : Nat)
    (s : State) (w : W) (r : Result W) (h : sweep B code rd (k + 1) n s w = some r) :
    (¬ n < s.npolls ∧ r = ⟨[], s, w⟩) ∨
    (n < s.npolls ∧ eff B rd s n = 0 ∧ sweep B code rd k (n + 1) s w = some r) ∨
    (n < s.npolls ∧ eff B rd s n ≠ 0 ∧
      ∃ s2, run_ops (act B code rd s n w).1 (clear s n) = some s2 ∧
        ((s2.changed = true ∧
            r = ⟨[call B code rd s n w s2], { s2 with changed := false },
              (act B code rd s n w).2⟩) ∨
         (s2.changed = false ∧
            ∃ res, sweep B code rd k (n + 1) s2 (act B code rd s n w).2 = some res ∧
              r = { res with calls := call B code rd s n w s2 :: res.calls }))) := by
  rw [sel_sweep_succ] at h
  by_cases c1 : n < s.npolls
  · simp only [c1, if_true] at h
    by_cases c2 : eff B rd s n = 0
    · simp only [c2, ne_eq, not_true_eq_false, if_false] at h
      exact Or.inr (Or.inl ⟨c1, c2, h⟩)
    · simp only [ne_eq, c2, not_false_eq_true, if_true] at h
      cases e : run_ops (act B code rd s n w).1 (clear s n) with
      | none => simp [e] at h
      | some s2 =>
        simp only [e] at h
        refine Or.inr (Or.inr ⟨c1, c2, s2, rfl, ?_⟩)
        by_cases c4 : s2.changed = true
        · simp only [c4, if_true, Option.some.injEq] at h
          exact Or.inl ⟨c4, h.symm⟩
        · have c5 : s2.changed = false := by simpa using c4
          simp only [c5, Bool.false_eq_true, if_false] at h
          cases e2 : sweep B code rd k (n + 1) s2 (act B code rd s n w).2 with
          | none => simp [e2] at h
          | some res =>
            simp only [e2, Option.some.injEq] at h
            exact Or.inr ⟨c5, res, rfl, h.symm⟩
  · simp only [c1, if_false, Option.some.injEq] at h
    exact Or.inl ⟨c1, h.symm⟩

theorem sel_call_ok {W : Type} (B : PollBits) (code : Code W) (rd : Ready) (s : State) (n : Nat)
    (w : W) (s2 : State) (h1 : eff B rd s n ≠ 0)
    (h3 : run_ops (act B code rd s n w).1 (clear s n) = some s2) :
    CallOK B rd (call B code rd s n w s2) :=
  ⟨h1, rfl, rfl, rfl, rfl, h3⟩

/-- Every call a sweep records was made for a live element at or after the start
index, on a table that still has the registrations of the start in place. -/
theorem sel_sweep_calls {W : Type} (B : PollBits) (code : Code W) (rd : Ready) (k n : Nat)
    (s : State) (w : W) (r : Result W) (h : sweep B code rd k n s w = some r) :
    ∀ c ∈ r.calls, n ≤ c.n ∧ c.n < s.npolls ∧ Keeps c.n s c.seen ∧ CallOK B rd c := by
  induction k generalizing n s w r with
  | zero =>
    simp only [sweep, Option.some.injEq] at h
    subst h
    intro c hc; cases hc
  | succ k ih =>
    rcases sel_sweep_cases B code rd k n s w r h with ⟨_, rfl⟩ | ⟨c1, _, h2⟩ |
      ⟨c1, c2, s2, e, ⟨c4, rfl⟩ | ⟨c4, res, e2, rfl⟩⟩
    · intro c hc; cases hc
    · intro c hc
      obtain ⟨a1, a2, a3, a4⟩ := ih (n + 1) s w r h2 c hc
      exact ⟨by omega, a2, a3, a4⟩
    · intro c hc
      simp only [List.mem_singleton] at hc
      subst hc
      exact ⟨le_refl _, c1, sel_keeps_refl _ _, sel_call_ok B code rd s n w s2 c2 e⟩
    · intro c hc
      simp only [List.mem_cons] at hc
      rcases hc with rfl | hc
      · exact ⟨le_refl _, c1, sel_keeps_refl _ _, sel_call_ok B code rd s n w s2 c2 e⟩
      · obtain ⟨a1, a2, a3, a4⟩ := ih (n + 1) s2 _ res e2 c hc
        have k1 : Keeps (n + 1) s s2 :=
          sel_keeps_trans (sel_clear_keeps s n)
            (sel_keeps_weaken (sel_run_clear _ _ _ e c4).2 (Nat.zero_le _)) (le_refl _)
        exact ⟨by omega, by rw [← k1.1]; exact a2, sel_keeps_trans k1 a3 a1, a4⟩

/-- A call whose callback performs an `add_fd` or a `del_fd` is the last of its sweep,
and the sweep returns the state that callback left, with the flag cleared. -/
theorem sel_sweep_mutation {W : Type} (B : PollBits) (code : Code W) (rd : Ready) (k n : Nat)
    (s : State) (w : W) (r : Result W) (h : sweep B code rd k n s w = some r)
    (pre post : List Call) (c : Call)
    (hd : r.calls = pre ++ c :: post) (hm : c.ops.any Op.mutates = true) :
    post = [] ∧ r.s = { c.after with changed := false } := by
  induction k generalizing n s w r pre with
  | zero =>
    simp only [sweep, Option.some.injEq] at h
    subst h
    simp at hd
  | succ k ih =>
    rcases sel_sweep_cases B code rd k n s w r h with ⟨_, rfl⟩ | ⟨c1, _, h2⟩ |
      ⟨c1, c2, s2, e, ⟨c4, rfl⟩ | ⟨c4, res, e2, rfl⟩⟩
    · simp at hd
    · exact ih (n + 1) s w r h2 pre hd
    · cases pre with
      | nil =>
        simp only [List.nil_append, List.cons.injEq] at hd
        obtain ⟨rfl, rfl⟩ := hd
        exact ⟨rfl, rfl⟩
      | cons p pre =>
        simp only [List.cons_append, List.cons.injEq] at hd
        have := hd.2
        simp at this
    · cases pre with
      | nil =>
        simp only [List.nil_append, List.cons.injEq] at hd
        obtain ⟨rfl, _⟩ := hd
        have := sel_run_mutates _ _ _ e hm
        rw [c4] at this; cases this
      | cons p pre =>
        simp only [List.cons_append, List.cons.injEq] at hd
        exact ih (n + 1) s2 _ res e2 pre hd.2

theorem sel_run_keeps (ops : List Op) (s s2 : State) (h : run_ops ops s = some s2)
    (hm : ops.any Op.mutates = false) : Keeps 0 s s2 := by
  induction ops generalizing s with
  | nil =>
    simp only [run_ops, Option.some.injEq] at h
    subst h
    exact sel_keeps_refl 0 s
  | cons op ops ih =>
    unfold run_ops at h
    simp only [List.any_cons, Bool.or_eq_false_iff] at hm
    cases e : step s op with
    | none => simp [e] at h
    | some s1 =>
      simp only [e] at h
      exact sel_keeps_trans ((sel_step_changed s s1 op e).2 hm.1) (ih s1 h hm.2) (le_refl _)

theorem sel_sweep_fuel {W : Type} (B : PollBits) (code : Code W) (rd : Ready) (k j n : Nat)
    (s : State) (w : W) (hk : s.npolls ≤ n + k) :
    sweep B code rd (k + j) n s w = sweep B code rd k n s w := by
  induction k generalizing n s w with
  | zero =>
    cases j with
    | zero => rfl
    | succ j =>
      have : ¬ n < s.npolls := by omega
      rw [Nat.zero_add, sel_sweep_succ, if_neg this]
      rfl
  | succ k ih =>
    have e : k + 1 + j = (k + j) + 1 := by omega
    rw [e, sel_sweep_succ, sel_sweep_succ]
    by_cases c1 : n < s.npolls
    · simp only [c1, if_true]
      rw [ih (n + 1) s w (by omega)]
      by_cases c2 : eff B rd s n ≠ 0
      · simp only [if_pos c2]
        cases e1 : run_ops (act B code rd s n w).1 (clear s n) with
        | none => rfl
        | some s2 =>
          simp only []
          by_cases c4 : s2.changed = true
          · simp only [c4, if_true]
          · have c5 : s2.changed = false := by simpa using c4
            have k1 := (sel_run_clear _ _ _ e1 c5).2
            have e2 : s2.npolls = s.npolls := k1.1
            rw [ih (n + 1) s2 _ (by omega)]
      · simp only [if_neg c2]
    · simp only [c1, if_false]

theorem sel_mask_eq (B : PollBits) (rd : Ready) (p : fdparm) :
    mask B rd p = p.faked ||| reported B rd p.fd := by
  simp only [mask, reported]
  by_cases h1 : FD_ISSET p.fd rd.rfds = true <;> by_cases h2 : FD_ISSET p.fd rd.wfds = true <;>
    by_cases h3 : FD_ISSET p.fd rd.efds = true <;> simp [h1, h2, h3, Nat.lor_assoc]

theorem sel_eff_effective (B : PollBits) (rd : Ready) (s : State) (i : Nat) :
    eff B rd s i = effective B rd s i := by
  unfold eff effective
  rw [sel_mask_eq, Nat.lor_comm]

theorem sel_eff_keeps {B : PollBits} {rd : Ready} {m i : Nat} {s s2 : State} (h : Keeps m s s2)
    (hi : m ≤ i) (he : eff B rd s i ≠ 0) : eff B rd s2 i ≠ 0 := by
  obtain ⟨_, _, _, _, a6⟩ := h
  obtain ⟨c1, _, _, c5⟩ := a6 i
  intro e
  unfold eff at e he
  rw [sel_mask_eq] at e he
  obtain ⟨e1, e2⟩ := lor_eq_zero e
  have c6 := c5 hi
  rw [e1, Nat.or_zero] at c6
  rw [c1] at e2
  rw [e2, c6] at he
  exact he rfl

/-- A sweep entered with the flag clear, in which no callback adds or removes,
returns with the flag clear and has called every element that was ready. -/
theorem sel_sweep_visits {W : Type} (B : PollBits) (code : Code W) (rd : Ready) (k n : Nat)
    (s : State) (w : W)
    (r : Result W) (h : sweep B code rd k n s w = some r) (hc : s.changed = false)
    (hm : ∀ c ∈ r.calls, c.ops.any Op.mutates = false) (hk : s.npolls ≤ n + k) :
    r.s.changed = false ∧ ∀ i, n ≤ i → i < s.npolls → eff B rd s i ≠ 0 → ∃ c ∈ r.calls, c.n = i := by
  induction k generalizing n s w r with
  | zero =>
    simp only [sweep, Option.some.injEq] at h
    subst h
    exact ⟨hc, fun i h1 h2 _ => by omega⟩
  | succ k ih =>
    rcases sel_sweep_cases B code rd k n s w r h with ⟨c1, rfl⟩ | ⟨c1, c2, h2⟩ |
      ⟨c1, c2, s2, e, ⟨c4, rfl⟩ | ⟨c4, res, e2, rfl⟩⟩
    · exact ⟨hc, fun i h1 h2 _ => by omega⟩
    · obtain ⟨a1, a2⟩ := ih (n + 1) s w r h2 hc hm (by omega)
      refine ⟨a1, fun i h1 h3 h4 => ?_⟩
      rcases Nat.eq_or_lt_of_le h1 with rfl | lt
      · exact absurd c2 h4
      · exact a2 i lt h3 h4
    · have k0 : ((call B code rd s n w s2).ops.any Op.mutates) = false :=
        hm _ (List.mem_singleton.2 rfl)
      have k1 := sel_run_keeps _ _ _ e k0
      have : s2.changed = false := by rw [k1.2.2.1]; exact hc
      rw [c4] at this; cases this
    · have k1 : Keeps (n + 1) s s2 :=
        sel_keeps_trans (sel_clear_keeps s n)
          (sel_keeps_weaken (sel_run_clear _ _ _ e c4).2 (Nat.zero_le _)) (le_refl _)
      have hc2 : s2.changed = false := c4
      obtain ⟨a1, a2⟩ := ih (n + 1) s2 _ res e2 hc2
        (fun c hcm => hm c (List.mem_cons_of_mem _ hcm)) (by rw [k1.1]; omega)
      refine ⟨a1, fun i h1 h3 h4 => ?_⟩
      rcases Nat.eq_or_lt_of_le h1 with rfl | lt
      · exact ⟨_, List.mem_cons_self _ _, rfl⟩
      · obtain ⟨c, hcm, hcn⟩ := a2 i lt (by rw [k1.1]; exact h3) (sel_eff_keeps k1 lt h4)
        exact ⟨c, List.mem_cons_of_mem _ hcm, hcn⟩

theorem sel_event_wait_eq {W : Type} (B : PollBits) (select : SelectCall W) (code : Code W)
    (s : State) (w : W) :
    event_wait B select code s w =
      if (select ((prep B s).m + 1) (prep B s).rfds (prep B s).wfds (prep B s).efds
          (timeout B s) w).1.1 < 0 then none
      else sweep B code
        (select ((prep B s).m + 1) (prep B s).rfds (prep B s).wfds (prep B s).efds
          (timeout B s) w).1.2 s.npolls 0 s
        (select ((prep B s).m + 1) (prep B s).rfds (prep B s).wfds (prep B s).efds
          (timeout B s) w).2 := rfl

theorem sel_clear_other (B : PollBits) (rd : Ready) (s : State) (n i : Nat) (h : i ≠ n) :
    parm (clear s n) i = parm s i ∧ eff B rd (clear s n) i = eff B rd s i := by
  have e : parm (clear s n) i = parm s i := by
    have : ¬ (i = n ∧ n < s.fdparms.length) := fun c => h c.1
    simp only [clear, parm, getD_set, this, if_false]
  exact ⟨e, by unfold eff; rw [e]⟩

/-- With callbacks that perform no table operation, a sweep entered with the flag
clear returns, having called exactly the ready elements, in table order. -/
theorem sel_sweep_noop {W : Type} (B : PollBits) (code : Code W) (rd : Ready)
    (hno : ∀ cb m aux w, (code cb m aux w).1 = []) (k n : Nat) (s : State) (w : W)
    (hc : s.changed = false) (hk : n + k = s.npolls) :
    ∃ r, sweep B code rd k n s w = some r ∧ r.s.changed = false ∧
      r.calls.map Call.sig = ((List.range' n k).filter (fun i => decide (eff B rd s i ≠ 0))).map
        (fun i => (i, (parm s i).cb, eff B rd s i, (parm s i).aux)) := by
  induction k generalizing n s w with
  | zero => exact ⟨_, rfl, hc, rfl⟩
  | succ k ih =>
    have c1 : n < s.npolls := by omega
    rw [sel_sweep_succ, if_pos c1, List.range'_succ, List.filter_cons]
    by_cases c2 : eff B rd s n ≠ 0
    · have e1 : run_ops (act B code rd s n w).1 (clear s n) = some (clear s n) := by
        rw [show (act B code rd s n w).1 = [] from hno _ _ _ _]; rfl
      have c4 : ¬ (clear s n).changed = true := by
        rw [show (clear s n).changed = s.changed from rfl, hc]; simp
      obtain ⟨r, hr, hrc, hcalls⟩ := ih (n + 1) (clear s n) (act B code rd s n w).2 hc (by
        rw [show (clear s n).npolls = s.npolls from rfl]; omega)
      rw [if_pos c2]
      simp only [e1, if_neg c4, hr]
      refine ⟨_, rfl, hrc, ?_⟩
      simp only [List.map_cons, hcalls, decide_eq_true_eq, if_pos c2]
      refine congrArg₂ _ rfl ?_
      have f1 : List.filter (fun i => decide (eff B rd (clear s n) i ≠ 0)) (List.range' (n + 1) k) =
          List.filter (fun i => decide (eff B rd s i ≠ 0)) (List.range' (n + 1) k) := by
        apply List.filter_congr
        intro i hi
        have : i ≠ n := by
          obtain ⟨j, _, rfl⟩ := List.mem_range'.1 hi; omega
        rw [(sel_clear_other B rd s n i this).2]
      rw [f1]
      apply List.map_congr_left
      intro i hi
      have : i ≠ n := by
        obtain ⟨j, _, rfl⟩ := List.mem_range'.1 (List.mem_of_mem_filter hi); omega
      rw [(sel_clear_other B rd s n i this).1, (sel_clear_other B rd s n i this).2]
    · rw [if_neg c2]
      obtain ⟨r, hr, hrc, hcalls⟩ := ih (n + 1) s w hc (by omega)
      refine ⟨r, hr, hrc, ?_⟩
      simp only [hcalls, decide_eq_true_eq, if_neg c2]

theorem sel_flag_false (s : State) (h : s.changed = false) : { s with changed := false } = s := by
  cases s; simp only [State.mk.injEq, true_and] at *; exact h.symm

/-- A sweep that calls nothing leaves the state as it is; otherwise it returns the
state its last callback left, with the flag clear. -/
theorem sel_sweep_last {W : Type} (B : PollBits) (code : Code W) (rd : Ready) (k n : Nat)
    (s : State) (w : W)
    (r : Result W) (h : sweep B code rd k n s w = some r) :
    (r.calls = [] → r.s = s) ∧
    (∀ pre c, r.calls = pre ++ [c] → r.s = { c.after with changed := false }) := by
  induction k generalizing n s w r with
  | zero =>
    simp only [sweep, Option.some.injEq] at h
    subst h
    exact ⟨fun _ => rfl, fun pre c hd => by simp at hd⟩
  | succ k ih =>
    rcases sel_sweep_cases B code rd k n s w r h with ⟨_, rfl⟩ | ⟨c1, _, h2⟩ |
      ⟨c1, c2, s2, e, ⟨c4, rfl⟩ | ⟨c4, res, e2, rfl⟩⟩
    · exact ⟨fun _ => rfl, fun pre c hd => by simp at hd⟩
    · exact ih (n + 1) s w r h2
    · refine ⟨fun hd => by simp at hd, fun pre c hd => ?_⟩
      cases pre with
      | nil =>
        simp only [List.nil_append, List.cons.injEq, and_true] at hd
        subst hd; rfl
      | cons p pre =>
        simp only [List.cons_append, List.cons.injEq] at hd
        have := hd.2
        simp at this
    · obtain ⟨i1, i2⟩ := ih (n + 1) s2 _ res e2
      refine ⟨fun hd => by simp at hd, fun pre c hd => ?_⟩
      cases pre with
      | nil =>
        simp only [List.nil_append, List.cons.injEq] at hd
        obtain ⟨rfl, hd2⟩ := hd
        show res.s = _
        rw [i1 hd2]
        exact (sel_flag_false s2 c4).symm
      | cons p pre =>
        simp only [List.cons_append, List.cons.injEq] at hd
        exact i2 pre c hd.2

/-- The flag is set when a sweep returns only if it was set on entry and the sweep
called nothing. -/
theorem sel_sweep_flag {W : Type} (B : PollBits) (code : Code W) (rd : Ready) (k n : Nat)
    (s : State) (w : W)
    (r : Result W) (h : sweep B code rd k n s w = some r) :
    r.s.changed = true ↔ s.changed = true ∧ r.calls = [] := by
  obtain ⟨i1, i2⟩ := sel_sweep_last B code rd k n s w r h
  rcases List.eq_nil_or_concat r.calls with e | ⟨pre, c, e⟩
  · rw [i1 e]; simp [e]
  · rw [List.concat_eq_append] at e
    rw [i2 pre c e, e]; simp

theorem sel_keeps_wf {n : Nat} {s s2 : State} (h : Keeps n s s2) (hw : WF s) : WF s2 := by
  obtain ⟨a1, a2, _, a5, _⟩ := h
  obtain ⟨h1, h3⟩ := hw
  exact ⟨by omega, by omega⟩

theorem sel_keeps_unique {n : Nat} {s s2 : State} (h : Keeps n s s2) (hu : Unique s) :
    Unique s2 := by
  obtain ⟨a1, _, _, _, a6⟩ := h
  intro i hi j hj e
  rw [(a6 i).1, (a6 j).1] at e
  exact hu i (by omega) j (by omega) e

theorem sel_del_spec (s : State) (hw : WF s) (fd : Int) (n : Nat) (h : find_fd s fd = some n) :
    ∃ s2, del_fd s fd = some s2 ∧ WF s2 ∧ s2.npolls + 1 = s.npolls ∧ s2.rpolls = s.rpolls ∧
      s2.changed = true ∧
      ∀ i, parm s2 i = (if i < n then parm s i else if i < s.npolls - 1 then parm s (i + 1)
          else parm s i) := by
  obtain ⟨h1, h3⟩ := hw
  obtain ⟨hn, _, _⟩ := sel_find_some s fd n h
  refine ⟨_, sel_del_eq s fd n h, ?_, ?_, rfl, rfl, fun i => ?_⟩
  · refine ⟨?_, ?_⟩
    · show s.npolls - 1 ≤ s.rpolls
      omega
    · show (memmove s.fdparms n (n + 1) (s.npolls - 1 - n)).length = s.rpolls
      rw [length_memmove_del _ _ _ hn (by omega)]; exact h3
  · show s.npolls - 1 + 1 = s.npolls
    omega
  · exact getD_memmove_del s.fdparms n s.npolls i default hn (by omega)

theorem sel_step_wf (s s2 : State) (op : Op) (hw : WF s) (h : step s op = some s2) : WF s2 := by
  cases op with
  | add fd cb aux =>
    cases e : find_fd s fd with
    | some n => simp [step, add_fd, e] at h
    | none =>
      obtain ⟨s3, e3, w3, _⟩ := sel_add_spec s hw fd cb aux e
      have : s2 = s3 := by
        have h' : add_fd s fd cb aux = some s2 := h
        rw [e3] at h'; exact (Option.some.inj h').symm
      rw [this]; exact w3
  | del fd =>
    cases e : find_fd s fd with
    | none => simp [step, del_fd, e] at h
    | some n =>
      obtain ⟨s3, e3, w3, _⟩ := sel_del_spec s hw fd n e
      have : s2 = s3 := by
        have h' : del_fd s fd = some s2 := h
        rw [e3] at h'; exact (Option.some.inj h').symm
      rw [this]; exact w3
  | conf fd a o => exact sel_keeps_wf (sel_conf_keeps s s2 fd a o h) hw
  | fake fd e => exact sel_keeps_wf (sel_fake_keeps s s2 fd e h) hw

theorem sel_step_unique (s s2 : State) (op : Op) (hw : WF s) (hu : Unique s)
    (h : step s op = some s2) : Unique s2 := by
  cases op with
  | add fd cb aux =>
    cases e : find_fd s fd with
    | some n => simp [step, add_fd, e] at h
    | none =>
      obtain ⟨s3, e3, _, n3, _, _, old, new⟩ := sel_add_spec s hw fd cb aux e
      have : s2 = s3 := by
        have h' : add_fd s fd cb aux = some s2 := h
        rw [e3] at h'; exact (Option.some.inj h').symm
      subst this
      have nr := (sel_find_none s fd).1 e
      have new' : (parm s2 s.npolls).fd = fd := by rw [new]
      intro i hi j hj eq
      rw [n3] at hi hj
      rcases Nat.lt_succ_iff_lt_or_eq.1 hi with li | rfl
      · rcases Nat.lt_succ_iff_lt_or_eq.1 hj with lj | rfl
        · rw [old i li, old j lj] at eq
          exact hu i li j lj eq
        · rw [old i li, new'] at eq
          exact absurd ⟨i, li, eq⟩ nr
      · rcases Nat.lt_succ_iff_lt_or_eq.1 hj with lj | e2
        · rw [old j lj, new'] at eq
          exact absurd ⟨j, lj, eq.symm⟩ nr
        · exact e2.symm
  | del fd =>
    cases e : find_fd s fd with
    | none => simp [step, del_fd, e] at h
    | some n =>
      obtain ⟨s3, e3, _, n3, _, _, mv⟩ := sel_del_spec s hw fd n e
      have : s2 = s3 := by
        have h' : del_fd s fd = some s2 := h
        rw [e3] at h'; exact (Option.some.inj h').symm
      subst this
      intro i hi j hj eq
      rw [mv i, mv j] at eq
      have hi' : i < s.npolls - 1 := by omega
      have hj' : j < s.npolls - 1 := by omega
      by_cases ci : i < n <;> by_cases cj : j < n <;>
        simp only [ci, cj, hi', hj', if_true, if_false] at eq
      · exact hu i (by omega) j (by omega) eq
      · have := hu i (by omega) (j + 1) (by omega) eq; omega
      · have := hu (i + 1) (by omega) j (by omega) eq; omega
      · have := hu (i + 1) (by omega) (j + 1) (by omega) eq; omega
  | conf fd a o => exact sel_keeps_unique (sel_conf_keeps s s2 fd a o h) hu
  | fake fd e => exact sel_keeps_unique (sel_fake_keeps s s2 fd e h) hu

theorem sel_run_inv (ops : List Op) (s s2 : State) (hw : WF s) (hu : Unique s)
    (h : run_ops ops s = some s2) : WF s2 ∧ Unique s2 := by
  induction ops generalizing s with
  | nil =>
    simp only [run_ops, Option.some.injEq] at h
    subst h; exact ⟨hw, hu⟩
  | cons op ops ih =>
    unfold run_ops at h
    cases e : step s op with
    | none => simp [e] at h
    | some s1 =>
      simp only [e] at h
      exact ih s1 (sel_step_wf s s1 op hw e) (sel_step_unique s s1 op hw hu e) h

theorem sel_mutation_ends_sweep {W : Type} (B : PollBits) (select : SelectCall W) (code : Code W)
    (s : State) (w : W) (r : Result W) (h : event_wait B select code s w = some r)
    (pre post : List Call) (c : Call) (hd : r.calls = pre ++ c :: post)
    (hm : c.ops.any Op.mutates = true) :
    run_ops c.ops c.before = some c.after ∧ post = [] ∧
      r.s = { c.after with changed := false } := by
  rw [sel_event_wait_eq] at h
  split_ifs at h with c0
  have hc : c ∈ r.calls := by rw [hd]; simp
  obtain ⟨_, _, _, ok⟩ := sel_sweep_calls B code _ _ _ _ _ r h c hc
  obtain ⟨a, b⟩ := sel_sweep_mutation B code _ _ _ _ _ r h pre post c hd hm
  exact ⟨ok.2.2.2.2.2, a, b⟩

theorem sel_ready_called {W : Type} (B : PollBits) (select : SelectCall W) (code : Code W)
    (hno : ∀ cb m aux w, (code cb m aux w).1 = []) (s : State) (w : W)
    (hc : s.changed = false) (hret : 0 ≤ (wait B select s w).1.1) :
    ∃ r, event_wait B select code s w = some r ∧ r.s.changed = false ∧
      r.calls.map Call.sig =
        ((List.range s.npolls).filter (fun i =>
            decide (effective B (wait B select s w).1.2 s i ≠ 0))).map
          (fun i => (i, (parm s i).cb, effective B (wait B select s w).1.2 s i,
            (parm s i).aux)) := by
  unfold wait at hret ⊢
  rw [sel_event_wait_eq, if_neg (by omega)]
  obtain ⟨r, hr, hrc, hcalls⟩ := sel_sweep_noop B code
    (select ((prep B s).m + 1) (prep B s).rfds (prep B s).wfds (prep B s).efds
      (timeout B s) w).1.2 hno s.npolls 0 s
    (select ((prep B s).m + 1) (prep B s).rfds (prep B s).wfds (prep B s).efds
      (timeout B s) w).2 hc (by rw [Nat.zero_add])
  refine ⟨r, hr, hrc, ?_⟩
  rw [hcalls, List.range_eq_range']
  simp only [sel_eff_effective]

theorem sel_flag_protocol {W : Type} (B : PollBits) (select : SelectCall W) (code : Code W)
    (s : State) (w : W) (r : Result W) (h : event_wait B select code s w = some r) :
    (r.s.changed = true ↔ s.changed = true ∧ r.calls = []) ∧
    (s.changed = false → (∀ c ∈ r.calls, c.ops.any Op.mutates = false) →
      ∀ i, i < s.npolls → effective B (wait B select s w).1.2 s i ≠ 0 →
        ∃ c ∈ r.calls, c.n = i) := by
  unfold wait
  rw [sel_event_wait_eq] at h
  split_ifs at h with c0
  have fl := sel_sweep_flag B code _ _ _ _ _ r h
  refine ⟨fl, fun hc hm i hi he => ?_⟩
  refine (sel_sweep_visits B code _ _ _ _ _ r h hc hm (by rw [Nat.zero_add])).2
    i (Nat.zero_le _) hi ?_
  rw [sel_eff_effective]; exact he

theorem sel_clear_faked (s : State) (n : Nat) : (parm (clear s n) n).faked = 0 := by
  simp only [clear, parm, getD_set, true_and]
  split_ifs with c
  · rfl
  · rw [List.getD_eq_default _ _ (by omega)]; rfl

theorem sel_dispatch_mask {W : Type} (B : PollBits) (select : SelectCall W) (code : Code W)
    (s : State) (w : W) (r : Result W) (h : event_wait B select code s w = some r)
    (c : Call) (hc : c ∈ r.calls) :
    c.n < s.npolls ∧ (parm c.before c.n).faked = 0 ∧
    c.what = reported B (wait B select s w).1.2 (parm s c.n).fd ||| (parm c.seen c.n).faked ∧
    reported B (wait B select s w).1.2 (parm s c.n).fd ||| (parm c.seen c.n).faked ≠ 0 ∧
    (parm c.seen c.n).fd = (parm s c.n).fd ∧
    (parm s c.n).faked ||| (parm c.seen c.n).faked = (parm c.seen c.n).faked ∧
    run_ops c.ops c.before = some c.after ∧ c.seen.npolls = s.npolls ∧
    c.before = clear c.seen c.n := by
  unfold wait
  rw [sel_event_wait_eq] at h
  split_ifs at h with c0
  obtain ⟨_, hn, kp, ok⟩ := sel_sweep_calls B code _ _ _ _ _ r h c hc
  obtain ⟨o1, o3, o4, o5, o6, o7⟩ := ok
  obtain ⟨k1, _, _, _, k6⟩ := kp
  obtain ⟨q1, _, _, q5⟩ := k6 c.n
  rw [sel_eff_effective] at o1 o3
  unfold effective at o1 o3
  rw [q1] at o1 o3
  refine ⟨hn, ?_, o3, o1, q1, q5 (le_refl _), o7, k1, o6⟩
  rw [o6]; exact sel_clear_faked _ _

theorem sel_init_inv : WF init ∧ Unique init := by
  constructor
  · decide
  · intro i hi; exact absurd hi (Nat.not_lt_zero _)

theorem sel_del_exact (s : State) (hw : WF s) (hu : Unique s) (fd : Int)
    (hr : registered s fd) :
    ∃ n s2, find_fd s fd = some n ∧ del_fd s fd = some s2 ∧ s2.npolls + 1 = s.npolls ∧
      find_fd s2 fd = none ∧ s2.rpolls = s.rpolls ∧ s2.changed = true ∧ WF s2 ∧ Unique s2 ∧
      (∀ i, i < s2.npolls → parm s2 i = parm s (if i < n then i else i + 1)) ∧
      (∀ j, j < s.npolls → j ≠ n → ∃ i, i < s2.npolls ∧ parm s2 i = parm s j) := by
  obtain ⟨n, hf⟩ := (sel_find_registered s fd).1 hr
  obtain ⟨hn, hfd, _⟩ := sel_find_some s fd n hf
  obtain ⟨s2, e, w2, n2, r2, c2, mv⟩ := sel_del_spec s hw fd n hf
  have mv2 : ∀ i, i < s2.npolls → parm s2 i = parm s (if i < n then i else i + 1) := by
    intro i hi
    have hi' : i < s.npolls - 1 := by omega
    rw [mv i]
    by_cases ci : i < n
    · simp only [ci, if_true]
    · simp only [ci, if_false, hi', if_true]
  refine ⟨n, s2, hf, e, n2, ?_, r2, c2, w2, sel_step_unique s s2 (.del fd) hw hu e, mv2, ?_⟩
  · rw [sel_find_none]
    rintro ⟨i, hi, hfi⟩
    rw [mv2 i hi] at hfi
    have := hu _ (by split_ifs <;> omega) n hn (hfi.trans hfd.symm)
    split_ifs at this <;> omega
  · intro j hj hne
    by_cases cj : j < n
    · refine ⟨j, by omega, ?_⟩
      have := mv2 j (by omega)
      simpa only [cj, if_true] using this
    · refine ⟨j - 1, by omega, ?_⟩
      have := mv2 (j - 1) (by omega)
      have c : ¬ j - 1 < n := by omega
      have e3 : j - 1 + 1 = j := by omega
      simpa only [c, if_false, e3] using this

theorem sel_fail_iff (s : State) (fd : Int) :
    (∀ cb aux, add_fd s fd cb aux = none ↔ registered s fd) ∧
    (del_fd s fd = none ↔ ¬ registered s fd) ∧
    (∀ a o, conf_fd s fd a o = none ↔ ¬ registered s fd) ∧
    (∀ e, fake_fd s fd e = none ↔ ¬ registered s fd) := by
  cases hf : find_fd s fd with
  | none =>
    have nr : ¬ registered s fd := (sel_find_none s fd).1 hf
    refine ⟨fun cb aux => ?_, ?_, fun a o => ?_, fun e => ?_⟩ <;>
      simp [add_fd, del_fd, conf_fd, fake_fd, hf, nr]
  | some n =>
    have hr : registered s fd := (sel_find_registered s fd).2 ⟨n, hf⟩
    refine ⟨fun cb aux => ?_, ?_, fun a o => ?_, fun e => ?_⟩ <;>
      simp [add_fd, del_fd, conf_fd, fake_fd, hf, hr]

theorem sel_conf_exact (s : State) (hw : WF s) (fd : Int) (a o : Nat) (hr : registered s fd) :
    ∃ n s2, find_fd s fd = some n ∧ conf_fd s fd a o = some s2 ∧
      parm s2 n = { parm s n with events := ((parm s n).events &&& a) ||| o } ∧
      (parm s n).fd = fd ∧ (∀ i, i ≠ n → parm s2 i = parm s i) ∧
      s2.npolls = s.npolls ∧ s2.rpolls = s.rpolls ∧
      s2.changed = s.changed ∧ s2.fdparms.length = s.fdparms.length := by
  obtain ⟨n, hf⟩ := (sel_find_registered s fd).1 hr
  obtain ⟨hn, hfd, _⟩ := sel_find_some s fd n hf
  obtain ⟨h1, h3⟩ := hw
  refine ⟨n, _, hf, sel_conf_eq s fd a o n hf, ?_, hfd, fun i hi => ?_, rfl, rfl, rfl, by simp⟩
  · have : n < s.fdparms.length := by omega
    simp only [parm, getD_set, this, and_self, if_true]
  · have : ¬ (i = n ∧ n < s.fdparms.length) := fun c => hi c.1
    simp only [parm, getD_set, this, if_false]

theorem sel_fake_exact (s : State) (hw : WF s) (fd : Int) (m : Nat) (hr : registered s fd) :
    ∃ n s2, find_fd s fd = some n ∧ fake_fd s fd m = some s2 ∧
      parm s2 n = { parm s n with faked := (parm s n).faked ||| m } ∧
      (parm s n).fd = fd ∧ (∀ i, i ≠ n → parm s2 i = parm s i) ∧
      s2.npolls = s.npolls ∧ s2.rpolls = s.rpolls ∧
      s2.changed = s.changed ∧ s2.fdparms.length = s.fdparms.length := by
  obtain ⟨n, hf⟩ := (sel_find_registered s fd).1 hr
  obtain ⟨hn, hfd, _⟩ := sel_find_some s fd n hf
  obtain ⟨h1, h3⟩ := hw
  refine ⟨n, _, hf, sel_fake_eq s fd m n hf, ?_, hfd, fun i hi => ?_, rfl, rfl, rfl, by simp⟩
  · have : n < s.fdparms.length := by omega
    simp only [parm, getD_set, this, and_self, if_true]
  · have : ¬ (i = n ∧ n < s.fdparms.length) := fun c => hi c.1
    simp only [parm, getD_set, this, if_false]

theorem sel_find_loop_congr (l l2 : List fdparm) (fd : Int) (k n : Nat)
    (h : ∀ i, (l2.getD i default).fd = (l.getD i default).fd) :
    find_fd_loop l2 fd k n = find_fd_loop l fd k n := by
  induction k generalizing n with
  | zero => rfl
  | succ k ih => unfold find_fd_loop; rw [h n, ih]

theorem sel_find_keeps {m : Nat} (s s2 : State) (h : Keeps m s s2) (fd : Int) :
    find_fd s2 fd = find_fd s fd := by
  unfold find_fd
  rw [h.1]
  exact sel_find_loop_congr _ _ fd _ _ (fun i => (h.2.2.2.2 i).1)

theorem sel_fake_accumulate (s : State) (fd : Int) (m1 m2 : Nat) :
    (fake_fd s fd m1).bind (fun t => fake_fd t fd m2) = fake_fd s fd (m1 ||| m2) := by
  cases hf : find_fd s fd with
  | none => simp [fake_fd, hf]
  | some n =>
    cases h1 : fake_fd s fd m1 with
    | none => simp [fake_fd, hf] at h1
    | some t =>
      have hf2 : find_fd t fd = some n := by
        rw [sel_find_keeps s t (sel_fake_keeps s t fd m1 h1), hf]
      rw [Option.some_bind, sel_fake_eq t fd m2 n hf2, sel_fake_eq s fd (m1 ||| m2) n hf]
      rw [sel_fake_eq s fd m1 n hf] at h1
      cases h1
      by_cases c : n < s.fdparms.length
      · simp only [parm, getD_set, c, and_self, if_true, List.set_set, Nat.lor_assoc]
      · have e : ∀ x, s.fdparms.set n x = s.fdparms := fun x =>
          List.set_eq_of_length_le (by omega)
        simp only [e]

theorem sel_fake_idem (s : State) (fd : Int) (m : Nat) :
    (fake_fd s fd m).bind (fun t => fake_fd t fd m) = fake_fd s fd m := by
  rw [sel_fake_accumulate, Nat.or_self]

theorem sel_peak_ge (ops : List Op) (s : State) : s.npolls ≤ peak ops s := by
  cases ops with
  | nil => exact le_refl _
  | cons op ops =>
    unfold peak
    cases step s op with
    | none => exact le_refl _
    | some s1 => exact le_max_left _ _

theorem sel_step_rpolls (s s2 : State) (op : Op) (hw : WF s) (h : step s op = some s2) :
    s2.rpolls = max s.rpolls s2.npolls := by
  have hw2 := sel_step_wf s s2 op hw h
  cases op with
  | add fd cb aux =>
    cases e : find_fd s fd with
    | some n => simp [step, add_fd, e] at h
    | none =>
      obtain ⟨s3, e3, _, n3, r3, _⟩ := sel_add_spec s hw fd cb aux e
      have : s2 = s3 := by
        have h' : add_fd s fd cb aux = some s2 := h
        rw [e3] at h'; exact (Option.some.inj h').symm
      subst this
      rw [r3, n3]
  | del fd =>
    cases e : find_fd s fd with
    | none => simp [step, del_fd, e] at h
    | some n =>
      obtain ⟨s3, e3, _, n3, r3, _⟩ := sel_del_spec s hw fd n e
      have : s2 = s3 := by
        have h' : del_fd s fd = some s2 := h
        rw [e3] at h'; exact (Option.some.inj h').symm
      subst this
      rw [r3]
      have := hw.1
      omega
  | conf fd a o =>
    have k := sel_conf_keeps s s2 fd a o h
    rw [k.2.1, k.1]; have := hw.1; omega
  | fake fd e =>
    have k := sel_fake_keeps s s2 fd e h
    rw [k.2.1, k.1]; have := hw.1; omega

/-- After a run from a well-formed state, `rpolls` is the larger of its former value
and of the largest entry count of the run. -/
theorem sel_run_peak (ops : List Op) (s s2 : State) (hw : WF s) (h : run_ops ops s = some s2) :
    s2.rpolls = max s.rpolls (peak ops s) := by
  induction ops generalizing s with
  | nil =>
    simp only [run_ops, Option.some.injEq] at h
    subst h
    have := hw.1
    simp only [peak]; omega
  | cons op ops ih =>
    unfold run_ops at h
    unfold peak
    cases e : step s op with
    | none => simp [e] at h
    | some s1 =>
      simp only [e] at h ⊢
      have hw1 := sel_step_wf s s1 op hw e
      rw [ih s1 hw1 h, sel_step_rpolls s s1 op hw e]
      have := sel_peak_ge ops s1
      have := hw.1
      omega

theorem sel_add_grow (s s2 : State) (hw : WF s) (fd : Int) (cb aux : Nat)
    (h : add_fd s fd cb aux = some s2) :
    WF s2 ∧ s2.npolls = s.npolls + 1 ∧
    (s.rpolls < s.npolls + 1 → s2.rpolls = s.npolls + 1 ∧
      s2.fdparms.length = s.fdparms.length + 1) ∧
    (¬ s.rpolls < s.npolls + 1 → s2.rpolls = s.rpolls ∧
      s2.fdparms.length = s.fdparms.length) ∧
    s.npolls < s2.fdparms.length := by
  cases e : find_fd s fd with
  | some n => simp [add_fd, e] at h
  | none =>
    obtain ⟨s3, e3, w3, n3, r3, _⟩ := sel_add_spec s hw fd cb aux e
    have : s2 = s3 := by rw [e3] at h; exact (Option.some.inj h).symm
    subst this
    obtain ⟨h1, h3⟩ := hw
    obtain ⟨g1, g3⟩ := w3
    refine ⟨⟨g1, g3⟩, n3, fun c => ?_, fun c => ?_, by omega⟩
    · have : s2.rpolls = s.npolls + 1 := by rw [r3]; omega
      exact ⟨this, by omega⟩
    · have : s2.rpolls = s.rpolls := by rw [r3]; omega
      exact ⟨this, by omega⟩

theorem sel_del_then_add (s s1 s2 : State) (hw : WF s) (fd fd2 : Int) (cb aux : Nat)
    (h1 : del_fd s fd = some s1) (h2 : add_fd s1 fd2 cb aux = some s2) :
    s1.rpolls = s.rpolls ∧ s1.fdparms.length = s.fdparms.length ∧ s2.rpolls = s.rpolls ∧
    s2.fdparms.length = s.fdparms.length := by
  cases e : find_fd s fd with
  | none => simp [del_fd, e] at h1
  | some n =>
    obtain ⟨s3, e3, w3, n3, r3, _⟩ := sel_del_spec s hw fd n e
    have : s1 = s3 := by rw [e3] at h1; exact (Option.some.inj h1).symm
    subst this
    obtain ⟨_, _, _, g, _⟩ := sel_add_grow s1 s2 w3 fd2 cb aux h2
    obtain ⟨a1, a3⟩ := hw
    obtain ⟨b1, b3⟩ := w3
    have := g (by omega)
    exact ⟨r3, by omega, by omega, by omega⟩

theorem sel_main_empty {W : Type} (B : PollBits) (select : SelectCall W) (code : Code W) (k : Nat)
    (s : State) (w : W) (h : s.npolls = 0) :
    main_loop B select code k s w = .returned ⟨[], s, w⟩ := by
  cases k <;> simp [main_loop, h]

theorem sel_main_live {W : Type} (B : PollBits) (select : SelectCall W) (code : Code W) (k : Nat)
    (s : State) (w : W) (h : s.npolls ≠ 0) :
    main_loop B select code 0 s w = .unfinished ∧
    main_loop B select code (k + 1) s w =
      match event_wait B select code s w with
      | none => .aborted
      | some r =>
        match main_loop B select code k r.s r.w with
        | .returned x => .returned { x with sweeps := r.calls :: x.sweeps }
        | .aborted => .aborted
        | .unfinished => .unfinished := by
  constructor
  · simp [main_loop, h]
  · rw [main_loop, if_pos h]

theorem sel_main_returned {W : Type} (B : PollBits) (select : SelectCall W) (code : Code W) (k : Nat)
    (s : State) (w : W) (x : Run W) (h : main_loop B select code k s w = .returned x) :
    x.s.npolls = 0 ∧
    (s.npolls ≠ 0 → ∃ r rest, event_wait B select code s w = some r ∧ x.sweeps = r.calls :: rest) := by
  induction k generalizing s w x with
  | zero =>
    by_cases c : s.npolls = 0
    · rw [sel_main_empty B select code 0 s w c] at h
      cases h
      exact ⟨c, fun c2 => absurd c c2⟩
    · rw [(sel_main_live B select code 0 s w c).1] at h
      cases h
  | succ k ih =>
    by_cases c : s.npolls = 0
    · rw [sel_main_empty B select code _ s w c] at h
      cases h
      exact ⟨c, fun c2 => absurd c c2⟩
    · rw [(sel_main_live B select code k s w c).2] at h
      cases e : event_wait B select code s w with
      | none => simp [e] at h
      | some r =>
        simp only [e] at h
        cases e2 : main_loop B select code k r.s r.w with
        | aborted => simp [e2] at h
        | unfinished => simp [e2] at h
        | returned y =>
          simp only [e2, Ran.returned.injEq] at h
          subst h
          exact ⟨(ih r.s r.w y e2).1, fun _ => ⟨r, y.sweeps, rfl, rfl⟩⟩

/-- The operations of every call of a sweep are operations of the callbacks. -/
theorem sel_sweep_ops {W : Type} (B : PollBits) (code : Code W) (rd : Ready)
    (P : List Op → Prop)
    (hP : ∀ cb m aux w, P (code cb m aux w).1) (k n : Nat) (s : State) (w : W)
    (r : Result W) (h : sweep B code rd k n s w = some r) : ∀ c ∈ r.calls, P c.ops := by
  induction k generalizing n s w r with
  | zero =>
    simp only [sweep, Option.some.injEq] at h
    subst h
    intro c hc; cases hc
  | succ k ih =>
    rcases sel_sweep_cases B code rd k n s w r h with ⟨_, rfl⟩ | ⟨c1, _, h2⟩ |
      ⟨c1, c2, s2, e, ⟨c4, rfl⟩ | ⟨c4, res, e2, rfl⟩⟩
    · intro c hc; cases hc
    · exact ih (n + 1) s w r h2
    · intro c hc
      simp only [List.mem_singleton] at hc
      subst hc
      exact hP _ _ _ _
    · intro c hc
      simp only [List.mem_cons] at hc
      rcases hc with rfl | hc
      · exact hP _ _ _ _
      · exact ih (n + 1) s2 _ res e2 c hc

/-- The first ready registration is called, first, whatever the flag. -/
theorem sel_sweep_first {W : Type} (B : PollBits) (code : Code W) (rd : Ready) (k n : Nat)
    (s : State) (w : W)
    (r : Result W) (h : sweep B code rd k n s w = some r) (i : Nat) (h1 : n ≤ i)
    (h2 : i < s.npolls) (hk : s.npolls ≤ n + k) (he : eff B rd s i ≠ 0)
    (hz : ∀ j, n ≤ j → j < i → eff B rd s j = 0) :
    ∃ c rest, r.calls = c :: rest ∧ c.n = i ∧ c.seen = s ∧ c.cb = (parm s i).cb ∧
      c.aux = (parm s i).aux ∧ c.what = eff B rd s i := by
  induction k generalizing n with
  | zero => omega
  | succ k ih =>
    rcases sel_sweep_cases B code rd k n s w r h with ⟨c1, rfl⟩ | ⟨c1, c2, h3⟩ |
      ⟨c1, c2, s2, e, ⟨c4, rfl⟩ | ⟨c4, res, e2, rfl⟩⟩
    · omega
    · rcases Nat.eq_or_lt_of_le h1 with rfl | lt
      · exact absurd c2 he
      · exact ih (n + 1) h3 lt (by omega) (fun j hj1 hj2 => hz j (by omega) hj2)
    · rcases Nat.eq_or_lt_of_le h1 with rfl | lt
      · exact ⟨_, _, rfl, rfl, rfl, rfl, rfl, rfl⟩
      · exact absurd (hz n (le_refl _) lt) c2
    · rcases Nat.eq_or_lt_of_le h1 with rfl | lt
      · exact ⟨_, _, rfl, rfl, rfl, rfl, rfl, rfl⟩
      · exact absurd (hz n (le_refl _) lt) c2

theorem sel_solo_clear (s : State) (fd : Int) (cb aux : Nat) (h : Solo s fd cb aux) :
    Solo (clear s 0) fd cb aux := by
  obtain ⟨hw, h1, hfd, hcb, haux, hfk⟩ := h
  have kc := sel_clear_keeps s 0
  have hl2 : 0 < s.fdparms.length := by have := hw.1; have := hw.2; omega
  refine ⟨sel_keeps_wf kc hw, by rw [kc.1, h1], ?_, ?_, ?_, ?_⟩
  · rw [(kc.2.2.2.2 0).1, hfd]
  · rw [(kc.2.2.2.2 0).2.1, hcb]
  · rw [(kc.2.2.2.2 0).2.2.1, haux]
  · simp only [clear, parm, getD_set, hl2, and_self, if_true]

theorem sel_solo_step (B : PollBits) (select : SelectCall Nat) (fd : Int) (cb aux k : Nat)
    (hp : ∀ n r w e t cnt, 0 ≤ (select n r w e t cnt).1.1 ∧
      FD_ISSET fd (select n r w e t cnt).1.2.rfds = false ∧
      FD_ISSET fd (select n r w e t cnt).1.2.wfds = true ∧
      FD_ISSET fd (select n r w e t cnt).1.2.efds = false ∧ (select n r w e t cnt).2 = cnt)
    (s : State) (hs : Solo s fd cb aux) (cnt : Nat) :
    ∃ r, event_wait B select (countdown fd k) s cnt = some r ∧
      r.calls.map Call.sig = [(0, cb, B.POLLOUT, aux)] ∧ r.w = cnt + 1 ∧
      (cnt + 1 = k → r.s.npolls = 0) ∧ (cnt + 1 ≠ k → Solo r.s fd cb aux) := by
  obtain ⟨q1, q2, q3, q4, q5⟩ := hp ((prep B s).m + 1) (prep B s).rfds (prep B s).wfds
    (prep B s).efds (timeout B s) cnt
  have c1 := sel_solo_clear s fd cb aux hs
  obtain ⟨hw, h1, hfd, hcb, haux, hfk⟩ := hs
  have hne : B.POLLOUT ≠ 0 := by unfold PollBits.POLLOUT; positivity
  have e0 : ∀ rd : Ready, FD_ISSET fd rd.rfds = false → FD_ISSET fd rd.wfds = true →
      FD_ISSET fd rd.efds = false → eff B rd s 0 = B.POLLOUT := by
    intro rd r1 r2 r3
    unfold eff
    rw [sel_mask_eq, hfk, hfd]
    simp [reported, r1, r2, r3]
  have e1 := e0 _ q2 q3 q4
  rw [sel_event_wait_eq, if_neg (by omega),
    show ∀ rd, sweep B (countdown fd k) rd s.npolls = sweep B (countdown fd k) rd 1 from
      fun rd => by rw [h1],
    sel_sweep_succ, if_pos (by rw [h1]; omega), if_pos (by rw [e1]; exact hne), q5]
  have hact : ∀ rd, act B (countdown fd k) rd s 0 cnt
      = (if cnt + 1 = k then [Op.del fd] else [], cnt + 1) := fun _ => rfl
  have hsig : ∀ s2, (call B (countdown fd k) (select ((prep B s).m + 1) (prep B s).rfds
      (prep B s).wfds (prep B s).efds (timeout B s) cnt).1.2 s 0 cnt s2).sig =
      (0, cb, B.POLLOUT, aux) := by
    intro s2
    simp only [Call.sig, call, e1, hcb, haux]
  rw [hact]
  by_cases hk : cnt + 1 = k
  · simp only [hk, if_true, run_ops, step]
    have hf : find_fd (clear s 0) fd = some 0 := by
      unfold find_fd
      rw [c1.2.1]
      simp only [find_fd_loop]
      rw [if_pos c1.2.2.1]
    rw [sel_del_eq _ fd 0 hf]
    simp only [if_true]
    refine ⟨_, rfl, ?_, rfl, fun _ => ?_, fun c => absurd rfl c⟩
    · simp only [List.map_cons, List.map_nil, hsig]
    · show (clear s 0).npolls - 1 = 0
      rw [c1.2.1]
  · simp only [hk, if_false, run_ops]
    by_cases hc : (clear s 0).changed = true
    · rw [if_pos hc]
      refine ⟨_, rfl, ?_, rfl, fun c => c.elim, fun _ => ?_⟩
      · simp only [List.map_cons, List.map_nil, hsig]
      · exact c1
    · rw [if_neg hc]
      simp only [sweep]
      refine ⟨_, rfl, ?_, rfl, fun c => c.elim, fun _ => ?_⟩
      · simp only [List.map_cons, List.map_nil, hsig]
      · exact c1

theorem sel_solo_run (B : PollBits) (select : SelectCall Nat) (fd : Int) (cb aux k : Nat)
    (hp : ∀ n r w e t cnt, 0 ≤ (select n r w e t cnt).1.1 ∧
      FD_ISSET fd (select n r w e t cnt).1.2.rfds = false ∧
      FD_ISSET fd (select n r w e t cnt).1.2.wfds = true ∧
      FD_ISSET fd (select n r w e t cnt).1.2.efds = false ∧ (select n r w e t cnt).2 = cnt)
    (d : Nat) (s : State) (hs : Solo s fd cb aux) (cnt : Nat) (hd : cnt + d = k) (hd0 : 0 < d)
    (fuel : Nat) (hf : d ≤ fuel) :
    ∃ x, main_loop B select (countdown fd k) fuel s cnt = .returned x ∧
      x.sweeps.map (List.map Call.sig) = List.replicate d [(0, cb, B.POLLOUT, aux)] ∧
      x.s.npolls = 0 ∧ x.w = k := by
  induction d generalizing s cnt fuel with
  | zero => omega
  | succ d ih =>
    obtain ⟨fuel, rfl⟩ : ∃ f, fuel = f + 1 := ⟨fuel - 1, by omega⟩
    obtain ⟨r, e, g1, g2, g3, g4⟩ := sel_solo_step B select fd cb aux k hp s hs cnt
    have hl : s.npolls ≠ 0 := by rw [hs.2.1]; omega
    rw [(sel_main_live B select (countdown fd k) fuel s cnt hl).2, e]
    by_cases hz : d = 0
    · subst hz
      have e2 := sel_main_empty B select (countdown fd k) fuel r.s r.w (g3 (by omega))
      simp only [e2]
      refine ⟨_, rfl, ?_, g3 (by omega), ?_⟩
      · simp only [List.map_cons, List.map_nil, g1, List.replicate]
      · show r.w = k
        omega
    · obtain ⟨x, e2, y1, y2, y3⟩ := ih r.s (g4 (by omega)) r.w (by omega) (by omega) fuel (by omega)
      simp only [e2]
      refine ⟨_, rfl, ?_, y2, y3⟩
      simp only [List.map_cons, g1, y1, List.replicate]

theorem sel_del_cap (s s1 : State) (hw : WF s) (fd : Int) (h1 : del_fd s fd = some s1) :
    WF s1 ∧ s1.npolls + 1 = s.npolls ∧ s1.rpolls = s.rpolls ∧
    s1.fdparms.length = s.fdparms.length := by
  cases e : find_fd s fd with
  | none => simp [del_fd, e] at h1
  | some n =>
    obtain ⟨s3, e3, w3, n3, r3, _⟩ := sel_del_spec s hw fd n e
    have : s1 = s3 := by rw [e3] at h1; exact (Option.some.inj h1).symm
    subst this
    obtain ⟨_, a3⟩ := hw
    obtain ⟨_, b3⟩ := w3
    exact ⟨⟨by assumption, b3⟩, n3, r3, by omega⟩

theorem sel_init_peak (ops : List Op) (s : State) (h : run_ops ops init = some s) :
    WF s ∧ s.rpolls = peak ops init := by
  refine ⟨(sel_run_inv ops _ s sel_init_inv.1 sel_init_inv.2 h).1, ?_⟩
  rw [sel_run_peak ops init s sel_init_inv.1 h]
  exact Nat.max_eq_right (Nat.zero_le _)

end Select

/-! ## The function `map_name` -/

theorem drop_cons_read {buf : List Char} {p : Nat} {x : Char} {r : List Char}
    (h : buf.drop p = x :: r) : buf[p]? = some x ∧ buf.drop (p + 1) = r := by
  constructor
  · have := List.getElem?_drop buf p 0
    rw [h] at this
    simpa using this.symm
  · rw [← List.drop_drop, h]
    rfl

theorem drop_append_read {buf : List Char} {p : Nat} {a r : List Char}
    (h : buf.drop p = a ++ r) : buf.drop (p + a.length) = r := by
  rw [← List.drop_drop, h, List.drop_left]

theorem span_spec (q : Char → Bool) (l : List Char) :
    ∃ a b, l = a ++ b ∧ (∀ x ∈ a, q x = true) ∧ (b = [] ∨ ∃ c t, b = c :: t ∧ q c = false) := by
  induction l with
  | nil => exact ⟨[], [], rfl, (fun x hx => by cases hx), Or.inl rfl⟩
  | cons c l ih =>
    by_cases hc : q c = true
    · obtain ⟨a, b, e, h1, h2⟩ := ih
      refine ⟨c :: a, b, by rw [e]; rfl, ?_, h2⟩
      intro x hx
      rcases List.mem_cons.1 hx with rfl | hx
      · exact hc
      · exact h1 x hx
    · exact ⟨[], c :: l, rfl, (fun x hx => by cases hx), Or.inr ⟨c, l, rfl, by simpa using hc⟩⟩

theorem takeWhile_stop (q : Char → Bool) (a : List Char) (c : Char) (t : List Char)
    (h1 : ∀ x ∈ a, q x = true) (h2 : q c = false) : (a ++ c :: t).takeWhile q = a := by
  induction a with
  | nil => simp [List.takeWhile_cons, h2]
  | cons x a ih =>
    have hx : q x = true := h1 x (List.mem_cons_self _ _)
    rw [List.cons_append, List.takeWhile_cons, if_pos hx,
      ih (fun y hy => h1 y (List.mem_cons_of_mem _ hy))]

theorem skip_space_spec (sp : Char → Bool) (buf : List Char) (spaces : List Char) :
    ∀ (c : Char) (t : List Char) (p k : Nat), buf.drop p = spaces ++ c :: t →
      (∀ x ∈ spaces, sp x = true) → sp c = false → spaces.length < k →
      skip_space sp buf k p = some (p + spaces.length) := by
  induction spaces with
  | nil =>
    intro c t p k h _ hc hk
    obtain ⟨k, rfl⟩ : ∃ j, k = j + 1 := ⟨k - 1, by simp at hk; omega⟩
    unfold skip_space
    rw [(drop_cons_read h).1]
    simp [hc]
  | cons x spaces ih =>
    intro c t p k h hs hc hk
    obtain ⟨k, rfl⟩ : ∃ j, k = j + 1 := ⟨k - 1, by simp at hk; omega⟩
    have hr := drop_cons_read (show buf.drop p = x :: (spaces ++ c :: t) from h)
    unfold skip_space
    rw [hr.1]
    simp only [hs x (List.mem_cons_self _ _), if_true]
    rw [ih c t (p + 1) k hr.2 (fun y hy => hs y (List.mem_cons_of_mem _ hy)) hc
      (by simp at hk; omega)]
    simp only [List.length_cons]
    congr 1
    omega

theorem skip_word_spec (sp : Char → Bool) (buf : List Char) (tok : List Char) :
    ∀ (c : Char) (t : List Char) (p k : Nat), buf.drop p = tok ++ c :: t →
      (∀ x ∈ tok, x ≠ NUL ∧ sp x = false) → (c = NUL ∨ sp c = true) → tok.length < k →
      skip_word sp buf k p = some (p + tok.length) := by
  induction tok with
  | nil =>
    intro c t p k h _ hc hk
    obtain ⟨k, rfl⟩ : ∃ j, k = j + 1 := ⟨k - 1, by simp at hk; omega⟩
    unfold skip_word
    rw [(drop_cons_read h).1]
    have : ¬ (c ≠ NUL ∧ sp c = false) := by
      rintro ⟨c1, c2⟩
      rcases hc with hc | hc
      · exact c1 hc
      · rw [hc] at c2; cases c2
    simp [this]
  | cons x tok ih =>
    intro c t p k h hs hc hk
    obtain ⟨k, rfl⟩ : ∃ j, k = j + 1 := ⟨k - 1, by simp at hk; omega⟩
    have hr := drop_cons_read (show buf.drop p = x :: (tok ++ c :: t) from h)
    unfold skip_word
    rw [hr.1]
    simp only [hs x (List.mem_cons_self _ _), ne_eq, not_false_eq_true, and_self, if_true]
    rw [ih c t (p + 1) k hr.2 (fun y hy => hs y (List.mem_cons_of_mem _ hy)) hc
      (by simp at hk; omega)]
    simp only [List.length_cons]
    congr 1
    omega

theorem runs_from_spaces (sp : Char → Bool) (spaces s : List Char)
    (h : ∀ x ∈ spaces, sp x = true) : runs_from sp (spaces ++ s) [] = runs_from sp s [] := by
  induction spaces with
  | nil => rfl
  | cons x spaces ih =>
    rw [List.cons_append, runs_from, if_pos (h x (List.mem_cons_self _ _)), if_pos rfl]
    exact ih (fun y hy => h y (List.mem_cons_of_mem _ hy))

theorem runs_from_word (sp : Char → Bool) (tok s : List Char) :
    ∀ cur, (∀ x ∈ tok, sp x = false) →
      runs_from sp (tok ++ s) cur = runs_from sp s (cur ++ tok) := by
  induction tok with
  | nil => intro cur _; simp
  | cons x tok ih =>
    intro cur h
    have hx : sp x = false := h x (List.mem_cons_self _ _)
    rw [List.cons_append, runs_from, if_neg (by simp [hx]),
      ih (cur ++ [x]) (fun y hy => h y (List.mem_cons_of_mem _ hy)), List.append_assoc]
    rfl

/-- The runs of a string made of whitespace, a word, and possibly a whitespace
character and more. -/
theorem runs_split (sp : Char → Bool) (spaces tok : List Char)
    (h1 : ∀ x ∈ spaces, sp x = true) (h2 : ∀ x ∈ tok, sp x = false) (h3 : tok ≠ []) :
    runs sp spaces = [] ∧ runs sp (spaces ++ tok) = [tok] ∧
    ∀ c rest, sp c = true → runs sp (spaces ++ tok ++ c :: rest) = tok :: runs sp rest := by
  refine ⟨?_, ?_, fun c rest hc => ?_⟩
  · have := runs_from_spaces sp spaces [] h1
    rw [List.append_nil] at this
    unfold runs
    rw [this]; rfl
  · unfold runs
    rw [runs_from_spaces sp spaces tok h1]
    have := runs_from_word sp tok [] [] h2
    rw [List.append_nil, List.nil_append] at this
    rw [this, runs_from, if_neg h3]
  · unfold runs
    rw [List.append_assoc, runs_from_spaces sp spaces _ h1, runs_from_word sp tok _ [] h2,
      List.nil_append, runs_from, if_pos hc, if_neg h3]

theorem drop_length_lt {buf : List Char} {p : Nat} {a : List Char} {c : Char} {t : List Char}
    (h : buf.drop p = a ++ c :: t) : p + a.length < buf.length := by
  have := congrArg List.length h
  simp only [List.length_drop, List.length_append, List.length_cons] at this
  omega

/-- One call of `next_arg` on a cell that points to `rest` followed by the NUL, where `rest`
has neither a NUL nor a double quote. -/
theorem next_arg_step (sp : Char → Bool) (hnul : sp NUL = false) (buf : List Char) (p : Nat)
    (rest : List Char) (hb : buf.drop p = rest ++ [NUL])
    (hr : ∀ x ∈ rest, x ≠ NUL ∧ x ≠ QUOTE) :
    ((∀ x ∈ rest, sp x = true) ∧
      next_arg sp buf (some (some p)) = some ⟨none, some none, buf⟩) ∨
    (∃ spaces tok, rest = spaces ++ tok ∧ (∀ x ∈ spaces, sp x = true) ∧
      (∀ x ∈ tok, sp x = false) ∧ tok ≠ [] ∧
      next_arg sp buf (some (some p)) = some ⟨some (p + spaces.length), some none, buf⟩ ∧
      cstr buf (p + spaces.length) = tok) ∨
    (∃ spaces tok c rest2, rest = spaces ++ tok ++ c :: rest2 ∧ (∀ x ∈ spaces, sp x = true) ∧
      (∀ x ∈ tok, sp x = false) ∧ tok ≠ [] ∧ sp c = true ∧
      next_arg sp buf (some (some p)) =
        some ⟨some (p + spaces.length),
          some (if rest2 = [] then none else some (p + spaces.length + tok.length + 1)),
          buf.set (p + spaces.length + tok.length) NUL⟩ ∧
      cstr (buf.set (p + spaces.length + tok.length) NUL) (p + spaces.length) = tok ∧
      (buf.set (p + spaces.length + tok.length) NUL).drop
        (p + spaces.length + tok.length + 1) = rest2 ++ [NUL]) := by
  obtain ⟨spaces, b, e1, hs, hb1⟩ := span_spec sp rest
  rcases hb1 with rfl | ⟨c0, t0, rfl, hc0⟩
  · -- only whitespace
    left
    rw [List.append_nil] at e1
    subst e1
    have h1 : buf.drop p = rest ++ NUL :: [] := hb
    have hk := drop_length_lt h1
    have hsk := skip_space_spec sp buf rest NUL [] p (buf.length + 1) h1 hs hnul (by omega)
    have hrd := (drop_cons_read (drop_append_read h1)).1
    refine ⟨hs, ?_⟩
    simp only [next_arg, hsk, hrd, if_true]
  · obtain ⟨tok, b2, e2, ht, hb2⟩ := span_spec (fun x => !sp x) (c0 :: t0)
    have ht2 : ∀ x ∈ tok, sp x = false := fun x hx => by simpa using ht x hx
    have htn : tok ≠ [] := by
      rintro rfl
      rcases hb2 with rfl | ⟨c, t, rfl, hc⟩
      · simp at e2
      · simp only [List.nil_append, List.cons.injEq] at e2
        rw [← e2.1, hc0] at hc
        cases hc
    have hmem : ∀ x ∈ tok, x ∈ rest := by
      intro x hx
      rw [e1, e2]
      simp [hx]
    have ht3 : ∀ x ∈ tok, x ≠ NUL ∧ sp x = false := fun x hx => ⟨(hr x (hmem x hx)).1, ht2 x hx⟩
    have hc0r : c0 ∈ rest := by rw [e1]; simp
    have h1 : buf.drop p = spaces ++ c0 :: (t0 ++ [NUL]) := by
      rw [hb, e1]; simp
    have hk := drop_length_lt h1
    have hsk := skip_space_spec sp buf spaces c0 (t0 ++ [NUL]) p (buf.length + 1) h1 hs hc0
      (by omega)
    have h2 := drop_append_read h1
    have hrd := (drop_cons_read h2).1
    have hq : ¬ c0 = QUOTE := (hr c0 hc0r).2
    have hn : ¬ c0 = NUL := (hr c0 hc0r).1
    rcases hb2 with rfl | ⟨c, rest2, rfl, hc⟩
    · -- the word ends the string
      right; left
      rw [List.append_nil] at e2
      have h3 : buf.drop (p + spaces.length) = tok ++ NUL :: [] := by
        rw [h2, ← List.cons_append, e2]
      have hk3 := drop_length_lt h3
      have hw := skip_word_spec sp buf tok NUL [] (p + spaces.length) (buf.length + 1) h3 ht3
        (Or.inl rfl) (by omega)
      have hrd2 := (drop_cons_read (drop_append_read h3)).1
      refine ⟨spaces, tok, by rw [e1, e2], hs, ht2, htn, ?_, ?_⟩
      · simp only [next_arg, hsk, hrd, hn, hq, if_false, hw, Option.map_some', hrd2, ne_eq,
          not_true_eq_false, if_true]
      · unfold cstr
        rw [h3]
        exact takeWhile_stop _ tok NUL [] (fun x hx => by simpa using (ht3 x hx).1) (by simp)
    · -- a whitespace character follows the word
      right; right
      have hc2 : sp c = true := by simpa using hc
      have hcr : c ∈ rest := by rw [e1, e2]; simp
      have hcn : ¬ c = NUL := (hr c hcr).1
      have h3 : buf.drop (p + spaces.length) = tok ++ c :: (rest2 ++ [NUL]) := by
        rw [h2, ← List.cons_append, e2]; simp
      have hk3 := drop_length_lt h3
      have hw := skip_word_spec sp buf tok c (rest2 ++ [NUL]) (p + spaces.length)
        (buf.length + 1) h3 ht3 (Or.inr hc2) (by omega)
      have hrd2 := (drop_cons_read (drop_append_read h3)).1
      have hset : (buf.set (p + spaces.length + tok.length) NUL).drop (p + spaces.length) =
          tok ++ NUL :: (rest2 ++ [NUL]) := by
        rw [← List.set_drop, h3, List.set_append, if_neg (by omega), Nat.sub_self,
          List.set_cons_zero]
      have hd2 : (buf.set (p + spaces.length + tok.length) NUL).drop
          (p + spaces.length + tok.length + 1) = rest2 ++ [NUL] :=
        (drop_cons_read (drop_append_read hset)).2
      have hrd3 : (buf.set (p + spaces.length + tok.length) NUL)[p + spaces.length + tok.length + 1]?
          = (rest2 ++ [NUL])[0]? := by
        have := List.getElem?_drop (buf.set (p + spaces.length + tok.length) NUL)
          (p + spaces.length + tok.length + 1) 0
        rw [hd2] at this
        exact this.symm
      refine ⟨spaces, tok, c, rest2, by rw [e1, e2]; simp, hs, ht2, htn, hc2, ?_, ?_, hd2⟩
      · simp only [next_arg, hsk, hrd, hn, hq, if_false, hw, Option.map_some', hrd2, ne_eq,
          hcn, not_false_eq_true, if_true, hrd3]
        cases rest2 with
        | nil => simp
        | cons y ys =>
          have hy : y ∈ rest := by rw [e1, e2]; simp
          simp [(hr y hy).1]
      · unfold cstr
        rw [hset]
        exact takeWhile_stop _ tok NUL _ (fun x hx => by simpa using (ht3 x hx).1) (by simp)

theorem next_args_null (sp : Char → Bool) (k : Nat) (buf : List Char) :
    next_args sp (k + 1) buf none = some ([], none) := rfl

/-- Repeated calls of `next_arg` return the maximal runs of non-whitespace characters. -/
theorem next_args_spec (sp : Char → Bool) (hnul : sp NUL = false) (n : Nat) :
    ∀ (buf : List Char) (p : Nat) (rest : List Char) (k : Nat), rest.length ≤ n → n < k →
      buf.drop p = rest ++ [NUL] → (∀ x ∈ rest, x ≠ NUL ∧ x ≠ QUOTE) →
      next_args sp k buf (some p) = some (runs sp rest, none) := by
  induction n using Nat.strong_induction_on with
  | _ n ih =>
    intro buf p rest k hl hk hb hr
    obtain ⟨k, rfl⟩ : ∃ j, k = j + 1 := ⟨k - 1, by omega⟩
    rcases next_arg_step sp hnul buf p rest hb hr with ⟨hs, e⟩ |
      ⟨spaces, tok, rfl, hs, ht, htn, e, hc⟩ |
      ⟨spaces, tok, c, rest2, rfl, hs, ht, htn, hc2, e, hc, hd⟩
    · have hrun : runs sp rest = [] := by
        have := runs_from_spaces sp rest [] hs
        rw [List.append_nil] at this
        unfold runs
        rw [this]; rfl
      rw [next_args]
      simp only [e, hrun, Option.getD]
    · have hpos : 0 < tok.length := List.length_pos.2 htn
      simp only [List.length_append] at hl
      obtain ⟨k, rfl⟩ : ∃ j, k = j + 1 := ⟨k - 1, by omega⟩
      rw [next_args]
      simp only [e, Option.getD]
      rw [show next_args sp (k + 1) buf none = some ([], none) from rfl, hc,
        (runs_split sp spaces tok hs ht htn).2.1]
      rfl
    · have hpos : 0 < tok.length := List.length_pos.2 htn
      simp only [List.length_append, List.length_cons] at hl
      obtain ⟨k, rfl⟩ : ∃ j, k = j + 1 := ⟨k - 1, by omega⟩
      rw [next_args]
      simp only [e, Option.getD]
      rw [hc, (runs_split sp spaces tok hs ht htn).2.2 c rest2 hc2]
      by_cases h2 : rest2 = []
      · subst h2
        rw [if_pos rfl]
        rw [show next_args sp (k + 1) (buf.set (p + spaces.length + tok.length) NUL) none =
          some ([], none) from rfl]
        rfl
      · rw [if_neg h2]
        have hmem : ∀ x ∈ rest2, x ≠ NUL ∧ x ≠ QUOTE := fun x hx => hr x (by simp [hx])
        rw [ih rest2.length (by omega) _ _ rest2 (k + 1) (le_refl _) (by omega) hd hmem]
        rfl

theorem runs_from_words (sp : Char → Bool) (s : List Char) :
    ∀ cur, (∀ x ∈ cur, sp x = false) →
      ∀ t ∈ runs_from sp s cur, t ≠ [] ∧ ∀ x ∈ t, sp x = false := by
  induction s with
  | nil =>
    intro cur hcur t ht
    unfold runs_from at ht
    by_cases hc : cur = []
    · rw [if_pos hc] at ht; cases ht
    · rw [if_neg hc] at ht
      simp only [List.mem_singleton] at ht
      subst ht
      exact ⟨hc, hcur⟩
  | cons c s ih =>
    intro cur hcur t ht
    unfold runs_from at ht
    by_cases hsp : sp c = true
    · rw [if_pos hsp] at ht
      by_cases hc : cur = []
      · rw [if_pos hc] at ht
        exact ih [] (fun x hx => by cases hx) t ht
      · rw [if_neg hc] at ht
        rcases List.mem_cons.1 ht with rfl | ht
        · exact ⟨hc, hcur⟩
        · exact ih [] (fun x hx => by cases hx) t ht
    · rw [if_neg hsp] at ht
      refine ih (cur ++ [c]) (fun x hx => ?_) t ht
      rcases List.mem_append.1 hx with hx | hx
      · exact hcur x hx
      · simp only [List.mem_singleton] at hx
        subst hx
        simpa using hsp

/-- The runs, put end to end, are the non-whitespace characters of the string, in order. -/
theorem runs_from_join (sp : Char → Bool) (s : List Char) :
    ∀ cur, (runs_from sp s cur).flatten = cur ++ s.filter (fun x => !sp x) := by
  induction s with
  | nil =>
    intro cur
    unfold runs_from
    by_cases hc : cur = []
    · rw [if_pos hc, hc]; rfl
    · rw [if_neg hc]; simp
  | cons c s ih =>
    intro cur
    unfold runs_from
    by_cases hsp : sp c = true
    · rw [if_pos hsp]
      by_cases hc : cur = []
      · rw [if_pos hc, ih, hc]
        simp [List.filter_cons, hsp]
      · rw [if_neg hc, List.flatten_cons, ih]
        simp [List.filter_cons, hsp]
    · rw [if_neg hsp, ih]
      simp [List.filter_cons, hsp]

/-! ## The claims -/

/-- C1: within one `event_wait`, under both configurations, for every table, every
answer of the wait call and every behaviour of the callbacks: when a callback `c` of
the sweep performs an `add_fd` or a `del_fd`, no callback is invoked after it
(`post = []`), the state returned is exactly the state `c` left (so everything not yet
visited is as `c` left it, forced masks included) except for the flag, and the flag
is clear. -/
theorem C1_mutation_ends_sweep :
    (∀ (W : Type) (B : PollBits) (poll : Poll.PollCall W) (code : Code W) (s : Poll.State) (w : W)
        (r : Poll.Result W), Poll.event_wait B poll code s w = some r →
      ∀ (pre post : List Poll.Call) (c : Poll.Call), r.calls = pre ++ c :: post →
        c.ops.any Op.mutates = true →
        Poll.run_ops c.ops c.before = some c.after ∧ post = [] ∧
          r.s = { c.after with changed := false } ∧ r.s.changed = false) ∧
    (∀ (W : Type) (B : PollBits) (select : Select.SelectCall W) (code : Code W) (s : Select.State)
        (w : W) (r : Select.Result W), Select.event_wait B select code s w = some r →
      ∀ (pre post : List Select.Call) (c : Select.Call), r.calls = pre ++ c :: post →
        c.ops.any Op.mutates = true →
        Select.run_ops c.ops c.before = some c.after ∧ post = [] ∧
          r.s = { c.after with changed := false } ∧ r.s.changed = false) := by
  constructor
  · intro W B poll code s w r h pre post c hd hm
    obtain ⟨a, b, e⟩ := Poll.poll_mutation_ends_sweep B poll code s w r h pre post c hd hm
    exact ⟨a, b, e, by rw [e]⟩
  · intro W B select code s w r h pre post c hd hm
    obtain ⟨a, b, e⟩ := Select.sel_mutation_ends_sweep B select code s w r h pre post c hd hm
    exact ⟨a, b, e, by rw [e]⟩

/-- C1 on the table of descriptors 3 and 5, both writable, where the callback of
descriptor 3 removes descriptor 5 and registers descriptor 7: it is the only call. -/
theorem C1_witness :
    (Poll.event_wait PollBits.linux (Poll.reports 4) retire Poll.two () = some Poll.retire_sweep ∧
      Poll.retire_sweep.calls = [] ++ Poll.first Poll.retire_sweep :: [] ∧
      (Poll.first Poll.retire_sweep).ops.any Op.mutates = true ∧
      (Poll.run_ops (Poll.first Poll.retire_sweep).ops (Poll.first Poll.retire_sweep).before =
          some (Poll.first Poll.retire_sweep).after ∧ ([] : List Poll.Call) = [] ∧
        Poll.retire_sweep.s = { (Poll.first Poll.retire_sweep).after with changed := false } ∧
        Poll.retire_sweep.s.changed = false)) ∧
    (Select.event_wait PollBits.linux (Select.reports Select.writable) retire Select.two () =
        some Select.retire_sweep ∧
      Select.retire_sweep.calls = [] ++ Select.first Select.retire_sweep :: [] ∧
      (Select.first Select.retire_sweep).ops.any Op.mutates = true ∧
      (Select.run_ops (Select.first Select.retire_sweep).ops
          (Select.first Select.retire_sweep).before =
          some (Select.first Select.retire_sweep).after ∧ ([] : List Select.Call) = [] ∧
        Select.retire_sweep.s = { (Select.first Select.retire_sweep).after with changed := false } ∧
        Select.retire_sweep.s.changed = false)) :=
  ⟨⟨rfl, rfl, rfl, C1_mutation_ends_sweep.1 Unit PollBits.linux (Poll.reports 4) retire Poll.two ()
      Poll.retire_sweep rfl [] [] (Poll.first Poll.retire_sweep) rfl rfl⟩,
    ⟨rfl, rfl, rfl, C1_mutation_ends_sweep.2 Unit PollBits.linux (Select.reports Select.writable)
      retire Select.two () Select.retire_sweep rfl [] [] (Select.first Select.retire_sweep)
      rfl rfl⟩⟩

/-- C2, as stated, fails under `poll`: descriptor 3 is registered alone, the
environment reports POLLHUP (16) for it and the callbacks do nothing; its effective
mask is 16, and its callback is called with 17 (POLLHUP and POLLIN). -/
theorem C2_counterexample :
    Poll.one.changed = false ∧ Poll.effective (fun _ => 16) Poll.one 0 = 16 ∧
    (Poll.event_wait PollBits.linux (Poll.reports 16) quiet Poll.one ()).map
        (fun r => r.calls.map Poll.Call.sig) = some [(0, 10, 17, 100)] ∧
    (Poll.event_wait PollBits.linux (Poll.reports 16) quiet Poll.one ()).map
        (fun r => r.calls.map Poll.Call.sig) ≠
      some [(0, 10, Poll.effective (fun _ => 16) Poll.one 0, 100)] := by
  decide

/-- C2 (amended): when the flag is clear on entry, the callbacks perform no table
operation and the wait call succeeds, `event_wait` returns, having invoked exactly the
registrations whose effective mask (reported bits or forced bits) is non-zero, once
each, in table order, each with its own callback and context.  Under `select` the mask
passed is the effective mask; under `poll` it is the effective mask with POLLIN added
when it has POLLHUP, provided no effective mask has POLLNVAL. -/
theorem C2_ready_called_in_order :
    (∀ (W : Type) (B : PollBits) (poll : Poll.PollCall W) (code : Code W) (s : Poll.State) (w : W),
      Poll.WF s → s.changed = false → (∀ cb m aux v, (code cb m aux v).1 = []) →
      0 ≤ (Poll.wait poll s w).1.1 →
      (∀ i, i < s.npolls → Poll.effective (Poll.wait poll s w).1.2 s i &&& B.POLLNVAL = 0) →
      ∃ r, Poll.event_wait B poll code s w = some r ∧ r.s.changed = false ∧
        r.calls.map Poll.Call.sig =
          ((List.range s.npolls).filter (fun i =>
              decide (Poll.effective (Poll.wait poll s w).1.2 s i ≠ 0))).map
            (fun i => (i, (Poll.parm s i).cb,
              deliver B (Poll.effective (Poll.wait poll s w).1.2 s i), (Poll.parm s i).aux))) ∧
    (∀ (W : Type) (B : PollBits) (select : Select.SelectCall W) (code : Code W) (s : Select.State)
        (w : W),
      s.changed = false → (∀ cb m aux v, (code cb m aux v).1 = []) →
      0 ≤ (Select.wait B select s w).1.1 →
      ∃ r, Select.event_wait B select code s w = some r ∧ r.s.changed = false ∧
        r.calls.map Select.Call.sig =
          ((List.range s.npolls).filter (fun i =>
              decide (Select.effective B (Select.wait B select s w).1.2 s i ≠ 0))).map
            (fun i => (i, (Select.parm s i).cb,
              Select.effective B (Select.wait B select s w).1.2 s i, (Select.parm s i).aux))) := by
  constructor
  · intro W B poll code s w hw hc hno hret hv
    exact Poll.poll_ready_called B poll code hno s w hw hc hret hv
  · intro W B select code s w hc hno hret
    exact Select.sel_ready_called B select code hno s w hc hret

/-- C2 (amended) on the table of descriptors 3 and 5, both writable, with callbacks that
do nothing. -/
theorem C2_witness :
    (∃ r, Poll.event_wait PollBits.linux (Poll.reports 4) quiet Poll.two () = some r ∧
      r.s.changed = false ∧
      r.calls.map Poll.Call.sig =
        ((List.range Poll.two.npolls).filter (fun i =>
            decide (Poll.effective (Poll.wait (Poll.reports 4) Poll.two ()).1.2 Poll.two i ≠ 0))).map
          (fun i => (i, (Poll.parm Poll.two i).cb,
            deliver PollBits.linux
              (Poll.effective (Poll.wait (Poll.reports 4) Poll.two ()).1.2 Poll.two i),
            (Poll.parm Poll.two i).aux))) ∧
    (∃ r, Select.event_wait PollBits.linux (Select.reports Select.writable) quiet Select.two () =
        some r ∧ r.s.changed = false ∧
      r.calls.map Select.Call.sig =
        ((List.range Select.two.npolls).filter (fun i =>
            decide (Select.effective PollBits.linux
              (Select.wait PollBits.linux (Select.reports Select.writable) Select.two ()).1.2
              Select.two i ≠ 0))).map
          (fun i => (i, (Select.parm Select.two i).cb,
            Select.effective PollBits.linux
              (Select.wait PollBits.linux (Select.reports Select.writable) Select.two ()).1.2
              Select.two i,
            (Select.parm Select.two i).aux))) :=
  ⟨C2_ready_called_in_order.1 Unit PollBits.linux (Poll.reports 4) quiet Poll.two ()
      (by decide) rfl (fun _ _ _ _ => rfl) (by decide) (by decide),
    C2_ready_called_in_order.2 Unit PollBits.linux (Select.reports Select.writable) quiet
      Select.two () rfl (fun _ _ _ _ => rfl) (by decide)⟩

/-- C3, as stated, fails: descriptors 3 and 5 are registered from the initial state,
which leaves the flag set; both are reported writable and the callbacks do nothing.
The sweep calls the callback of descriptor 3 only: descriptor 5, at index 1, has the
effective mask 4 and is not called. -/
theorem C3_counterexample :
    ∃ s, Poll.run_ops [Op.add 3 10 100, Op.add 5 11 101] Poll.init = some s ∧
      s.changed = true ∧ s.npolls = 2 ∧ Poll.effective (fun _ => 4) s 1 = 4 ∧
      (Poll.event_wait PollBits.linux (Poll.reports 4) quiet s ()).map
        (fun r => r.calls.map Poll.Call.sig) = some [(0, 10, 4, 100)] :=
  ⟨⟨[⟨3, 0, 0⟩, ⟨5, 0, 0⟩], [⟨10, 100, 0⟩, ⟨11, 101, 0⟩], 2, 2, true⟩, by decide⟩

/-- C3 (amended): `add_fd` and `del_fd` set the flag, and `event_wait` does not reset
it on entry: it is still set on return exactly when it was set on entry and no callback
was invoked.  A sweep entered with the flag clear, whose callbacks perform no `add_fd`
and no `del_fd`, invokes every registration whose effective mask is non-zero. -/
theorem C3_flag_cleared_on_use :
    ((∀ s fd cb aux s2, Poll.add_fd s fd cb aux = some s2 → s2.changed = true) ∧
     (∀ s fd s2, Poll.del_fd s fd = some s2 → s2.changed = true) ∧
     (∀ (W : Type) (B : PollBits) (poll : Poll.PollCall W) (code : Code W) (s : Poll.State) (w : W)
        (r : Poll.Result W), Poll.event_wait B poll code s w = some r →
        (r.s.changed = true ↔ s.changed = true ∧ r.calls = []) ∧
        (Poll.WF s → s.changed = false → (∀ c ∈ r.calls, c.ops.any Op.mutates = false) →
          ∀ i, i < s.npolls → Poll.effective (Poll.wait poll s w).1.2 s i ≠ 0 →
            ∃ c ∈ r.calls, c.n = i))) ∧
    ((∀ s fd cb aux s2, Select.add_fd s fd cb aux = some s2 → s2.changed = true) ∧
     (∀ s fd s2, Select.del_fd s fd = some s2 → s2.changed = true) ∧
     (∀ (W : Type) (B : PollBits) (select : Select.SelectCall W) (code : Code W)
        (s : Select.State) (w : W) (r : Select.Result W),
        Select.event_wait B select code s w = some r →
        (r.s.changed = true ↔ s.changed = true ∧ r.calls = []) ∧
        (s.changed = false → (∀ c ∈ r.calls, c.ops.any Op.mutates = false) →
          ∀ i, i < s.npolls → Select.effective B (Select.wait B select s w).1.2 s i ≠ 0 →
            ∃ c ∈ r.calls, c.n = i))) := by
  refine ⟨⟨fun s fd cb aux s2 => Poll.poll_add_changed s s2 fd cb aux,
      fun s fd s2 => Poll.poll_del_changed s s2 fd, ?_⟩,
    ⟨fun s fd cb aux s2 => Select.sel_add_changed s s2 fd cb aux,
      fun s fd s2 => Select.sel_del_changed s s2 fd, ?_⟩⟩
  · intro W B poll code s w r h
    exact Poll.poll_flag_protocol B poll code s w r h
  · intro W B select code s w r h
    exact Select.sel_flag_protocol B select code s w r h

/-- C3 (amended) on the first `add_fd`, on a `del_fd`, and on the sweep of descriptors 3
and 5, both writable, entered with the flag clear: index 1 is called. -/
theorem C3_witness :
    ((Poll.add_fd Poll.init 3 10 100 = some ⟨[⟨3, 0, 0⟩], [⟨10, 100, 0⟩], 1, 1, true⟩ ∧
        (⟨[⟨3, 0, 0⟩], [⟨10, 100, 0⟩], 1, 1, true⟩ : Poll.State).changed = true) ∧
      (Poll.del_fd Poll.one 3 = some ⟨[⟨3, 0, 0⟩], [⟨10, 100, 0⟩], 0, 1, true⟩ ∧
        (⟨[⟨3, 0, 0⟩], [⟨10, 100, 0⟩], 0, 1, true⟩ : Poll.State).changed = true) ∧
      (Poll.event_wait PollBits.linux (Poll.reports 4) quiet Poll.two () = some Poll.quiet_sweep ∧
        Poll.WF Poll.two ∧ Poll.two.changed = false ∧
        (∀ c ∈ Poll.quiet_sweep.calls, c.ops.any Op.mutates = false) ∧ 1 < Poll.two.npolls ∧
        Poll.effective (Poll.wait (Poll.reports 4) Poll.two ()).1.2 Poll.two 1 ≠ 0 ∧
        ∃ c ∈ Poll.quiet_sweep.calls, c.n = 1)) ∧
    ((Select.add_fd Select.init 3 10 100 = some ⟨[⟨10, 100, 3, 0, 0⟩], 1, 1, true⟩ ∧
        (⟨[⟨10, 100, 3, 0, 0⟩], 1, 1, true⟩ : Select.State).changed = true) ∧
      (Select.del_fd Select.armed 3 = some ⟨[⟨10, 100, 3, 0, 4⟩], 0, 1, true⟩ ∧
        (⟨[⟨10, 100, 3, 0, 4⟩], 0, 1, true⟩ : Select.State).changed = true) ∧
      (Select.event_wait PollBits.linux (Select.reports Select.writable) quiet Select.two () =
          some Select.quiet_sweep ∧
        Select.two.changed = false ∧
        (∀ c ∈ Select.quiet_sweep.calls, c.ops.any Op.mutates = false) ∧ 1 < Select.two.npolls ∧
        Select.effective PollBits.linux
          (Select.wait PollBits.linux (Select.reports Select.writable) Select.two ()).1.2
          Select.two 1 ≠ 0 ∧
        ∃ c ∈ Select.quiet_sweep.calls, c.n = 1)) :=
  ⟨⟨⟨rfl, C3_flag_cleared_on_use.1.1 Poll.init 3 10 100 _ rfl⟩,
      ⟨rfl, C3_flag_cleared_on_use.1.2.1 Poll.one 3 _ rfl⟩,
      ⟨rfl, by decide, rfl, by decide, by decide, by decide,
        (C3_flag_cleared_on_use.1.2.2 Unit PollBits.linux (Poll.reports 4) quiet Poll.two ()
          Poll.quiet_sweep rfl).2 (by decide) rfl (by decide) 1 (by decide) (by decide)⟩⟩,
    ⟨⟨rfl, C3_flag_cleared_on_use.2.1 Select.init 3 10 100 _ rfl⟩,
      ⟨rfl, C3_flag_cleared_on_use.2.2.1 Select.armed 3 _ rfl⟩,
      ⟨rfl, rfl, by decide, by decide, by decide,
        (C3_flag_cleared_on_use.2.2.2 Unit PollBits.linux (Select.reports Select.writable) quiet
          Select.two () Select.quiet_sweep rfl).2 rfl (by decide) 1 (by decide) (by decide)⟩⟩⟩

/-- C5, as stated, fails under `poll`: descriptor 3 is registered and `fake_fd` forces
POLLHUP (16) on it; `poll` reports nothing.  The forced mask is 16 and the callback is
called with 17. -/
theorem C5_counterexample :
    ∃ s, Poll.run_ops [Op.add 3 10 100, Op.fake 3 16] Poll.init = some s ∧
      (Poll.parm s 0).faked = 16 ∧
      (Poll.event_wait PollBits.linux (Poll.reports 0) quiet s ()).map
        (fun r => r.calls.map Poll.Call.sig) = some [(0, 10, 17, 100)] :=
  ⟨⟨[⟨3, 0, 0⟩], [⟨10, 100, 16⟩], 1, 1, true⟩, by decide⟩

/-- C5 (amended): when `event_wait` dispatches a registration for which the environment
reported no bit, the forced mask `f` it holds is non-zero and the mask passed to its
callback is `f` under `select`, and `f` with POLLIN added when `f` has POLLHUP under
`poll` (so exactly `f` when `f` has no POLLHUP). -/
theorem C5_forced_mask_delivered :
    (∀ (W : Type) (B : PollBits) (poll : Poll.PollCall W) (code : Code W) (s : Poll.State) (w : W)
        (r : Poll.Result W), Poll.event_wait B poll code s w = some r →
      ∀ c ∈ r.calls, (Poll.wait poll s w).1.2 c.n = 0 →
        (Poll.parm c.seen c.n).faked ≠ 0 ∧
        c.what = deliver B (Poll.parm c.seen c.n).faked ∧
        ((Poll.parm c.seen c.n).faked &&& B.POLLHUP = 0 → c.what = (Poll.parm c.seen c.n).faked)) ∧
    (∀ (W : Type) (B : PollBits) (select : Select.SelectCall W) (code : Code W) (s : Select.State)
        (w : W) (r : Select.Result W), Select.event_wait B select code s w = some r →
      ∀ c ∈ r.calls, Select.reported B (Select.wait B select s w).1.2 (Select.parm s c.n).fd = 0 →
        (Select.parm c.seen c.n).faked ≠ 0 ∧ c.what = (Select.parm c.seen c.n).faked) := by
  constructor
  · intro W B poll code s w r h c hc h0
    obtain ⟨_, _, d3, d4, _, _, d7, _⟩ := Poll.poll_dispatch_mask B poll code s w r h c hc
    have z := d7 h0
    rw [z, Nat.zero_or] at d3 d4
    refine ⟨d4, d3, fun hh => ?_⟩
    rw [d3, deliver, if_neg (not_not.2 hh), Nat.or_zero]
  · intro W B select code s w r h c hc h0
    obtain ⟨_, _, d3, d4, _, _, _⟩ := Select.sel_dispatch_mask B select code s w r h c hc
    rw [h0, Nat.zero_or] at d3 d4
    exact ⟨d4, d3⟩


/-- C5 (amended) on descriptor 3 with forced mask 4 and nothing reported: the callback
is called with 4. -/
theorem C5_witness :
    (Poll.event_wait PollBits.linux (Poll.reports 0) quiet Poll.armed () = some Poll.armed_sweep ∧
      Poll.first Poll.armed_sweep ∈ Poll.armed_sweep.calls ∧
      (Poll.wait (Poll.reports 0) Poll.armed ()).1.2 (Poll.first Poll.armed_sweep).n = 0 ∧
      (Poll.parm (Poll.first Poll.armed_sweep).seen (Poll.first Poll.armed_sweep).n).faked = 4 ∧
      (Poll.first Poll.armed_sweep).what = 4) ∧
    (Select.event_wait PollBits.linux (Select.reports Select.idle) quiet Select.armed () =
        some Select.armed_sweep ∧
      Select.first Select.armed_sweep ∈ Select.armed_sweep.calls ∧
      Select.reported PollBits.linux
        (Select.wait PollBits.linux (Select.reports Select.idle) Select.armed ()).1.2
        (Select.parm Select.armed (Select.first Select.armed_sweep).n).fd = 0 ∧
      (Select.parm (Select.first Select.armed_sweep).seen (Select.first Select.armed_sweep).n).faked
        = 4 ∧
      (Select.first Select.armed_sweep).what = 4) :=
  ⟨⟨rfl, by decide, rfl, rfl,
      ((C5_forced_mask_delivered.1 Unit PollBits.linux (Poll.reports 0) quiet Poll.armed ()
        Poll.armed_sweep rfl (Poll.first Poll.armed_sweep) (by decide) rfl).2.2 (by decide))⟩,
    ⟨rfl, by decide, by decide, rfl,
      (C5_forced_mask_delivered.2 Unit PollBits.linux (Select.reports Select.idle) quiet
        Select.armed () Select.armed_sweep rfl (Select.first Select.armed_sweep) (by decide)
        (by decide)).2⟩⟩

/-- C8: starting from the empty table, after every sequence of `add_fd`, `del_fd`,
`conf_fd` and `fake_fd` in which no assertion fails, no two live registrations have
the same descriptor; each of the four operations preserves this (together with the
shape of the arrays). -/
theorem C8_descriptors_unique :
    ((∀ ops s, Poll.run_ops ops Poll.init = some s → Poll.WF s ∧ Poll.Unique s) ∧
     (∀ s op s2, Poll.WF s → Poll.Unique s → Poll.step s op = some s2 →
        Poll.WF s2 ∧ Poll.Unique s2)) ∧
    ((∀ ops s, Select.run_ops ops Select.init = some s → Select.WF s ∧ Select.Unique s) ∧
     (∀ s op s2, Select.WF s → Select.Unique s → Select.step s op = some s2 →
        Select.WF s2 ∧ Select.Unique s2)) := by
  refine ⟨⟨fun ops s h => ?_, fun s op s2 hw hu h => ?_⟩, ⟨fun ops s h => ?_, fun s op s2 hw hu h => ?_⟩⟩
  · exact Poll.poll_run_inv ops _ s Poll.poll_init_inv.1 Poll.poll_init_inv.2 h
  · exact ⟨Poll.poll_step_wf s s2 op hw h, Poll.poll_step_unique s s2 op hw hu h⟩
  · exact Select.sel_run_inv ops _ s Select.sel_init_inv.1 Select.sel_init_inv.2 h
  · exact ⟨Select.sel_step_wf s s2 op hw h, Select.sel_step_unique s s2 op hw hu h⟩

/-- C8 on a sequence of seven operations from the initial state, and on a `del_fd` in
the table of descriptors 3, 5 and 7. -/
theorem C8_witness :
    ((Poll.run_ops [Op.add 3 10 100, Op.add 5 11 101, Op.conf 5 0 4, Op.del 3, Op.add 7 12 102,
          Op.fake 7 1, Op.add 3 10 100] Poll.init =
        some ⟨[⟨5, 4, 0⟩, ⟨7, 0, 0⟩, ⟨3, 0, 0⟩], [⟨11, 101, 0⟩, ⟨12, 102, 1⟩, ⟨10, 100, 0⟩],
          3, 3, true⟩ ∧
        Poll.Unique ⟨[⟨5, 4, 0⟩, ⟨7, 0, 0⟩, ⟨3, 0, 0⟩],
          [⟨11, 101, 0⟩, ⟨12, 102, 1⟩, ⟨10, 100, 0⟩], 3, 3, true⟩) ∧
      (Poll.WF Poll.three ∧ Poll.Unique Poll.three ∧
        Poll.step Poll.three (Op.del 5) =
          some ⟨[⟨3, 1, 0⟩, ⟨7, 5, 0⟩, ⟨7, 5, 0⟩], [⟨10, 100, 0⟩, ⟨12, 102, 0⟩, ⟨12, 102, 0⟩],
            2, 3, true⟩ ∧
        Poll.Unique ⟨[⟨3, 1, 0⟩, ⟨7, 5, 0⟩, ⟨7, 5, 0⟩],
          [⟨10, 100, 0⟩, ⟨12, 102, 0⟩, ⟨12, 102, 0⟩], 2, 3, true⟩)) ∧
    ((Select.run_ops [Op.add 3 10 100, Op.add 5 11 101, Op.conf 5 0 4, Op.del 3,
          Op.add 7 12 102, Op.fake 7 1, Op.add 3 10 100] Select.init =
        some ⟨[⟨11, 101, 5, 4, 0⟩, ⟨12, 102, 7, 0, 1⟩, ⟨10, 100, 3, 0, 0⟩], 3, 3, true⟩ ∧
        Select.Unique ⟨[⟨11, 101, 5, 4, 0⟩, ⟨12, 102, 7, 0, 1⟩, ⟨10, 100, 3, 0, 0⟩], 3, 3, true⟩) ∧
      (Select.WF Select.three ∧ Select.Unique Select.three ∧
        Select.step Select.three (Op.del 5) =
          some ⟨[⟨10, 100, 3, 1, 0⟩, ⟨12, 102, 7, 5, 0⟩, ⟨12, 102, 7, 5, 0⟩], 2, 3, true⟩ ∧
        Select.Unique ⟨[⟨10, 100, 3, 1, 0⟩, ⟨12, 102, 7, 5, 0⟩, ⟨12, 102, 7, 5, 0⟩],
          2, 3, true⟩)) :=
  ⟨⟨⟨rfl, (C8_descriptors_unique.1.1 [Op.add 3 10 100, Op.add 5 11 101, Op.conf 5 0 4, Op.del 3,
        Op.add 7 12 102, Op.fake 7 1, Op.add 3 10 100] _ rfl).2⟩,
      ⟨by decide, by decide, rfl,
        (C8_descriptors_unique.1.2 Poll.three (Op.del 5) _ (by decide) (by decide) rfl).2⟩⟩,
    ⟨⟨rfl, (C8_descriptors_unique.2.1 [Op.add 3 10 100, Op.add 5 11 101, Op.conf 5 0 4, Op.del 3,
        Op.add 7 12 102, Op.fake 7 1, Op.add 3 10 100] _ rfl).2⟩,
      ⟨by decide, by decide, rfl,
        (C8_descriptors_unique.2.2 Select.three (Op.del 5) _ (by decide) (by decide) rfl).2⟩⟩⟩

/-- C9: on a table with unique descriptors that contains `fd`, `del_fd` of `fd` succeeds
and removes the one entry of `fd`, at its index `n`: `npolls` is one less, `fd` is not
found any more, the entries after `n` move down by one in both arrays alike and the
others stay, so that every other registration is still there with all its fields;
`rpolls` is unchanged and the flag is set. -/
theorem C9_del_removes_one :
    (∀ (s : Poll.State) (fd : Int), Poll.WF s → Poll.Unique s → Poll.registered s fd →
      ∃ n s2, Poll.find_fd s fd = some n ∧ Poll.del_fd s fd = some s2 ∧
        s2.npolls + 1 = s.npolls ∧ Poll.find_fd s2 fd = none ∧ s2.rpolls = s.rpolls ∧
        s2.changed = true ∧ Poll.WF s2 ∧ Poll.Unique s2 ∧
        (∀ i, i < s2.npolls → Poll.pfd s2 i = Poll.pfd s (if i < n then i else i + 1) ∧
          Poll.parm s2 i = Poll.parm s (if i < n then i else i + 1)) ∧
        (∀ j, j < s.npolls → j ≠ n →
          ∃ i, i < s2.npolls ∧ Poll.pfd s2 i = Poll.pfd s j ∧ Poll.parm s2 i = Poll.parm s j)) ∧
    (∀ (s : Select.State) (fd : Int), Select.WF s → Select.Unique s → Select.registered s fd →
      ∃ n s2, Select.find_fd s fd = some n ∧ Select.del_fd s fd = some s2 ∧
        s2.npolls + 1 = s.npolls ∧ Select.find_fd s2 fd = none ∧ s2.rpolls = s.rpolls ∧
        s2.changed = true ∧ Select.WF s2 ∧ Select.Unique s2 ∧
        (∀ i, i < s2.npolls → Select.parm s2 i = Select.parm s (if i < n then i else i + 1)) ∧
        (∀ j, j < s.npolls → j ≠ n → ∃ i, i < s2.npolls ∧ Select.parm s2 i = Select.parm s j)) :=
  ⟨fun s fd hw hu hr => Poll.poll_del_exact s hw hu fd hr,
    fun s fd hw hu hr => Select.sel_del_exact s hw hu fd hr⟩

/-- C9 on `del_fd` of descriptor 5 in the table of descriptors 3, 5 and 7. -/
theorem C9_witness :
    (Poll.WF Poll.three ∧ Poll.Unique Poll.three ∧ Poll.registered Poll.three 5 ∧
      ∃ n s2, Poll.find_fd Poll.three 5 = some n ∧ Poll.del_fd Poll.three 5 = some s2 ∧
        s2.npolls + 1 = Poll.three.npolls ∧ Poll.find_fd s2 5 = none ∧
        s2.rpolls = Poll.three.rpolls ∧ s2.changed = true ∧ Poll.WF s2 ∧ Poll.Unique s2 ∧
        (∀ i, i < s2.npolls → Poll.pfd s2 i = Poll.pfd Poll.three (if i < n then i else i + 1) ∧
          Poll.parm s2 i = Poll.parm Poll.three (if i < n then i else i + 1)) ∧
        (∀ j, j < Poll.three.npolls → j ≠ n →
          ∃ i, i < s2.npolls ∧ Poll.pfd s2 i = Poll.pfd Poll.three j ∧
            Poll.parm s2 i = Poll.parm Poll.three j)) ∧
    (Select.WF Select.three ∧ Select.Unique Select.three ∧ Select.registered Select.three 5 ∧
      ∃ n s2, Select.find_fd Select.three 5 = some n ∧ Select.del_fd Select.three 5 = some s2 ∧
        s2.npolls + 1 = Select.three.npolls ∧ Select.find_fd s2 5 = none ∧
        s2.rpolls = Select.three.rpolls ∧ s2.changed = true ∧ Select.WF s2 ∧ Select.Unique s2 ∧
        (∀ i, i < s2.npolls →
          Select.parm s2 i = Select.parm Select.three (if i < n then i else i + 1)) ∧
        (∀ j, j < Select.three.npolls → j ≠ n →
          ∃ i, i < s2.npolls ∧ Select.parm s2 i = Select.parm Select.three j)) :=
  ⟨⟨by decide, by decide, ⟨1, by decide, rfl⟩,
      C9_del_removes_one.1 Poll.three 5 (by decide) (by decide) ⟨1, by decide, rfl⟩⟩,
    ⟨by decide, by decide, ⟨1, by decide, rfl⟩,
      C9_del_removes_one.2 Select.three 5 (by decide) (by decide) ⟨1, by decide, rfl⟩⟩⟩

/-- C10: with a failed assertion as the failure, `add_fd` fails exactly when the
descriptor is registered, and `del_fd`, `conf_fd` and `fake_fd` fail exactly when it is
not; otherwise the operation succeeds. -/
theorem C10_assertions :
    (∀ (s : Poll.State) (fd : Int),
      (∀ cb aux, Poll.add_fd s fd cb aux = none ↔ Poll.registered s fd) ∧
      (Poll.del_fd s fd = none ↔ ¬ Poll.registered s fd) ∧
      (∀ a o, Poll.conf_fd s fd a o = none ↔ ¬ Poll.registered s fd) ∧
      (∀ e, Poll.fake_fd s fd e = none ↔ ¬ Poll.registered s fd)) ∧
    (∀ (s : Select.State) (fd : Int),
      (∀ cb aux, Select.add_fd s fd cb aux = none ↔ Select.registered s fd) ∧
      (Select.del_fd s fd = none ↔ ¬ Select.registered s fd) ∧
      (∀ a o, Select.conf_fd s fd a o = none ↔ ¬ Select.registered s fd) ∧
      (∀ e, Select.fake_fd s fd e = none ↔ ¬ Select.registered s fd)) :=
  ⟨Poll.poll_fail_iff, Select.sel_fail_iff⟩

/-- C11, as stated, fails under `poll`: descriptor 3 is registered alone with interest 0,
and `conf_fd( 3, 0, 65540 )` leaves the interest mask 4, the low 16 bits of
`(0 & 0) | 65540`, since `events` is a `short`. -/
theorem C11_counterexample :
    Poll.conf_fd Poll.one 3 0 65540 = some ⟨[⟨3, 4, 0⟩], [⟨10, 100, 0⟩], 1, 1, false⟩ ∧
    (Poll.pfd Poll.one 0).fd = 3 ∧
    ((Poll.pfd Poll.one 0).events &&& 0) ||| 65540 = 65540 ∧ (65540 : Nat) ≠ 4 :=
  ⟨by decide, rfl, by decide, by decide⟩

/-- C11 (amended): on a table that contains `fd`, at index `n`, `conf_fd` of `fd` with the
masks `a` and `o` succeeds and leaves the interest mask of entry `n` as `(old & a) | o`
under `select`, and as the low 16 bits of `(old & a) | o` under `poll`, that is
`(old & a) | o` itself whenever `o` has no bit above the 16 of a `short` (as `old` has
none); the rest of that entry, every other entry, the forced masks, callbacks and contexts,
`npolls`, `rpolls`, the order and the flag are as before. -/
theorem C11_conf_sets_interest :
    (∀ (s : Poll.State) (fd : Int) (a o : Nat), Poll.WF s → Poll.registered s fd →
      ∃ n s2, Poll.find_fd s fd = some n ∧ Poll.conf_fd s fd a o = some s2 ∧
        Poll.pfd s2 n =
          { Poll.pfd s n with events := (((Poll.pfd s n).events &&& a) ||| o) % 2 ^ 16 } ∧
        ((Poll.pfd s n).events < 2 ^ 16 → o < 2 ^ 16 →
          (Poll.pfd s2 n).events = ((Poll.pfd s n).events &&& a) ||| o) ∧
        (Poll.pfd s n).fd = fd ∧
        (∀ i, i ≠ n → Poll.pfd s2 i = Poll.pfd s i) ∧ s2.fdparms = s.fdparms ∧
        s2.npolls = s.npolls ∧ s2.rpolls = s.rpolls ∧ s2.changed = s.changed ∧
        s2.pollfds.length = s.pollfds.length) ∧
    (∀ (s : Select.State) (fd : Int) (a o : Nat), Select.WF s → Select.registered s fd →
      ∃ n s2, Select.find_fd s fd = some n ∧ Select.conf_fd s fd a o = some s2 ∧
        Select.parm s2 n =
          { Select.parm s n with events := ((Select.parm s n).events &&& a) ||| o } ∧
        (Select.parm s n).fd = fd ∧
        (∀ i, i ≠ n → Select.parm s2 i = Select.parm s i) ∧
        s2.npolls = s.npolls ∧ s2.rpolls = s.rpolls ∧ s2.changed = s.changed ∧
        s2.fdparms.length = s.fdparms.length) :=
  ⟨fun s fd a o hw hr => Poll.poll_conf_exact s hw fd a o hr,
    fun s fd a o hw hr => Select.sel_conf_exact s hw fd a o hr⟩

/-- C11 (amended) on `conf_fd(5, 1, 8)` in the table of descriptors 3, 5 and 7. -/
theorem C11_witness :
    (Poll.WF Poll.three ∧ Poll.registered Poll.three 5 ∧
      ∃ n s2, Poll.find_fd Poll.three 5 = some n ∧ Poll.conf_fd Poll.three 5 1 8 = some s2 ∧
        Poll.pfd s2 n =
          { Poll.pfd Poll.three n with
            events := (((Poll.pfd Poll.three n).events &&& 1) ||| 8) % 2 ^ 16 } ∧
        ((Poll.pfd Poll.three n).events < 2 ^ 16 → 8 < 2 ^ 16 →
          (Poll.pfd s2 n).events = ((Poll.pfd Poll.three n).events &&& 1) ||| 8) ∧
        (Poll.pfd Poll.three n).fd = 5 ∧
        (∀ i, i ≠ n → Poll.pfd s2 i = Poll.pfd Poll.three i) ∧
        s2.fdparms = Poll.three.fdparms ∧
        s2.npolls = Poll.three.npolls ∧ s2.rpolls = Poll.three.rpolls ∧
        s2.changed = Poll.three.changed ∧
        s2.pollfds.length = Poll.three.pollfds.length) ∧
    (Select.WF Select.three ∧ Select.registered Select.three 5 ∧
      ∃ n s2, Select.find_fd Select.three 5 = some n ∧
        Select.conf_fd Select.three 5 1 8 = some s2 ∧
        Select.parm s2 n =
          { Select.parm Select.three n with
            events := ((Select.parm Select.three n).events &&& 1) ||| 8 } ∧
        (Select.parm Select.three n).fd = 5 ∧
        (∀ i, i ≠ n → Select.parm s2 i = Select.parm Select.three i) ∧
        s2.npolls = Select.three.npolls ∧ s2.rpolls = Select.three.rpolls ∧
        s2.changed = Select.three.changed ∧
        s2.fdparms.length = Select.three.fdparms.length) :=
  ⟨⟨by decide, ⟨1, by decide, rfl⟩,
      C11_conf_sets_interest.1 Poll.three 5 1 8 (by decide) ⟨1, by decide, rfl⟩⟩,
    ⟨by decide, ⟨1, by decide, rfl⟩,
      C11_conf_sets_interest.2 Select.three 5 1 8 (by decide) ⟨1, by decide, rfl⟩⟩⟩

/-- C12: on a table that contains `fd`, at index `n`, `fake_fd` of `fd` with mask `m`
succeeds and leaves the forced mask of entry `n` as `old | m`; the rest of that entry, every
other entry, the interest masks, `npolls`, `rpolls` and the flag are as before. For every
table, `fake_fd(fd, m1)` then `fake_fd(fd, m2)` is `fake_fd(fd, m1 | m2)`, and
`fake_fd(fd, m)` twice is `fake_fd(fd, m)` once (a failed assert included). -/
theorem C12_fake_accumulates :
    ((∀ (s : Poll.State) (fd : Int) (m : Nat), Poll.WF s → Poll.registered s fd →
        ∃ n s2, Poll.find_fd s fd = some n ∧ Poll.fake_fd s fd m = some s2 ∧
          Poll.parm s2 n = { Poll.parm s n with faked := (Poll.parm s n).faked ||| m } ∧
          (Poll.pfd s n).fd = fd ∧ (∀ i, i ≠ n → Poll.parm s2 i = Poll.parm s i) ∧
          s2.pollfds = s.pollfds ∧ s2.npolls = s.npolls ∧ s2.rpolls = s.rpolls ∧
          s2.changed = s.changed ∧ s2.fdparms.length = s.fdparms.length) ∧
      (∀ (s : Poll.State) (fd : Int) (m1 m2 : Nat),
        (Poll.fake_fd s fd m1).bind (fun t => Poll.fake_fd t fd m2) =
          Poll.fake_fd s fd (m1 ||| m2)) ∧
      (∀ (s : Poll.State) (fd : Int) (m : Nat),
        (Poll.fake_fd s fd m).bind (fun t => Poll.fake_fd t fd m) = Poll.fake_fd s fd m)) ∧
    ((∀ (s : Select.State) (fd : Int) (m : Nat), Select.WF s → Select.registered s fd →
        ∃ n s2, Select.find_fd s fd = some n ∧ Select.fake_fd s fd m = some s2 ∧
          Select.parm s2 n =
            { Select.parm s n with faked := (Select.parm s n).faked ||| m } ∧
          (Select.parm s n).fd = fd ∧ (∀ i, i ≠ n → Select.parm s2 i = Select.parm s i) ∧
          s2.npolls = s.npolls ∧ s2.rpolls = s.rpolls ∧
          s2.changed = s.changed ∧ s2.fdparms.length = s.fdparms.length) ∧
      (∀ (s : Select.State) (fd : Int) (m1 m2 : Nat),
        (Select.fake_fd s fd m1).bind (fun t => Select.fake_fd t fd m2) =
          Select.fake_fd s fd (m1 ||| m2)) ∧
      (∀ (s : Select.State) (fd : Int) (m : Nat),
        (Select.fake_fd s fd m).bind (fun t => Select.fake_fd t fd m) =
          Select.fake_fd s fd m)) :=
  ⟨⟨fun s fd m hw hr => Poll.poll_fake_exact s hw fd m hr, Poll.poll_fake_accumulate,
      Poll.poll_fake_idem⟩,
    ⟨fun s fd m hw hr => Select.sel_fake_exact s hw fd m hr, Select.sel_fake_accumulate,
      Select.sel_fake_idem⟩⟩

/-- C12 on `fake_fd(5, 4)` in the table of descriptors 3, 5 and 7, where descriptor 5 has
the forced mask 2. -/
theorem C12_witness :
    (Poll.WF Poll.three ∧ Poll.registered Poll.three 5 ∧
      ∃ n s2, Poll.find_fd Poll.three 5 = some n ∧ Poll.fake_fd Poll.three 5 4 = some s2 ∧
        Poll.parm s2 n =
          { Poll.parm Poll.three n with faked := (Poll.parm Poll.three n).faked ||| 4 } ∧
        (Poll.pfd Poll.three n).fd = 5 ∧
        (∀ i, i ≠ n → Poll.parm s2 i = Poll.parm Poll.three i) ∧
        s2.pollfds = Poll.three.pollfds ∧ s2.npolls = Poll.three.npolls ∧
        s2.rpolls = Poll.three.rpolls ∧ s2.changed = Poll.three.changed ∧
        s2.fdparms.length = Poll.three.fdparms.length) ∧
    (Select.WF Select.three ∧ Select.registered Select.three 5 ∧
      ∃ n s2, Select.find_fd Select.three 5 = some n ∧
        Select.fake_fd Select.three 5 4 = some s2 ∧
        Select.parm s2 n =
          { Select.parm Select.three n with
            faked := (Select.parm Select.three n).faked ||| 4 } ∧
        (Select.parm Select.three n).fd = 5 ∧
        (∀ i, i ≠ n → Select.parm s2 i = Select.parm Select.three i) ∧
        s2.npolls = Select.three.npolls ∧ s2.rpolls = Select.three.rpolls ∧
        s2.changed = Select.three.changed ∧
        s2.fdparms.length = Select.three.fdparms.length) :=
  ⟨⟨by decide, ⟨1, by decide, rfl⟩,
      C12_fake_accumulates.1.1 Poll.three 5 4 (by decide) ⟨1, by decide, rfl⟩⟩,
    ⟨by decide, ⟨1, by decide, rfl⟩,
      C12_fake_accumulates.2.1 Select.three 5 4 (by decide) ⟨1, by decide, rfl⟩⟩⟩

/-- C14: whenever `main_loop` returns, `npolls` is 0, and when it was entered with a
registration it has gone through `event_wait` first; entered on an empty table it returns at
once, with no sweep made and the state untouched; with a live registration it does not
return but runs `event_wait` and loops on what that left (while iterations are allowed),
aborting when `event_wait` aborts. -/
theorem C14_main_loop_until_empty :
    (∀ (W : Type) (B : PollBits) (poll : Poll.PollCall W) (code : Code W) (k : Nat)
        (s : Poll.State) (w : W),
      (∀ x, Poll.main_loop B poll code k s w = .returned x →
        x.s.npolls = 0 ∧
        (s.npolls ≠ 0 → ∃ r rest, Poll.event_wait B poll code s w = some r ∧
          x.sweeps = r.calls :: rest)) ∧
      (s.npolls = 0 → Poll.main_loop B poll code k s w = .returned ⟨[], s, w⟩) ∧
      (s.npolls ≠ 0 →
        Poll.main_loop B poll code 0 s w = .unfinished ∧
        Poll.main_loop B poll code (k + 1) s w =
          match Poll.event_wait B poll code s w with
          | none => .aborted
          | some r =>
            match Poll.main_loop B poll code k r.s r.w with
            | .returned x => .returned { x with sweeps := r.calls :: x.sweeps }
            | .aborted => .aborted
            | .unfinished => .unfinished)) ∧
    (∀ (W : Type) (B : PollBits) (select : Select.SelectCall W) (code : Code W) (k : Nat)
        (s : Select.State) (w : W),
      (∀ x, Select.main_loop B select code k s w = .returned x →
        x.s.npolls = 0 ∧
        (s.npolls ≠ 0 → ∃ r rest, Select.event_wait B select code s w = some r ∧
          x.sweeps = r.calls :: rest)) ∧
      (s.npolls = 0 → Select.main_loop B select code k s w = .returned ⟨[], s, w⟩) ∧
      (s.npolls ≠ 0 →
        Select.main_loop B select code 0 s w = .unfinished ∧
        Select.main_loop B select code (k + 1) s w =
          match Select.event_wait B select code s w with
          | none => .aborted
          | some r =>
            match Select.main_loop B select code k r.s r.w with
            | .returned x => .returned { x with sweeps := r.calls :: x.sweeps }
            | .aborted => .aborted
            | .unfinished => .unfinished)) :=
  ⟨fun _ B poll code k s w =>
      ⟨fun x h => Poll.poll_main_returned B poll code k s w x h,
        fun h => Poll.poll_main_empty B poll code k s w h,
        fun h => Poll.poll_main_live B poll code k s w h⟩,
    fun _ B select code k s w =>
      ⟨fun x h => Select.sel_main_returned B select code k s w x h,
        fun h => Select.sel_main_empty B select code k s w h,
        fun h => Select.sel_main_live B select code k s w h⟩⟩

/-- C14 on the empty table, and on the table of descriptor 3 alone. -/
theorem C14_witness :
    ((Poll.init.npolls = 0 ∧
        Poll.main_loop PollBits.linux (Poll.reports 4) quiet 5 Poll.init () =
          .returned ⟨[], Poll.init, ()⟩) ∧
      (Poll.one.npolls ≠ 0 ∧
        Poll.main_loop PollBits.linux (Poll.reports 4) quiet 0 Poll.one () = .unfinished)) ∧
    ((Select.init.npolls = 0 ∧
        Select.main_loop PollBits.linux (Select.reports Select.writable) quiet 5 Select.init () =
          .returned ⟨[], Select.init, ()⟩) ∧
      (Select.one.npolls ≠ 0 ∧
        Select.main_loop PollBits.linux (Select.reports Select.writable) quiet 0 Select.one () =
          .unfinished)) :=
  ⟨⟨⟨rfl, (C14_main_loop_until_empty.1 Unit PollBits.linux (Poll.reports 4) quiet 5 Poll.init
          ()).2.1 rfl⟩,
      ⟨by decide, ((C14_main_loop_until_empty.1 Unit PollBits.linux (Poll.reports 4) quiet 0
          Poll.one ()).2.2 (by decide)).1⟩⟩,
    ⟨⟨rfl, (C14_main_loop_until_empty.2 Unit PollBits.linux (Select.reports Select.writable)
          quiet 5 Select.init ()).2.1 rfl⟩,
      ⟨by decide, ((C14_main_loop_until_empty.2 Unit PollBits.linux
          (Select.reports Select.writable) quiet 0 Select.one ()).2.2 (by decide)).1⟩⟩⟩

/-- C15: Scenario A. The table holds the one descriptor `fd`, with callback `cb`, context
`aux` and no forced bit; every wait succeeds and reports it writable (POLLOUT and nothing
else) and leaves the program alone; the callback is `countdown fd k`, that deregisters `fd`
at its `k`-th invocation and does nothing before. Then for `k ≥ 1`, `main_loop` with `k` or
more iterations allowed returns, after `k` sweeps of one call `cb( POLLOUT, aux )` each,
with an empty table and the counter at `k`. (With `poll`, POLLOUT is a bit other than
POLLHUP and POLLNVAL.) -/
theorem C15_scenario_a :
    (∀ (B : PollBits) (poll : Poll.PollCall Nat) (fd : Int) (cb aux k fuel : Nat)
        (s : Poll.State),
      B.pollout ≠ B.pollhup → B.pollout ≠ B.pollnval →
      (∀ fds n t w, 0 ≤ (poll fds n t w).1.1 ∧ (poll fds n t w).1.2 0 = B.POLLOUT ∧
        (poll fds n t w).2 = w) →
      Poll.WF s → s.npolls = 1 → (Poll.pfd s 0).fd = fd → Poll.parm s 0 = ⟨cb, aux, 0⟩ →
      1 ≤ k → k ≤ fuel →
      ∃ x, Poll.main_loop B poll (countdown fd k) fuel s 0 = .returned x ∧
        x.sweeps.map (List.map Poll.Call.sig) = List.replicate k [(0, cb, B.POLLOUT, aux)] ∧
        x.s.npolls = 0 ∧ x.w = k) ∧
    (∀ (B : PollBits) (select : Select.SelectCall Nat) (fd : Int) (cb aux k fuel : Nat)
        (s : Select.State),
      (∀ n r w e t cnt, 0 ≤ (select n r w e t cnt).1.1 ∧
        Select.FD_ISSET fd (select n r w e t cnt).1.2.rfds = false ∧
        Select.FD_ISSET fd (select n r w e t cnt).1.2.wfds = true ∧
        Select.FD_ISSET fd (select n r w e t cnt).1.2.efds = false ∧
        (select n r w e t cnt).2 = cnt) →
      Select.WF s → s.npolls = 1 → (Select.parm s 0).fd = fd → (Select.parm s 0).cb = cb →
      (Select.parm s 0).aux = aux → (Select.parm s 0).faked = 0 →
      1 ≤ k → k ≤ fuel →
      ∃ x, Select.main_loop B select (countdown fd k) fuel s 0 = .returned x ∧
        x.sweeps.map (List.map Select.Call.sig) = List.replicate k [(0, cb, B.POLLOUT, aux)] ∧
        x.s.npolls = 0 ∧ x.w = k) :=
  ⟨fun B poll fd cb aux k fuel s ho hn hp hw h1 hfd hpm hk hf =>
      Poll.poll_solo_run B poll fd cb aux k ho hn hp k s ⟨hw, h1, hfd, hpm⟩ 0 (Nat.zero_add k)
        hk fuel hf,
    fun B select fd cb aux k fuel s hp hw h1 hfd hcb haux hfk hk hf =>
      Select.sel_solo_run B select fd cb aux k hp k s ⟨hw, h1, hfd, hcb, haux, hfk⟩ 0
        (Nat.zero_add k) hk fuel hf⟩

/-- C15 on descriptor 3 alone in the table, deregistered at the third invocation, with
three iterations allowed. -/
theorem C15_witness :
    (∃ x, Poll.main_loop PollBits.linux Poll.always (countdown 3 3) 3 Poll.one 0 =
        .returned x ∧
      x.sweeps.map (List.map Poll.Call.sig) =
        List.replicate 3 [(0, 10, PollBits.linux.POLLOUT, 100)] ∧
      x.s.npolls = 0 ∧ x.w = 3) ∧
    (∃ x, Select.main_loop PollBits.linux Select.always (countdown 3 3) 3 Select.one 0 =
        .returned x ∧
      x.sweeps.map (List.map Select.Call.sig) =
        List.replicate 3 [(0, 10, PollBits.linux.POLLOUT, 100)] ∧
      x.s.npolls = 0 ∧ x.w = 3) :=
  ⟨C15_scenario_a.1 PollBits.linux Poll.always 3 10 100 3 3 Poll.one (by decide) (by decide)
      (fun _ _ _ _ => ⟨by show (0 : Int) ≤ 1; decide, rfl, rfl⟩) (by decide) rfl rfl rfl (by decide) (by decide),
    C15_scenario_a.2 PollBits.linux Select.always 3 10 100 3 3 Select.one
      (fun _ _ _ _ _ _ => ⟨by show (0 : Int) ≤ 1; decide, rfl, rfl, rfl, rfl⟩) (by decide) rfl rfl
      rfl rfl rfl (by decide) (by decide)⟩

/-- C16, as stated, fails: descriptors 3 and 5 are registered, `poll` reports POLLOUT for
3 and POLLNVAL for 5, and the callback of 3 deregisters 5 (and registers 7); `event_wait`
returns, after that one call. -/
theorem C16_counterexample :
    Poll.WF Poll.two ∧ 1 < Poll.two.npolls ∧
    (Poll.wait Poll.stale Poll.two ()).1.2 1 &&& PollBits.linux.POLLNVAL ≠ 0 ∧
    Poll.event_wait PollBits.linux Poll.stale retire Poll.two () = some Poll.stale_sweep ∧
    Poll.stale_sweep.calls.map Poll.Call.sig = [(0, 10, 4, 100)] ∧
    (Poll.first Poll.stale_sweep).ops = [Op.del 5, Op.add 7 12 102] :=
  ⟨by decide, by decide, by decide, rfl, by decide, by decide⟩

/-- C16 (amended), for the configuration with `poll`, the only one to report POLLNVAL.
In every run of `event_wait`, whether it returns or aborts, each callback invocation comes
after the assertion on `m`: `event_log` keeps the invocations made up to the end or to the
failed assertion, and none of them has POLLNVAL in `m` or in the mask passed (POLLIN being
another bit), nor is for an entry whose report had POLLNVAL; `event_log` ends as
`event_wait` does and holds its calls when it returns. For the runs that return, the same
is said on the calls of `event_wait`; when it returns although the report for the live
entry `i` has POLLNVAL, every call it made was for an entry before `i`, it made one, and
the flag was set on entry or one of the callbacks added or removed an entry: the sweep
stopped before `i`. With the flag clear on entry and callbacks that never add or remove,
such a report makes `event_wait` abort. -/
theorem C16_invalid_descriptor_fatal :
    ∀ (W : Type) (B : PollBits) (poll : Poll.PollCall W) (code : Code W) (s : Poll.State)
      (w : W),
      (∀ r, Poll.event_wait B poll code s w = some r → ∀ c ∈ r.calls,
        Poll.eff c.seen c.n &&& B.POLLNVAL = 0 ∧
        (B.pollin ≠ B.pollnval → c.what &&& B.POLLNVAL = 0) ∧
        (Poll.WF s → (Poll.wait poll s w).1.2 c.n &&& B.POLLNVAL = 0)) ∧
      (∀ r i, Poll.event_wait B poll code s w = some r → Poll.WF s → i < s.npolls →
        (Poll.wait poll s w).1.2 i &&& B.POLLNVAL ≠ 0 →
        (∀ c ∈ r.calls, c.n < i) ∧ r.calls ≠ [] ∧
        (s.changed = true ∨ ∃ c ∈ r.calls, c.ops.any Op.mutates = true)) ∧
      (Poll.WF s → s.changed = false →
        (∀ cb m aux w2, (code cb m aux w2).1.any Op.mutates = false) →
        ∀ i, i < s.npolls → (Poll.wait poll s w).1.2 i &&& B.POLLNVAL ≠ 0 →
        Poll.event_wait B poll code s w = none) ∧
      (∀ x ∈ (Poll.event_log B poll code s w).1,
        x.n < s.npolls ∧ x.m ≠ 0 ∧ x.m &&& B.POLLNVAL = 0 ∧ x.what = deliver B x.m ∧
        (B.pollin ≠ B.pollnval → x.what &&& B.POLLNVAL = 0) ∧
        (Poll.WF s → (Poll.wait poll s w).1.2 x.n ||| x.m = x.m ∧
          (Poll.wait poll s w).1.2 x.n &&& B.POLLNVAL = 0)) ∧
      ((Poll.event_log B poll code s w).2 =
          (Poll.event_wait B poll code s w).map (fun r => (r.s, r.w)) ∧
        ∀ r, Poll.event_wait B poll code s w = some r →
          (Poll.event_log B poll code s w).1 = r.calls.map Poll.Call.invocation) :=
  fun _ B poll code s w =>
    ⟨fun r h c hc => Poll.poll_nval_calls B poll code s w r h c hc,
      fun r i h hw hi hv => Poll.poll_nval_passed B poll code s w r h hw i hi hv,
      fun hw hc hm i hi hv => Poll.poll_nval_abort B poll code s w hw hc hm i hi hv,
      Poll.poll_event_log_calls B poll code s w,
      Poll.poll_event_log_agree B poll code s w⟩

/-- C16 (amended) on descriptors 3 and 5 and callbacks that do nothing. With POLLNVAL
reported for both, `event_wait` aborts and no callback has been invoked. With POLLOUT
reported for 3 and POLLNVAL for 5, it aborts after the one invocation of the callback of 3,
with POLLOUT. -/
theorem C16_witness :
    (Poll.WF Poll.two ∧ Poll.two.changed = false ∧ 1 < Poll.two.npolls ∧
      (Poll.wait (Poll.reports 32) Poll.two ()).1.2 1 &&& PollBits.linux.POLLNVAL ≠ 0 ∧
      Poll.event_wait PollBits.linux (Poll.reports 32) quiet Poll.two () = none ∧
      Poll.event_log PollBits.linux (Poll.reports 32) quiet Poll.two () = ([], none)) ∧
    (Poll.stale_log = ([⟨0, 4, 10, 4, 100⟩], none) ∧
      Poll.event_wait PollBits.linux Poll.stale quiet Poll.two () = none ∧
      ((⟨0, 4, 10, 4, 100⟩ : Poll.Invocation).n < Poll.two.npolls ∧
        (⟨0, 4, 10, 4, 100⟩ : Poll.Invocation).m ≠ 0 ∧
        (⟨0, 4, 10, 4, 100⟩ : Poll.Invocation).m &&& PollBits.linux.POLLNVAL = 0 ∧
        (⟨0, 4, 10, 4, 100⟩ : Poll.Invocation).what =
          deliver PollBits.linux (⟨0, 4, 10, 4, 100⟩ : Poll.Invocation).m ∧
        (PollBits.linux.pollin ≠ PollBits.linux.pollnval →
          (⟨0, 4, 10, 4, 100⟩ : Poll.Invocation).what &&& PollBits.linux.POLLNVAL = 0) ∧
        (Poll.WF Poll.two →
          (Poll.wait Poll.stale Poll.two ()).1.2 (⟨0, 4, 10, 4, 100⟩ : Poll.Invocation).n |||
              (⟨0, 4, 10, 4, 100⟩ : Poll.Invocation).m =
            (⟨0, 4, 10, 4, 100⟩ : Poll.Invocation).m ∧
          (Poll.wait Poll.stale Poll.two ()).1.2 (⟨0, 4, 10, 4, 100⟩ : Poll.Invocation).n &&&
            PollBits.linux.POLLNVAL = 0))) :=
  ⟨⟨by decide, rfl, by decide, by decide,
      (C16_invalid_descriptor_fatal Unit PollBits.linux (Poll.reports 32) quiet Poll.two ()).2.2.1
        (by decide) rfl (fun _ _ _ _ => rfl) 1 (by decide) (by decide),
      by decide⟩,
    ⟨by decide, rfl,
      (C16_invalid_descriptor_fatal Unit PollBits.linux Poll.stale quiet Poll.two ()).2.2.2.1
        ⟨0, 4, 10, 4, 100⟩ (by decide)⟩⟩

/-- C18: every state reached from the initial one by table operations has `npolls` at most
`rpolls`, both arrays of `rpolls` elements, and `rpolls` equal to the largest `npolls` the
run went through. On such a table `del_fd` leaves `rpolls` and the arrays' sizes alone;
`add_fd` writes at the old `npolls`, below the new size, and enlarges the arrays exactly
when the new count exceeds `rpolls`, which then becomes the new count; an `add_fd` after a
`del_fd` leaves `rpolls` and the sizes as they were before the `del_fd`. -/
theorem C18_high_water_mark :
    ((∀ ops s, Poll.run_ops ops Poll.init = some s →
        Poll.WF s ∧ s.rpolls = Poll.peak ops Poll.init) ∧
      (∀ s fd s1, Poll.WF s → Poll.del_fd s fd = some s1 →
        Poll.WF s1 ∧ s1.npolls + 1 = s.npolls ∧ s1.rpolls = s.rpolls ∧
        s1.pollfds.length = s.pollfds.length ∧ s1.fdparms.length = s.fdparms.length) ∧
      (∀ s fd cb aux s2, Poll.WF s → Poll.add_fd s fd cb aux = some s2 →
        Poll.WF s2 ∧ s2.npolls = s.npolls + 1 ∧
        (s.rpolls < s.npolls + 1 → s2.rpolls = s.npolls + 1 ∧
          s2.pollfds.length = s.pollfds.length + 1 ∧
          s2.fdparms.length = s.fdparms.length + 1) ∧
        (¬ s.rpolls < s.npolls + 1 → s2.rpolls = s.rpolls ∧
          s2.pollfds.length = s.pollfds.length ∧ s2.fdparms.length = s.fdparms.length) ∧
        s.npolls < s2.pollfds.length ∧ s.npolls < s2.fdparms.length) ∧
      (∀ s fd s1 fd2 cb aux s2, Poll.WF s → Poll.del_fd s fd = some s1 →
        Poll.add_fd s1 fd2 cb aux = some s2 →
        s2.rpolls = s.rpolls ∧ s2.pollfds.length = s.pollfds.length ∧
        s2.fdparms.length = s.fdparms.length)) ∧
    ((∀ ops s, Select.run_ops ops Select.init = some s →
        Select.WF s ∧ s.rpolls = Select.peak ops Select.init) ∧
      (∀ s fd s1, Select.WF s → Select.del_fd s fd = some s1 →
        Select.WF s1 ∧ s1.npolls + 1 = s.npolls ∧ s1.rpolls = s.rpolls ∧
        s1.fdparms.length = s.fdparms.length) ∧
      (∀ s fd cb aux s2, Select.WF s → Select.add_fd s fd cb aux = some s2 →
        Select.WF s2 ∧ s2.npolls = s.npolls + 1 ∧
        (s.rpolls < s.npolls + 1 → s2.rpolls = s.npolls + 1 ∧
          s2.fdparms.length = s.fdparms.length + 1) ∧
        (¬ s.rpolls < s.npolls + 1 → s2.rpolls = s.rpolls ∧
          s2.fdparms.length = s.fdparms.length) ∧
        s.npolls < s2.fdparms.length) ∧
      (∀ s fd s1 fd2 cb aux s2, Select.WF s → Select.del_fd s fd = some s1 →
        Select.add_fd s1 fd2 cb aux = some s2 →
        s2.rpolls = s.rpolls ∧ s2.fdparms.length = s.fdparms.length)) := by
  refine ⟨⟨Poll.poll_init_peak, fun s fd s1 hw h => Poll.poll_del_cap s s1 hw fd h,
      fun s fd cb aux s2 hw h => Poll.poll_add_grow s s2 hw fd cb aux h,
      fun s fd s1 fd2 cb aux s2 hw h1 h2 => ?_⟩,
    ⟨Select.sel_init_peak, fun s fd s1 hw h => Select.sel_del_cap s s1 hw fd h,
      fun s fd cb aux s2 hw h => Select.sel_add_grow s s2 hw fd cb aux h,
      fun s fd s1 fd2 cb aux s2 hw h1 h2 => ?_⟩⟩
  · exact (Poll.poll_del_then_add s s1 s2 hw fd fd2 cb aux h1 h2).2.2.2
  · exact (Select.sel_del_then_add s s1 s2 hw fd fd2 cb aux h1 h2).2.2

/-- C18 on adding descriptors 3 and 5, removing 3, adding 7, removing 5 and 7, from the
initial state: two is the largest count, and the capacity at the end, with one entry. -/
theorem C18_witness :
    (Poll.run_ops [Op.add 3 10 100, Op.add 5 11 101, Op.del 3, Op.add 7 12 102, Op.del 5]
        Poll.init = some ⟨[⟨7, 0, 0⟩, ⟨7, 0, 0⟩], [⟨12, 102, 0⟩, ⟨12, 102, 0⟩], 1, 2, true⟩ ∧
      Poll.peak [Op.add 3 10 100, Op.add 5 11 101, Op.del 3, Op.add 7 12 102, Op.del 5]
        Poll.init = 2 ∧
      Poll.WF ⟨[⟨7, 0, 0⟩, ⟨7, 0, 0⟩], [⟨12, 102, 0⟩, ⟨12, 102, 0⟩], 1, 2, true⟩ ∧
      (2 : Nat) = Poll.peak
        [Op.add 3 10 100, Op.add 5 11 101, Op.del 3, Op.add 7 12 102, Op.del 5] Poll.init) ∧
    (Select.run_ops [Op.add 3 10 100, Op.add 5 11 101, Op.del 3, Op.add 7 12 102, Op.del 5]
        Select.init = some ⟨[⟨12, 102, 7, 0, 0⟩, ⟨12, 102, 7, 0, 0⟩], 1, 2, true⟩ ∧
      Select.WF ⟨[⟨12, 102, 7, 0, 0⟩, ⟨12, 102, 7, 0, 0⟩], 1, 2, true⟩ ∧
      (2 : Nat) = Select.peak
        [Op.add 3 10 100, Op.add 5 11 101, Op.del 3, Op.add 7 12 102, Op.del 5] Select.init) :=
  ⟨⟨rfl, rfl, C18_high_water_mark.1.1 _ _ rfl⟩, ⟨rfl, C18_high_water_mark.2.1 _ _ rfl⟩⟩

/-- C20: for a function `isspace` that the NUL does not satisfy and a string `content`
without double quote (and, being a C string, without NUL), stored with its NUL, the calls
of `next_arg` on a cell that points to its start (at most `strlen + 1` of them) return the
maximal runs of non-whitespace characters of `content`, in order, then null, and leave the
cell null; each run is non-empty and has no whitespace character, and end to end they are
the non-whitespace characters of `content`. On a string of whitespace only the first call
returns null and sets the cell to null, and on a null cell, or a null `s`, `next_arg`
returns null. -/
theorem C20_next_arg_tokens :
    ∀ (sp : Char → Bool) (content : List Char) (k : Nat), sp NUL = false →
      (∀ x ∈ content, x ≠ NUL ∧ x ≠ QUOTE) → content.length < k →
      next_args sp k (content ++ [NUL]) (some 0) = some (runs sp content, none) ∧
      (∀ t ∈ runs sp content, t ≠ [] ∧ ∀ x ∈ t, sp x = false) ∧
      (runs sp content).flatten = content.filter (fun x => !sp x) ∧
      ((∀ x ∈ content, sp x = true) →
        next_arg sp (content ++ [NUL]) (some (some 0)) =
          some ⟨none, some none, content ++ [NUL]⟩) ∧
      (∀ buf, next_arg sp buf (some none) = some ⟨none, some none, buf⟩ ∧
        next_arg sp buf none = some ⟨none, none, buf⟩) := by
  intro sp content k hnul hr hk
  refine ⟨next_args_spec sp hnul content.length (content ++ [NUL]) 0 content k (le_refl _) hk
      rfl hr,
    runs_from_words sp content [] (fun x hx => by cases hx),
    by have := runs_from_join sp content []; simpa [runs] using this,
    fun hs => ?_, fun buf => ⟨rfl, rfl⟩⟩
  rcases next_arg_step sp hnul (content ++ [NUL]) 0 content rfl hr with ⟨_, e⟩ |
    ⟨spaces, tok, e1, _, ht, htn, _⟩ | ⟨spaces, tok, c, rest2, e1, _, ht, htn, _⟩
  · exact e
  · exfalso
    cases tok with
    | nil => exact htn rfl
    | cons y ys =>
      have h1 := ht y (List.mem_cons_self _ _)
      have h2 := hs y (by rw [e1]; simp)
      rw [h1] at h2; cases h2
  · exfalso
    cases tok with
    | nil => exact htn rfl
    | cons y ys =>
      have h1 := ht y (List.mem_cons_self _ _)
      have h2 := hs y (by rw [e1]; simp)
      rw [h1] at h2; cases h2

/-- C20 on the string " ab  c" with `isspace` of the "C" locale: the calls return "ab",
then "c", then null. -/
theorem C20_witness :
    next_args c_isspace 7 ([' ', 'a', 'b', ' ', ' ', 'c'] ++ [NUL]) (some 0) =
      some ([['a', 'b'], ['c']], none) ∧
    runs c_isspace [' ', 'a', 'b', ' ', ' ', 'c'] = [['a', 'b'], ['c']] ∧
    next_args c_isspace 7 ([' ', 'a', 'b', ' ', ' ', 'c'] ++ [NUL]) (some 0) =
      some (runs c_isspace [' ', 'a', 'b', ' ', ' ', 'c'], none) :=
  ⟨by decide, by decide,
    (C20_next_arg_tokens c_isspace [' ', 'a', 'b', ' ', ' ', 'c'] 7 (by decide) (by decide)
      (by decide)).1⟩

end Isync
